import Mathlib

/-!
Verification of the document-mutation pipeline of the resume generator
(googleDocsResumeGenerator.ts).  The pipeline operates on a remote,
offset-addressed Google document; we embed the document as a list of
structural blocks (paragraphs with text runs and absolute offsets) and
translate each pipeline stage into a pure Lean function over that
embedding.  Remote edits are represented as explicit edit requests.
-/

namespace ResumeGen

/-! ## Generic list/character utilities -/

/-- Distance between two natural numbers, mirroring Math.abs(a - b). -/
def dist (a b : Nat) : Nat := max a b - min a b

/-- Check that the first list is a prefix of the second (decidable, executable). -/
def hasPrefixL : List Char → List Char → Bool
  | [], _ => true
  | _ :: _, [] => false
  | a :: as, b :: bs => a == b && hasPrefixL as bs

/-- Check that the first list occurs as a contiguous sublist of the second;
mirrors JavaScript String.prototype.includes. -/
def hasSubstrL (n : List Char) : List Char → Bool
  | [] => n.isEmpty
  | c :: rest => hasPrefixL n (c :: rest) || hasSubstrL n rest

/-- String-level substring containment (hay.includes(needle)). -/
def strContains (hay needle : String) : Bool := hasSubstrL needle.data hay.data

/-- First index (if any) at which the predicate holds; mirrors Array.findIndex
restricted to a found result. -/
def findIdxA (p : α → Bool) : List α → Option Nat
  | [] => none
  | a :: l => if p a then some 0 else (findIdxA p l).map (· + 1)

theorem findIdxA_some_elem {p : α → Bool} :
    ∀ {l : List α} {j : Nat}, findIdxA p l = some j →
      ∃ a, l[j]? = some a ∧ p a = true := by
  intro l
  induction l with
  | nil => intro j h; simp [findIdxA] at h
  | cons a l ih =>
    intro j h
    by_cases hp : p a
    · simp [findIdxA, hp] at h
      subst h
      exact ⟨a, by simp, hp⟩
    · simp [findIdxA, hp] at h
      obtain ⟨j', hj', rfl⟩ := h
      obtain ⟨b, hb, hpb⟩ := ih hj'
      exact ⟨b, by simpa using hb, hpb⟩

theorem findIdxA_some_min {p : α → Bool} :
    ∀ {l : List α} {j : Nat}, findIdxA p l = some j →
      ∀ m, m < j → ∀ a, l[m]? = some a → p a = false := by
  intro l
  induction l with
  | nil => intro j h; simp [findIdxA] at h
  | cons a l ih =>
    intro j h
    by_cases hp : p a
    · simp [findIdxA, hp] at h
      subst h
      intro m hm
      omega
    · simp [findIdxA, hp] at h
      obtain ⟨j', hj', rfl⟩ := h
      intro m hm b hb
      match m with
      | 0 =>
        simp at hb
        subst hb
        simpa using hp
      | Nat.succ m' =>
        simp at hb
        exact ih hj' m' (by omega) b hb

theorem findIdxA_none {p : α → Bool} :
    ∀ {l : List α}, findIdxA p l = none → ∀ a ∈ l, p a = false := by
  intro l
  induction l with
  | nil => intro _ a ha; simp at ha
  | cons a l ih =>
    intro h b hb
    by_cases hp : p a
    · simp [findIdxA, hp] at h
    · simp [findIdxA, hp] at h
      rcases List.mem_cons.mp hb with rfl | hb'
      · simpa using hp
      · exact ih h b hb'

theorem findIdxA_eq_some_of {p : α → Bool} :
    ∀ {l : List α} {j : Nat} {a : α}, l[j]? = some a → p a = true →
      (∀ m, m < j → ∀ b, l[m]? = some b → p b = false) →
      findIdxA p l = some j := by
  intro l
  induction l with
  | nil => intro j a hj; simp at hj
  | cons c l ih =>
    intro j a hj hpa hmin
    match j with
    | 0 =>
      simp at hj
      subst hj
      simp [findIdxA, hpa]
    | Nat.succ j' =>
      have hc : p c = false := hmin 0 (Nat.succ_pos _) c (by simp)
      simp at hj
      have hrec : findIdxA p l = some j' := by
        refine ih hj hpa ?_
        intro m hm b hb
        exact hmin (m+1) (by omega) b (by simpa using hb)
      simp [findIdxA, hc, hrec]

/-! ## Document model

A document snapshot is an ordered list of structural blocks.  Each block
carries its absolute start/end character offsets, whether it is a paragraph,
and the contents of its text runs (paragraph elements).  The ghost field
id identifies a block across snapshots so we can speak about which blocks
survive a stage; it has no counterpart in the data and no stage reads it.
A missing startIndex/endIndex of the remote schema is modelled as 0,
matching the code's falsy check that treats 0 and undefined alike. -/

structure Block where
  id : Nat
  start : Nat
  stop : Nat
  isPara : Bool
  runs : List String
deriving DecidableEq, Repr

/-- Text of a paragraph: the concatenation of its text-run contents;
non-paragraph structural elements contribute no text (getParagraphText). -/
def paraText (b : Block) : String := if b.isPara then String.join b.runs else ""

/-- Whitespace characters removed by String.prototype.trim (ASCII fragment). -/
def isWS (c : Char) : Bool := c == ' ' || c == '\t' || c == '\n' || c == '\r'

/-- List-level trim of leading and trailing whitespace. -/
def trimL (cs : List Char) : List Char :=
  ((cs.dropWhile isWS).reverse.dropWhile isWS).reverse

/-- String trim (String.prototype.trim). -/
def strTrim (s : String) : String := String.mk (trimL s.data)

/-- String upper-casing (String.prototype.toUpperCase, ASCII fragment). -/
def strUpper (s : String) : String := String.mk (s.data.map Char.toUpper)

/-- Normalized block text: trimmed and upper-cased, the comparison form used
throughout the pipeline. -/
def normText (s : String) : String := strUpper (strTrim s)

/-- An edit request sent to the remote batchUpdate interface. -/
inductive Request where
  | replaceAllText (search replace : String) (matchCase : Bool)
  | deleteRange (startIndex endIndex : Nat)
  | updateBold (startIndex endIndex : Nat)
deriving DecidableEq, Repr

/-! ## Section vocabulary (RESUME_SECTIONS) -/

structure ExperienceEntry where
  company : String
  companyLocation : String
  date : String
  position : String
  points : List String
deriving DecidableEq, Repr

structure ProjectEntry where
  name : String
  points : List String
deriving DecidableEq, Repr

structure EducationEntry where
  institution : String
  degree : String
  date : String
deriving DecidableEq, Repr

structure SkillsContent where
  content : String
deriving DecidableEq, Repr

structure ResumeData where
  experience : List ExperienceEntry
  projects : List ProjectEntry
  education : List EducationEntry
  languageSkills : SkillsContent
  technicalSkills : SkillsContent
deriving Repr

/-- The five declared document sections. -/
inductive ResumeSection where
  | EXPERIENCE
  | PROJECTS
  | EDUCATION
  | LANGUAGE_SKILLS
  | TECHNICAL_SKILLS
deriving DecidableEq, Repr

/-- Heading label of a section. -/
def heading : ResumeSection → String
  | .EXPERIENCE => "EXPERIENCE"
  | .PROJECTS => "PROJECTS"
  | .EDUCATION => "EDUCATION"
  | .LANGUAGE_SKILLS => "LANGUAGE SKILLS"
  | .TECHNICAL_SKILLS => "TECHNICAL SKILLS"

/-- Presence check of a section against the structured data (dataCheck). -/
def dataCheck (s : ResumeSection) (d : ResumeData) : Bool :=
  match s with
  | .EXPERIENCE => decide (d.experience.length > 0)
  | .PROJECTS => decide (d.projects.length > 0)
  | .EDUCATION => decide (d.education.length > 0)
  | .LANGUAGE_SKILLS => strTrim d.languageSkills.content != ""
  | .TECHNICAL_SKILLS => strTrim d.technicalSkills.content != ""

/-- All sections, in declaration order. -/
def allSections : List ResumeSection :=
  [.EXPERIENCE, .PROJECTS, .EDUCATION, .LANGUAGE_SKILLS, .TECHNICAL_SKILLS]

/-- getAllHeadings: every declared heading label. -/
def allHeadings : List String := allSections.map heading

/-! ## SectionPruner (removeSection / removeEmptySections) -/

/-- Predicate for the boundary scan of removeSection: a block whose
normalized text is ANY declared heading other than the current one. -/
def isOtherHeading (hd : String) (b : Block) : Bool :=
  allHeadings.contains (normText (paraText b)) && normText (paraText b) != strUpper hd

/-- The batch of requests issued by removeSection for one heading against the
current snapshot: at most one DeleteRange, from the heading block's start
offset to the end offset of the last block before the next other declared
heading (or to the final block).  Empty when the heading is not found or an
offset is missing (modelled as 0, the code's falsy check). -/
def removeSection (content : List Block) (hd : String) : List Request :=
  match findIdxA (fun b => normText (paraText b) == strUpper hd) content with
  | none => []
  | some si =>
    let ei := match findIdxA (isOtherHeading hd) (content.drop (si+1)) with
      | some j => si + j
      | none => content.length - 1
    match content[si]?, content[ei]? with
    | some bs, some be =>
      if bs.start == 0 || be.stop == 0 then []
      else [Request.deleteRange bs.start be.stop]
    | _, _ => []

/-- The request batch the SectionPruner issues for one section: removeSection
is called exactly when the section's presence check fails
(removeEmptySections). -/
def sectionPrunerRequests (content : List Block) (d : ResumeData)
    (s : ResumeSection) : List Request :=
  if dataCheck s d then [] else removeSection content (heading s)

/-! ## Snapshot well-formedness

The data-model invariant of a document snapshot: block offsets are
non-overlapping and strictly increasing in block order, each block's range is
non-empty, and offsets are positive (offset 0 marks a missing offset). -/

def Ordered (l : List Block) : Prop :=
  l.Pairwise (fun a b => a.stop ≤ b.start) ∧ ∀ b ∈ l, b.start < b.stop

theorem Ordered.le {l : List Block} (h : Ordered l) {m n : Nat} {bm bn : Block}
    (hmn : m < n) (hm : l[m]? = some bm) (hn : l[n]? = some bn) :
    bm.stop ≤ bn.start := by
  have hmL : m < l.length := by
    by_contra hc
    simp [List.getElem?_eq_none (Nat.le_of_not_lt hc)] at hm
  have hnL : n < l.length := by
    by_contra hc
    simp [List.getElem?_eq_none (Nat.le_of_not_lt hc)] at hn
  have := (List.pairwise_iff_getElem).mp h.1 m n hmL hnL hmn
  have hm' : l[m] = bm := by
    have := List.getElem?_eq_getElem hmL
    rw [this] at hm; exact Option.some.inj hm
  have hn' : l[n] = bn := by
    have := List.getElem?_eq_getElem hnL
    rw [this] at hn; exact Option.some.inj hn
  rw [hm', hn'] at this
  exact this

theorem Ordered.lt_stop {l : List Block} (h : Ordered l) {m : Nat} {bm : Block}
    (hm : l[m]? = some bm) : bm.start < bm.stop := by
  have : bm ∈ l := by
    have hmL : m < l.length := by
      by_contra hc
      simp [List.getElem?_eq_none (Nat.le_of_not_lt hc)] at hm
    have := List.getElem?_eq_getElem hmL
    rw [this] at hm
    exact (Option.some.inj hm) ▸ List.getElem_mem hmL
  exact h.2 bm this

/-! ## Heading vocabulary facts -/

theorem heading_toUpper (s : ResumeSection) : strUpper (heading s) = heading s := by
  cases s <;> decide

theorem heading_contains_allHeadings (s : ResumeSection) :
    allHeadings.contains (heading s) = true := by
  cases s <;> decide

theorem heading_mem_allHeadings (s : ResumeSection) : heading s ∈ allHeadings := by
  cases s <;> decide

theorem heading_inj {s t : ResumeSection} (h : t ≠ s) : heading t ≠ heading s := by
  cases s <;> cases t <;> first
  | exact absurd rfl h
  | decide

theorem getElem?_drop_add (l : List Block) (n m : Nat) :
    (l.drop n)[m]? = l[n + m]? := by
  simp [List.getElem?_drop]

/-! ## C1: SectionPruner correctness -/

/-- Index j is the boundary for the section starting at heading index si:
the first block after si whose normalized text is a different declared
heading. -/
def IsBoundaryIdx (content : List Block) (hd : String) (si j : Nat) : Prop :=
  si < j ∧ (∃ bj, content[j]? = some bj ∧ isOtherHeading hd bj = true) ∧
    ∀ m, si < m → m < j → ∀ b, content[m]? = some b →
      isOtherHeading hd b = false

/-- No block after the heading index si is a different declared heading. -/
def NoBoundary (content : List Block) (hd : String) (si : Nat) : Prop :=
  ∀ m, si < m → ∀ b, content[m]? = some b → isOtherHeading hd b = false

theorem mem_of_getElem?A {l : List α} {i : Nat} {a : α} (h : l[i]? = some a) :
    a ∈ l := by
  have hi : i < l.length := by
    by_contra hc
    simp [List.getElem?_eq_none (Nat.le_of_not_lt hc)] at h
  have := List.getElem?_eq_getElem hi
  rw [this] at h
  exact (Option.some.inj h) ▸ List.getElem_mem hi

theorem lt_length_of_getElem?A {l : List α} {i : Nat} {a : α}
    (h : l[i]? = some a) : i < l.length := by
  by_contra hc
  simp [List.getElem?_eq_none (Nat.le_of_not_lt hc)] at h

/-- C1: for a section whose presence check is false and whose heading block is
found (and first) in the snapshot, the SectionPruner issues exactly one
DeleteRange from that heading block's start offset to the end offset of the
last block before the next block whose normalized text is a different
declared heading (or to the final block when no such heading follows); and
the character range it deletes is disjoint from the heading block and body
blocks of every other declared section. -/
theorem sectionPruner_correct
    (content : List Block) (d : ResumeData) (s : ResumeSection)
    (habs : dataCheck s d = false)
    (si : Nat) (bs : Block)
    (hsi : content[si]? = some bs)
    (hmatch : normText (paraText bs) = heading s)
    (hfirst : ∀ m, m < si → ∀ b, content[m]? = some b →
        normText (paraText b) ≠ heading s)
    (hord : Ordered content)
    (hpos : ∀ b ∈ content, 0 < b.start) :
    (∀ j, IsBoundaryIdx content (heading s) si j →
       ∃ bp, content[j-1]? = some bp ∧
         sectionPrunerRequests content d s =
           [Request.deleteRange bs.start bp.stop]) ∧
    (NoBoundary content (heading s) si →
       ∃ bl, content[content.length - 1]? = some bl ∧
         sectionPrunerRequests content d s =
           [Request.deleteRange bs.start bl.stop]) ∧
    (∀ (t : ResumeSection), t ≠ s →
       ∀ k bk, content[k]? = some bk → normText (paraText bk) = heading t →
         ∀ a e, sectionPrunerRequests content d s = [Request.deleteRange a e] →
           (bk.stop ≤ a ∨ e ≤ bk.start) ∧
           (∀ (m : Nat) (bm : Block), content[m]? = some bm → k < m →
              (∀ m', k < m' → m' ≤ m → ∀ b', content[m']? = some b' →
                 allHeadings.contains (normText (paraText b')) = false) →
              (bm.stop ≤ a ∨ e ≤ bm.start))) := by
  have hfind : findIdxA (fun b => normText (paraText b) == strUpper (heading s))
      content = some si := by
    refine findIdxA_eq_some_of hsi ?_ ?_
    · simp [hmatch, heading_toUpper]
    · intro m hm b hb
      simp [heading_toUpper, hfirst m hm b hb]
  -- the heading block's start offset is valid
  have hbs_pos : 0 < bs.start := hpos bs (mem_of_getElem?A hsi)
  have hsiL : si < content.length := lt_length_of_getElem?A hsi
  cases hb : findIdxA (isOtherHeading (heading s)) (content.drop (si+1)) with
  | some jl =>
    -- boundary found at global index si + 1 + jl
    obtain ⟨bj, hbj, hbjo⟩ := findIdxA_some_elem hb
    rw [getElem?_drop_add] at hbj
    have fmin : ∀ m, si < m → m < si + 1 + jl → ∀ b, content[m]? = some b →
        isOtherHeading (heading s) b = false := by
      intro m hm1 hm2 b hmb
      have := findIdxA_some_min hb (m - (si+1)) (by omega) b
      rw [getElem?_drop_add] at this
      have harith : si + 1 + (m - (si + 1)) = m := by omega
      rw [harith] at this
      exact this hmb
    have hjgL : si + 1 + jl < content.length := lt_length_of_getElem?A hbj
    have heiL : si + jl < content.length := by omega
    have hbe : content[si + jl]? = some (content[si + jl]) :=
      List.getElem?_eq_getElem heiL
    set be := content[si + jl] with hbe_def
    have hbe_stop_pos : 0 < be.stop :=
      lt_trans (hpos be (mem_of_getElem?A hbe)) (hord.lt_stop hbe)
    have hreq : sectionPrunerRequests content d s =
        [Request.deleteRange bs.start be.stop] := by
      have h1 : (bs.start == 0) = false := by
        simp [Nat.pos_iff_ne_zero.mp hbs_pos]
      have h2 : (be.stop == 0) = false := by
        simp [Nat.pos_iff_ne_zero.mp hbe_stop_pos]
      simp [sectionPrunerRequests, habs, removeSection, hfind, hb, hsi, hbe,
        h1, h2]
    refine ⟨?_, ?_, ?_⟩
    · -- boundary case
      intro j hj
      obtain ⟨hj1, ⟨bj', hbj', hbj'o⟩, hjmin⟩ := hj
      have hjeq : j = si + 1 + jl := by
        rcases Nat.lt_trichotomy j (si + 1 + jl) with hlt | heq | hgt
        · have := fmin j hj1 hlt bj' hbj'
          rw [this] at hbj'o
          exact absurd hbj'o (by simp)
        · exact heq
        · have := hjmin (si + 1 + jl) (by omega) hgt bj hbj
          rw [this] at hbjo
          exact absurd hbjo (by simp)

      subst hjeq
      have : si + 1 + jl - 1 = si + jl := by omega
      rw [this]
      exact ⟨be, hbe, hreq⟩
    · -- no-boundary case: contradicts the found boundary
      intro hnb
      have := hnb (si + 1 + jl) (by omega) bj hbj
      rw [this] at hbjo
      exact absurd hbjo (by simp)
    · -- other sections untouched
      intro t hts k bk hk hkt a e heq
      rw [hreq] at heq
      simp only [List.cons.injEq, and_true, Request.deleteRange.injEq] at heq
      obtain ⟨ha', he'⟩ := heq
      subst ha'
      subst he'
      have hko : isOtherHeading (heading s) bk = true := by
        simp [isOtherHeading, hkt, heading_toUpper, heading_mem_allHeadings t,
          heading_inj hts]
      have hknsi : k ≠ si := by
        intro hks
        subst hks
        rw [hk] at hsi
        cases hsi
        rw [hmatch] at hkt
        exact heading_inj hts hkt.symm
      have hkpos : k < si ∨ si + jl < k := by
        rcases Nat.lt_or_ge k si with h | h
        · exact Or.inl h
        · have hksi : si < k := lt_of_le_of_ne h (Ne.symm hknsi)
          right
          by_contra hc
          have hkl : k < si + 1 + jl := by omega
          have := fmin k hksi hkl bk hk
          rw [this] at hko
          exact absurd hko (by simp)
      constructor
      · rcases hkpos with h | h
        · exact Or.inl (hord.le h hk hsi)
        · exact Or.inr (hord.le h hbe hk)
      · intro m bm hm hkm hclean
        rcases hkpos with h | h
        · -- the other section lies before the removed one
          have hmsi : m < si := by
            by_contra hc
            have hsm : si ≤ m := Nat.le_of_not_lt hc
            have := hclean si h hsm bs hsi
            rw [hmatch] at this
            rw [heading_contains_allHeadings s] at this
            exact absurd this (by simp)
          exact Or.inl (hord.le hmsi hm hsi)
        · exact Or.inr (hord.le (lt_trans h hkm) hbe hm)
  | none =>
    have fnone : ∀ m, si < m → ∀ b, content[m]? = some b →
        isOtherHeading (heading s) b = false := by
      intro m hm b hmb
      have hmem : b ∈ content.drop (si+1) := by
        refine @mem_of_getElem?A Block (content.drop (si+1)) (m - (si+1)) b ?_
        rw [getElem?_drop_add]
        have harith : si + 1 + (m - (si + 1)) = m := by omega
        rw [harith]
        exact hmb
      exact findIdxA_none hb b hmem
    have hlenpos : 0 < content.length := lt_of_le_of_lt (Nat.zero_le si) hsiL
    have heiL : content.length - 1 < content.length := by omega
    have hbe : content[content.length - 1]? =
        some (content[content.length - 1]) :=
      List.getElem?_eq_getElem heiL
    set be := content[content.length - 1] with hbe_def
    have hbe_stop_pos : 0 < be.stop :=
      lt_trans (hpos be (mem_of_getElem?A hbe)) (hord.lt_stop hbe)
    have hreq : sectionPrunerRequests content d s =
        [Request.deleteRange bs.start be.stop] := by
      have h1 : (bs.start == 0) = false := by
        simp [Nat.pos_iff_ne_zero.mp hbs_pos]
      have h2 : (be.stop == 0) = false := by
        simp [Nat.pos_iff_ne_zero.mp hbe_stop_pos]
      simp [sectionPrunerRequests, habs, removeSection, hfind, hb, hsi, hbe,
        h1, h2]
    refine ⟨?_, ?_, ?_⟩
    · -- a boundary cannot exist
      intro j hj
      obtain ⟨hj1, ⟨bj', hbj', hbj'o⟩, _⟩ := hj
      have := fnone j hj1 bj' hbj'
      rw [this] at hbj'o
      exact absurd hbj'o (by simp)
    · intro _
      exact ⟨be, hbe, hreq⟩
    · intro t hts k bk hk hkt a e heq
      rw [hreq] at heq
      simp only [List.cons.injEq, and_true, Request.deleteRange.injEq] at heq
      obtain ⟨ha', he'⟩ := heq
      subst ha'
      subst he'
      have hko : isOtherHeading (heading s) bk = true := by
        simp [isOtherHeading, hkt, heading_toUpper, heading_mem_allHeadings t,
          heading_inj hts]
      have hknsi : k ≠ si := by
        intro hks
        subst hks
        rw [hk] at hsi
        cases hsi
        rw [hmatch] at hkt
        exact heading_inj hts hkt.symm
      have hksi : k < si := by
        rcases Nat.lt_or_ge k si with h | h
        · exact h
        · have hksi : si < k := lt_of_le_of_ne h (Ne.symm hknsi)
          have := fnone k hksi bk hk
          rw [this] at hko
          exact absurd hko (by simp)
      constructor
      · exact Or.inl (hord.le hksi hk hsi)
      · intro m bm hm hkm hclean
        have hmsi : m < si := by
          by_contra hc
          have hsm : si ≤ m := Nat.le_of_not_lt hc
          have := hclean si hksi hsm bs hsi
          rw [hmatch] at this
          rw [heading_contains_allHeadings s] at this
          exact absurd this (by simp)
        exact Or.inl (hord.le hmsi hm hsi)

/-- Concrete snapshot used by witnesses: a PROJECTS section (heading and one
body paragraph) followed by an EDUCATION section. -/
def wDoc : List Block :=
  [⟨1, 1, 10, true, ["PROJECTS\n"]⟩,
   ⟨2, 10, 30, true, ["project one\n"]⟩,
   ⟨3, 30, 40, true, ["EDUCATION\n"]⟩,
   ⟨4, 40, 50, true, ["BSc\n"]⟩]

/-- Concrete structured data with no projects but one education entry. -/
def wData : ResumeData :=
  ⟨[], [], [⟨"U", "BSc", "2020"⟩], ⟨""⟩, ⟨""⟩⟩

/-- Witness for C1 on the concrete snapshot: PROJECTS is absent, its heading
is block 0, the next other declared heading is block 2, and the pruner issues
exactly the DeleteRange covering blocks 0 and 1. -/
theorem sectionPruner_correct_witness :
    ∃ bp, wDoc[1]? = some bp ∧
      sectionPrunerRequests wDoc wData ResumeSection.PROJECTS =
        [Request.deleteRange 1 30] := by
  have h := sectionPruner_correct wDoc wData .PROJECTS (by decide) 0
    ⟨1, 1, 10, true, ["PROJECTS\n"]⟩ (by decide) (by decide)
    (by intro m hm; exact absurd hm (Nat.not_lt_zero m))
    (by constructor; · decide
        · decide)
    (by decide)
  have hbound : IsBoundaryIdx wDoc (heading .PROJECTS) 0 2 := by
    refine ⟨by omega, ⟨⟨3, 30, 40, true, ["EDUCATION\n"]⟩, by decide, by decide⟩, ?_⟩
    intro m h1 h2 b hbm
    have hm1 : m = 1 := by omega
    subst hm1
    have hbval : b = ⟨2, 10, 30, true, ["project one\n"]⟩ := by
      have : wDoc[1]? = some ⟨2, 10, 30, true, ["project one\n"]⟩ := by decide
      rw [this] at hbm
      exact (Option.some.inj hbm).symm
    subst hbval
    decide
  obtain ⟨bp, h1, h2⟩ := h.1 2 hbound
  have hbp : bp = ⟨2, 10, 30, true, ["project one\n"]⟩ := by
    have hv : wDoc[2-1]? = some ⟨2, 10, 30, true, ["project one\n"]⟩ := by decide
    rw [hv] at h1
    exact (Option.some.inj h1).symm
  subst hbp
  exact ⟨_, h1, h2⟩

/-! ## EmptyLineSweeper (removeEmptyBarLinesOneByOne)

The sweeper collects the paragraph ranges of the initial snapshot, sorts
them by descending start offset, and processes them one by one: each
iteration re-reads the document (modelled by threading the current document
through a fold), re-locates the paragraph whose start offset is closest to
the recorded one, classifies it, checks heading adjacency, and deletes its
exact range.  The source passes the recorded endIndex along but only the
startIndex is ever read, so targets are modelled as start offsets. -/

/-- Inner loop of findParagraphByRange: keep the paragraph block whose start
offset is strictly closest to the target (first wins on ties). -/
def findParagraphGo (t : Nat) : List Block → Option Block → Option Block
  | [], best => best
  | c :: rest, best =>
    if c.isPara then
      match best with
      | none => findParagraphGo t rest (some c)
      | some d =>
        if dist c.start t < dist d.start t then findParagraphGo t rest (some c)
        else findParagraphGo t rest (some d)
    else findParagraphGo t rest best

/-- Find the paragraph whose start offset best matches the target offset. -/
def findParagraphByRange (doc : List Block) (t : Nat) : Option Block :=
  findParagraphGo t doc none

/-- Modelled from the spec: the remote deleteContentRange operation over a
half-open character range [s, e): blocks
whose range falls inside the deleted range disappear, blocks at or after the
end of the range shift down by the deleted length.  (The pipeline only ever
deletes the exact range of an existing block of an ordered snapshot, so no
block partially overlaps the range.) -/
def deleteContentRange (doc : List Block) (s e : Nat) : List Block :=
  doc.filterMap (fun b =>
    if s ≤ b.start ∧ b.stop ≤ e then none
    else if e ≤ b.start then
      some { b with start := b.start - (e - s), stop := b.stop - (e - s) }
    else some b)

/-- Does a block's normalized text equal one of the retained headings
(headingsList.some((h) => h.toUpperCase() === text))? -/
def retainedHeadingText (hs : List String) (b : Block) : Bool :=
  hs.any (fun h => strUpper h == normText (paraText b))

/-- Does a paragraph sit immediately after a block whose normalized text is
one of the retained headings? -/
def isImmediatelyAfterHeading (doc : List Block) (m : Block)
    (hs : List String) : Bool :=
  match findIdxA (fun x => x.start == m.start) doc with
  | none => false
  | some 0 => false
  | some (Nat.succ i) =>
    match doc[i]? with
    | some prev => retainedHeadingText hs prev
    | none => false

/-- Does a paragraph sit immediately before a block whose normalized text is
one of the retained headings? -/
def isImmediatelyBeforeHeading (doc : List Block) (m : Block)
    (hs : List String) : Bool :=
  match findIdxA (fun x => x.start == m.start) doc with
  | none => false
  | some i =>
    if i ≥ doc.length - 1 then false
    else
      match doc[i+1]? with
      | some next => retainedHeadingText hs next
      | none => false

/-- One iteration of the sweeper's loop for the recorded start offset t. -/
def sweepStep (hs : List String) (doc : List Block) (t : Nat) : List Block :=
  match findParagraphByRange doc t with
  | none => doc
  | some m =>
    let text := strTrim (paraText m)
    let isBar := (["|", "| ", " |", " | "] : List String).contains text
    let isEmpty := text == ""
    if !isEmpty && !isBar then doc
    else if isImmediatelyAfterHeading doc m hs then doc
    else if isImmediatelyBeforeHeading doc m hs then doc
    else deleteContentRange doc m.start m.stop

/-- Start offsets of all paragraph blocks, in document order. -/
def collectParagraphStarts (doc : List Block) : List Nat :=
  (doc.filter (fun b => b.isPara)).map (fun b => b.start)

/-- Insert into a descending-sorted list. -/
def insertDesc (x : Nat) : List Nat → List Nat
  | [] => [x]
  | y :: ys => if x ≥ y then x :: y :: ys else y :: insertDesc x ys

/-- Sort in descending order (models paragraphs.sort((a,b) => b.start - a.start)). -/
def sortDesc : List Nat → List Nat
  | [] => []
  | x :: xs => insertDesc x (sortDesc xs)

/-- The whole sweeper stage: the final document after processing every
recorded paragraph in descending start-offset order. -/
def removeEmptyBarLinesOneByOne (doc : List Block) (hs : List String) :
    List Block :=
  (sortDesc (collectParagraphStarts doc)).foldl (sweepStep hs) doc

/-! ## A canonical form for documents reached during the sweep

compact doc K sh deletes every block whose id satisfies K and shifts the
surviving blocks down by the accumulated length of the deleted blocks before
them (plus an initial shift sh).  Every document reachable during the sweep
is compact of the initial snapshot for some deletion set. -/

def compact : List Block → (Nat → Bool) → Nat → List Block
  | [], _, _ => []
  | b :: rest, K, sh =>
    if K b.id then compact rest K (sh + (b.stop - b.start))
    else { b with start := b.start - sh, stop := b.stop - sh } :: compact rest K sh

/-- Pairwise-distinct block ids. -/
def IdsNodup (l : List Block) : Prop := (l.map Block.id).Nodup

/-- Lower bound on every block's start offset. -/
def LBnd (l : List Block) (n : Nat) : Prop := ∀ b ∈ l, n ≤ b.start

theorem dist_self (t : Nat) : dist t t = 0 := by simp [dist]

theorem dist_pos {x t : Nat} (h : x ≠ t) : 0 < dist x t := by
  simp only [dist]
  omega

theorem shift_zero (b : Block) :
    { b with start := b.start - 0, stop := b.stop - 0 } = b := by
  cases b
  simp

theorem ordered_cons {b : Block} {l : List Block} :
    Ordered (b :: l) ↔
      (∀ c ∈ l, b.stop ≤ c.start) ∧ b.start < b.stop ∧ Ordered l := by
  constructor
  · rintro ⟨hp, hr⟩
    rw [List.pairwise_cons] at hp
    exact ⟨hp.1, hr b (by simp), ⟨hp.2, fun c hc => hr c (by simp [hc])⟩⟩
  · rintro ⟨h1, h2, h3, h4⟩
    refine ⟨List.pairwise_cons.mpr ⟨h1, h3⟩, ?_⟩
    intro c hc
    rcases List.mem_cons.mp hc with rfl | hc'
    · exact h2
    · exact h4 c hc'

theorem compact_all_keep {K : Nat → Bool} :
    ∀ {l : List Block} (sh : Nat), (∀ b ∈ l, K b.id = false) →
      compact l K sh =
        l.map (fun b => { b with start := b.start - sh, stop := b.stop - sh }) := by
  intro l
  induction l with
  | nil => intro sh _; simp [compact]
  | cons b rest ih =>
    intro sh h
    have hb : K b.id = false := h b (by simp)
    simp [compact, hb, ih sh (fun c hc => h c (by simp [hc]))]

theorem compact_nothing {K : Nat → Bool} {l : List Block}
    (h : ∀ b ∈ l, K b.id = false) : compact l K 0 = l := by
  rw [compact_all_keep 0 h]
  have : ∀ b : Block,
      { b with start := b.start - 0, stop := b.stop - 0 } = b := shift_zero
  simp [this]

theorem compact_compose {K K' : Nat → Bool} :
    ∀ {l : List Block} (sh1 sh2 : Nat), Ordered l → LBnd l (sh1 + sh2) →
      compact (compact l K sh1) K' sh2 =
        compact l (fun i => K i || K' i) (sh1 + sh2) := by
  intro l
  induction l with
  | nil => intro sh1 sh2 _ _; simp [compact]
  | cons b rest ih =>
    intro sh1 sh2 hord hlb
    obtain ⟨hcross, hbs, hrest⟩ := ordered_cons.mp hord
    have hlbb : sh1 + sh2 ≤ b.start := hlb b (by simp)
    have hlbrest : ∀ n, n ≤ b.stop → LBnd rest n :=
      fun n hn c hc => le_trans hn (hcross c hc)
    by_cases hKb : K b.id = true
    · have h1 : compact (b :: rest) K sh1 =
          compact rest K (sh1 + (b.stop - b.start)) := by
        simp [compact, hKb]
      have h2 : compact (b :: rest) (fun i => K i || K' i) (sh1 + sh2) =
          compact rest (fun i => K i || K' i) (sh1 + sh2 + (b.stop - b.start)) := by
        simp [compact, hKb]
      rw [h1, h2, ih (sh1 + (b.stop - b.start)) sh2 hrest (hlbrest _ (by omega))]
      have he : sh1 + (b.stop - b.start) + sh2 = sh1 + sh2 + (b.stop - b.start) := by
        omega
      rw [he]
    · by_cases hK'b : K' b.id = true
      · have h1 : compact (b :: rest) K sh1 =
            { b with start := b.start - sh1, stop := b.stop - sh1 } ::
              compact rest K sh1 := by
          simp [compact, hKb]
        have h2 : compact (b :: rest) (fun i => K i || K' i) (sh1 + sh2) =
            compact rest (fun i => K i || K' i)
              (sh1 + sh2 + (b.stop - b.start)) := by
          simp [compact, hKb, hK'b]
        rw [h1, h2]
        have h3 : compact
            ({ b with start := b.start - sh1, stop := b.stop - sh1 } ::
              compact rest K sh1) K' sh2 =
            compact (compact rest K sh1) K'
              (sh2 + (b.stop - sh1 - (b.start - sh1))) := by
          simp [compact, hK'b]
        rw [h3, ih sh1 (sh2 + (b.stop - sh1 - (b.start - sh1))) hrest
          (hlbrest _ (by omega))]
        have he : sh1 + (sh2 + (b.stop - sh1 - (b.start - sh1))) =
            sh1 + sh2 + (b.stop - b.start) := by omega
        rw [he]
      · have h1 : compact (b :: rest) K sh1 =
            { b with start := b.start - sh1, stop := b.stop - sh1 } ::
              compact rest K sh1 := by
          simp [compact, hKb]
        have h2 : compact (b :: rest) (fun i => K i || K' i) (sh1 + sh2) =
            { b with start := b.start - (sh1 + sh2),
                     stop := b.stop - (sh1 + sh2) } ::
              compact rest (fun i => K i || K' i) (sh1 + sh2) := by
          simp [compact, hKb, hK'b]
        rw [h1, h2]
        have h3 : compact
            ({ b with start := b.start - sh1, stop := b.stop - sh1 } ::
              compact rest K sh1) K' sh2 =
            { b with start := b.start - sh1 - sh2, stop := b.stop - sh1 - sh2 } ::
              compact (compact rest K sh1) K' sh2 := by
          simp [compact, hK'b]
        rw [h3, ih sh1 sh2 hrest (hlbrest _ (by omega))]
        have e1 : b.start - sh1 - sh2 = b.start - (sh1 + sh2) := by omega
        have e2 : b.stop - sh1 - sh2 = b.stop - (sh1 + sh2) := by omega
        rw [e1, e2]

theorem compact_ordered {K : Nat → Bool} :
    ∀ {l : List Block} (sh lb : Nat), sh ≤ lb → LBnd l lb → Ordered l →
      Ordered (compact l K sh) ∧ LBnd (compact l K sh) (lb - sh) := by
  intro l
  induction l with
  | nil =>
    intro sh lb _ _ _
    constructor
    · constructor
      · simp [compact]
      · intro b hb
        simp [compact] at hb
    · intro b hb
      simp [compact] at hb
  | cons b rest ih =>
    intro sh lb hshlb hlb hord
    obtain ⟨hcross, hbs, hrest⟩ := ordered_cons.mp hord
    have hlbb : lb ≤ b.start := hlb b (by simp)
    by_cases hKb : K b.id = true
    · have h1 : compact (b :: rest) K sh =
          compact rest K (sh + (b.stop - b.start)) := by
        simp [compact, hKb]
      rw [h1]
      have hrec := ih (sh + (b.stop - b.start)) b.stop (by omega)
        (fun c hc => hcross c hc) hrest
      refine ⟨hrec.1, ?_⟩
      intro c hc
      have := hrec.2 c hc
      omega
    · have h1 : compact (b :: rest) K sh =
          { b with start := b.start - sh, stop := b.stop - sh } ::
            compact rest K sh := by
        simp [compact, hKb]
      rw [h1]
      have hrec := ih sh b.stop (by omega) (fun c hc => hcross c hc) hrest
      constructor
      · rw [ordered_cons]
        refine ⟨?_, by simp; omega, hrec.1⟩
        intro c hc
        have := hrec.2 c hc
        simpa using this
      · intro c hc
        rcases List.mem_cons.mp hc with rfl | hc'
        · simp
          omega
        · have h2 := hrec.2 c hc'
          omega

theorem filterMap_congr_someA {f : α → Option β} {g : α → β} :
    ∀ {l : List α}, (∀ x ∈ l, f x = some (g x)) → l.filterMap f = l.map g := by
  intro l
  induction l with
  | nil => intro _; simp
  | cons a l ih =>
    intro h
    simp [List.filterMap_cons, h a (by simp), ih (fun x hx => h x (by simp [hx]))]

theorem IdsNodup.tail {c : Block} {rest : List Block}
    (h : IdsNodup (c :: rest)) : IdsNodup rest := by
  simp only [IdsNodup, List.map_cons, List.nodup_cons] at h
  exact h.2

theorem IdsNodup.head_ne {c : Block} {rest : List Block}
    (h : IdsNodup (c :: rest)) {b : Block} (hb : b ∈ rest) : c.id ≠ b.id := by
  simp only [IdsNodup, List.map_cons, List.nodup_cons] at h
  intro he
  exact h.1 (he ▸ List.mem_map_of_mem Block.id hb)

/-- Deleting the exact character range of a block of an ordered snapshot
removes exactly that block and shifts the following blocks down. -/
theorem deleteContentRange_eq_compact :
    ∀ {l : List Block} {b : Block}, Ordered l → IdsNodup l → b ∈ l →
      deleteContentRange l b.start b.stop =
        compact l (fun i => i == b.id) 0 := by
  intro l
  induction l with
  | nil => intro b _ _ hb; simp at hb
  | cons c rest ih =>
    intro b hord hnd hb
    obtain ⟨hcross, hcs, hrest⟩ := ordered_cons.mp hord
    rcases List.mem_cons.mp hb with rfl | hbr
    · -- the head is the deleted block
      have hfb : (if b.start ≤ b.start ∧ b.stop ≤ b.stop then
            (none : Option Block)
          else if b.stop ≤ b.start then
            some { b with start := b.start - (b.stop - b.start),
                          stop := b.stop - (b.stop - b.start) }
          else some b) = none := by
        rw [if_pos ⟨le_refl _, le_refl _⟩]
      have hKb : (b.id == b.id) = true := by simp
      have hLHS : deleteContentRange (b :: rest) b.start b.stop =
          rest.map (fun d => { d with start := d.start - (b.stop - b.start),
                                      stop := d.stop - (b.stop - b.start) }) := by
        simp only [deleteContentRange, List.filterMap_cons, hfb]
        refine filterMap_congr_someA ?_
        intro d hd
        have h1 : b.stop ≤ d.start := hcross d hd
        have h2 : d.start < d.stop := hrest.2 d hd
        have hc1 : ¬(b.start ≤ d.start ∧ d.stop ≤ b.stop) := by
          intro hcc
          omega
        rw [if_neg hc1, if_pos h1]
      have hRHS : compact (b :: rest) (fun i => i == b.id) 0 =
          rest.map (fun d => { d with start := d.start - (b.stop - b.start),
                                      stop := d.stop - (b.stop - b.start) }) := by
        simp only [compact, hKb, if_pos, Nat.zero_add]
        refine compact_all_keep _ ?_
        intro d hd
        simp only [beq_eq_false_iff_ne, ne_eq]
        intro he
        exact (hnd.head_ne hd) he.symm
      rw [hLHS, hRHS]
    · -- the head survives unchanged
      have h1 : c.stop ≤ b.start := hcross b hbr
      have hc1 : ¬(b.start ≤ c.start ∧ c.stop ≤ b.stop) := by
        intro hcc
        omega
      have hc2 : ¬(b.stop ≤ c.start) := by
        have : b.start < b.stop := hrest.2 b hbr
        omega
      have hKc : (c.id == b.id) = false := by
        simp only [beq_eq_false_iff_ne, ne_eq]
        exact hnd.head_ne hbr
      have hLHS : deleteContentRange (c :: rest) b.start b.stop =
          c :: deleteContentRange rest b.start b.stop := by
        simp only [deleteContentRange, List.filterMap_cons, if_neg hc1,
          if_neg hc2]
      have hRHS : compact (c :: rest) (fun i => i == b.id) 0 =
          c :: compact rest (fun i => i == b.id) 0 := by
        simp only [compact, hKc, Bool.false_eq_true, if_neg,
          not_false_iff, Nat.sub_zero]
      rw [hLHS, hRHS, ih hrest hnd.tail hbr]

theorem ordered_disjoint {D : List Block} (hord : Ordered D) {b c : Block}
    (hb : b ∈ D) (hc : c ∈ D) (hne : c ≠ b) :
    c.stop ≤ b.start ∨ b.stop ≤ c.start := by
  have hp : D.Pairwise (fun a b => a.stop ≤ b.start ∨ b.stop ≤ a.start) :=
    hord.1.imp (fun h => Or.inl h)
  have hsym : Symmetric (fun a b : Block => a.stop ≤ b.start ∨ b.stop ≤ a.start) := by
    intro x y h
    exact h.symm
  exact (hp.forall hsym) hc hb hne

theorem ordered_start_ne {D : List Block} (hord : Ordered D) {b c : Block}
    (hb : b ∈ D) (hc : c ∈ D) (hne : c ≠ b) : c.start ≠ b.start := by
  have h1 : c.start < c.stop := hord.2 c hc
  have h2 : b.start < b.stop := hord.2 b hb
  rcases ordered_disjoint hord hb hc hne with h | h
  · omega
  · omega

theorem findParagraphGo_keep {t : Nat} {b : Block} (hb : b.start = t) :
    ∀ (l : List Block), findParagraphGo t l (some b) = some b := by
  intro l
  induction l with
  | nil => rfl
  | cons c rest ih =>
    by_cases hc : c.isPara = true
    · have hnl : ¬ (dist c.start t < dist b.start t) := by
        rw [hb, dist_self]
        omega
      simp [findParagraphGo, hc, hnl, ih]
    · simp [findParagraphGo, hc, ih]

theorem findParagraphGo_reach {t : Nat} {b : Block} (hbp : b.isPara = true)
    (hbs : b.start = t) :
    ∀ (l : List Block) (best : Option Block), b ∈ l →
      (∀ c ∈ l, c ≠ b → c.start ≠ t) →
      (∀ d, best = some d → d.start ≠ t) →
      findParagraphGo t l best = some b := by
  intro l
  induction l with
  | nil => intro best hb; simp at hb
  | cons c rest ih =>
    intro best hbmem hothers hbest
    by_cases hcb : c = b
    · subst hcb
      cases best with
      | none =>
        simp only [findParagraphGo, hbp, if_pos]
        exact findParagraphGo_keep hbs rest
      | some d =>
        have hd : d.start ≠ t := hbest d rfl
        have hlt : dist c.start t < dist d.start t := by
          rw [hbs, dist_self]
          exact dist_pos hd
        simp only [findParagraphGo, hbp, if_pos, hlt, if_true]
        exact findParagraphGo_keep hbs rest
    · have hbr : b ∈ rest := by
        rcases List.mem_cons.mp hbmem with h | h
        · exact absurd h.symm hcb
        · exact h
      have hothers' : ∀ x ∈ rest, x ≠ b → x.start ≠ t :=
        fun x hx => hothers x (by simp [hx])
      have hcs : c.start ≠ t := hothers c (by simp) hcb
      by_cases hcp : c.isPara = true
      · cases best with
        | none =>
          simp only [findParagraphGo, hcp, if_pos]
          exact ih (some c) hbr hothers'
            (by intro d hd; cases hd; exact hcs)
        | some d =>
          by_cases hlt : dist c.start t < dist d.start t
          · simp only [findParagraphGo, hcp, if_pos, hlt, if_true]
            exact ih (some c) hbr hothers'
              (by intro x hx; cases hx; exact hcs)
          · simp only [findParagraphGo, hcp, if_pos, hlt, if_false]
            exact ih (some d) hbr hothers' hbest
      · simp only [findParagraphGo, hcp, Bool.false_eq_true, if_neg,
          not_false_iff]
        exact ih best hbr hothers' hbest

/-- Re-location: on an ordered snapshot the nearest-start search finds
exactly the paragraph whose start offset is the recorded one. -/
theorem findParagraphByRange_eq {D : List Block} {b : Block}
    (hord : Ordered D) (hb : b ∈ D) (hbp : b.isPara = true) :
    findParagraphByRange D b.start = some b := by
  refine findParagraphGo_reach hbp rfl D none hb ?_ (by intro d hd; cases hd)
  intro c hc hne
  exact ordered_start_ne hord hb hc hne

/-- Total length of the blocks deleted by K. -/
def delLen (K : Nat → Bool) : List Block → Nat
  | [] => 0
  | b :: rest => (if K b.id then b.stop - b.start else 0) + delLen K rest

theorem delLen_eq_zero {K : Nat → Bool} :
    ∀ {l : List Block}, (∀ c ∈ l, K c.id = false) → delLen K l = 0 := by
  intro l
  induction l with
  | nil => intro _; rfl
  | cons b rest ih =>
    intro h
    have hb : K b.id = false := h b (by simp)
    simp [delLen, hb, ih (fun c hc => h c (by simp [hc]))]

theorem compact_append {K : Nat → Bool} :
    ∀ (xs ys : List Block) (sh : Nat),
      compact (xs ++ ys) K sh = compact xs K sh ++ compact ys K (sh + delLen K xs) := by
  intro xs
  induction xs with
  | nil => intro ys sh; simp [compact, delLen]
  | cons b rest ih =>
    intro ys sh
    have hc : (b :: rest) ++ ys = b :: (rest ++ ys) := rfl
    rw [hc]
    by_cases hKb : K b.id = true
    · simp only [compact, hKb, if_pos, delLen, if_true]
      rw [ih ys (sh + (b.stop - b.start))]
      congr 2
      omega
    · simp only [compact, hKb, Bool.false_eq_true, if_neg, not_false_iff,
        delLen, if_false]
      rw [ih ys sh]
      simp only [List.cons_append, Nat.zero_add]

theorem compact_clean_prefix {K : Nat → Bool} {xs ys : List Block} {P : Block}
    (hxs : ∀ c ∈ xs, K c.id = false) (hP : K P.id = false) :
    compact (xs ++ P :: ys) K 0 = xs ++ P :: compact ys K 0 := by
  rw [compact_append, delLen_eq_zero hxs, compact_nothing hxs]
  congr 1
  simp only [compact, hP, Bool.false_eq_true, if_neg, not_false_iff,
    Nat.sub_zero, Nat.zero_add]

theorem compact_ids_sublist {K : Nat → Bool} :
    ∀ {l : List Block} {sh : Nat},
      ((compact l K sh).map Block.id).Sublist (l.map Block.id) := by
  intro l
  induction l with
  | nil => intro sh; simp [compact]
  | cons b rest ih =>
    intro sh
    by_cases hKb : K b.id = true
    · simp only [compact, hKb, if_pos, List.map_cons]
      exact List.Sublist.cons _ ih
    · simp only [compact, hKb, Bool.false_eq_true, if_neg, not_false_iff,
        List.map_cons]
      exact List.Sublist.cons₂ _ ih

theorem compact_nodup {K : Nat → Bool} {l : List Block} {sh : Nat}
    (h : IdsNodup l) : IdsNodup (compact l K sh) :=
  List.Nodup.sublist compact_ids_sublist h

theorem compact_mem_src {K : Nat → Bool} :
    ∀ {l : List Block} {sh : Nat} {b' : Block}, b' ∈ compact l K sh →
      ∃ b ∈ l, K b.id = false ∧ b'.id = b.id ∧ b'.isPara = b.isPara ∧
        b'.runs = b.runs := by
  intro l
  induction l with
  | nil => intro sh b' h; simp [compact] at h
  | cons b rest ih =>
    intro sh b' h
    by_cases hKb : K b.id = true
    · simp only [compact, hKb, if_pos] at h
      obtain ⟨c, hc, hrest⟩ := ih h
      exact ⟨c, by simp [hc], hrest⟩
    · simp only [compact, hKb, Bool.false_eq_true, if_neg, not_false_iff] at h
      rcases List.mem_cons.mp h with rfl | h'
      · exact ⟨b, by simp, by simpa using hKb, rfl, rfl, rfl⟩
      · obtain ⟨c, hc, hrest⟩ := ih h'
        exact ⟨c, by simp [hc], hrest⟩

theorem compact_mem_tgt {K : Nat → Bool} :
    ∀ {l : List Block} {sh : Nat} {b : Block}, b ∈ l → K b.id = false →
      ∃ b' ∈ compact l K sh, b'.id = b.id ∧ b'.isPara = b.isPara ∧
        b'.runs = b.runs := by
  intro l
  induction l with
  | nil => intro sh b h; simp at h
  | cons c rest ih =>
    intro sh b h hKb
    rcases List.mem_cons.mp h with rfl | h'
    · simp only [compact, hKb, Bool.false_eq_true, if_neg, not_false_iff]
      exact ⟨{ b with start := b.start - sh, stop := b.stop - sh },
        by simp, rfl, rfl, rfl⟩
    · by_cases hKc : K c.id = true
      · simp only [compact, hKc, if_pos]
        exact ih h' hKb
      · simp only [compact, hKc, Bool.false_eq_true, if_neg, not_false_iff]
        obtain ⟨b', hb', hrest⟩ := @ih sh b h' hKb
        exact ⟨b', by simp [hb'], hrest⟩

theorem compact_head_src {K : Nat → Bool} :
    ∀ {l : List Block} {sh : Nat} {u : Block} {r : List Block},
      compact l K sh = u :: r →
      ∃ ws U zs, l = ws ++ U :: zs ∧ (∀ c ∈ ws, K c.id = true) ∧
        K U.id = false ∧ u.isPara = U.isPara ∧ u.runs = U.runs := by
  intro l
  induction l with
  | nil => intro sh u r h; simp [compact] at h
  | cons b rest ih =>
    intro sh u r h
    by_cases hKb : K b.id = true
    · simp only [compact, hKb, if_pos] at h
      obtain ⟨ws, U, zs, hdec, hws, hU, hfields⟩ := ih h
      exact ⟨b :: ws, U, zs, by simp [hdec],
        by
          intro c hc
          rcases List.mem_cons.mp hc with rfl | hc'
          · exact hKb
          · exact hws c hc', hU, hfields⟩
    · simp only [compact, hKb, Bool.false_eq_true, if_neg, not_false_iff] at h
      have hu : u = { b with start := b.start - sh, stop := b.stop - sh } :=
        (List.head_eq_of_cons_eq h).symm
      refine ⟨[], b, rest, by simp, by simp, by simpa using hKb, ?_, ?_⟩
      · rw [hu]
      · rw [hu]

theorem ids_inj {l : List Block} (h : IdsNodup l) {b c : Block}
    (hb : b ∈ l) (hc : c ∈ l) (hid : b.id = c.id) : b = c := by
  exact List.inj_on_of_nodup_map h hb hc hid

theorem ordered_decomp {A B : List Block} {z : Block}
    (h : Ordered (A ++ z :: B)) :
    (∀ c ∈ A, c.stop ≤ z.start) ∧ z.start < z.stop ∧
      (∀ c ∈ B, z.stop ≤ c.start) ∧ (∀ c ∈ A ++ z :: B, c.start < c.stop) := by
  obtain ⟨hp, hr⟩ := h
  rw [List.pairwise_append] at hp
  obtain ⟨_, hp2, hcross⟩ := hp
  rw [List.pairwise_cons] at hp2
  refine ⟨?_, hr z (by simp), hp2.1, hr⟩
  intro c hc
  exact hcross c hc z (by simp)

theorem ordered_prefix_start_lt {A B : List Block} {z : Block}
    (h : Ordered (A ++ z :: B)) : ∀ c ∈ A, c.start < z.start := by
  intro c hc
  obtain ⟨h1, _, _, h4⟩ := ordered_decomp h
  have := h1 c hc
  have := h4 c (by simp [hc])
  omega

theorem paraText_congr {a b : Block} (h1 : a.isPara = b.isPara)
    (h2 : a.runs = b.runs) : paraText a = paraText b := by
  simp [paraText, h1, h2]

theorem findIdx_start_append {xs ys : List Block} {b : Block}
    (hxs : ∀ c ∈ xs, c.start ≠ b.start) :
    findIdxA (fun x => x.start == b.start) (xs ++ b :: ys) = some xs.length := by
  refine @findIdxA_eq_some_of Block _ _ _ b ?_ (by simp) ?_
  · rw [List.getElem?_append_right (le_refl xs.length)]
    simp
  · intro m hm c hc
    rw [List.getElem?_append_left hm] at hc
    have := hxs c (mem_of_getElem?A hc)
    simpa using this

theorem afterHeading_eval_nil {b : Block} {ys : List Block} (hs : List String) :
    isImmediatelyAfterHeading (b :: ys) b hs = false := by
  have h := @findIdx_start_append [] ys b (by simp)
  simp only [List.nil_append, List.length_nil] at h
  simp [isImmediatelyAfterHeading, h]

theorem afterHeading_eval_concat {xs ys : List Block} {v b : Block}
    (hs : List String) (hxs : ∀ c ∈ xs ++ [v], c.start ≠ b.start) :
    isImmediatelyAfterHeading (xs ++ v :: b :: ys) b hs =
      retainedHeadingText hs v := by
  have hd : (xs ++ [v]) ++ b :: ys = xs ++ v :: b :: ys := by simp
  have h := @findIdx_start_append (xs ++ [v]) ys b hxs
  have hlen : (xs ++ [v]).length = xs.length + 1 := by simp
  rw [hlen, hd] at h
  have hget : (xs ++ v :: b :: ys)[xs.length]? = some v := by
    rw [← hd, List.getElem?_append_left (by simp),
      List.getElem?_append_right (le_refl xs.length)]
    simp
  simp [isImmediatelyAfterHeading, h, hget]

theorem beforeHeading_eval_last {xs : List Block} {b : Block} (hs : List String)
    (hxs : ∀ c ∈ xs, c.start ≠ b.start) :
    isImmediatelyBeforeHeading (xs ++ [b]) b hs = false := by
  have h := @findIdx_start_append xs ([] : List Block) b hxs
  have hif : xs.length ≥ (xs ++ [b]).length - 1 := by
    simp
  simp [isImmediatelyBeforeHeading, h, hif]

theorem beforeHeading_eval_cons {xs ys : List Block} {b n : Block}
    (hs : List String) (hxs : ∀ c ∈ xs, c.start ≠ b.start) :
    isImmediatelyBeforeHeading (xs ++ b :: n :: ys) b hs =
      retainedHeadingText hs n := by
  have h := @findIdx_start_append xs (n :: ys) b hxs
  have hif : ¬ (xs.length ≥ (xs ++ b :: n :: ys).length - 1) := by
    simp only [List.length_append, List.length_cons]
    omega
  have hget : (xs ++ b :: n :: ys)[xs.length + 1]? = some n := by
    rw [List.getElem?_append_right (by omega)]
    have he : xs.length + 1 - xs.length = 1 := by omega
    rw [he]
    simp
  simp [isImmediatelyBeforeHeading, h, hif, hget]

/-- A paragraph the sweeper may delete: blank or bar-only text. -/
def emptyOrBar (b : Block) : Bool :=
  (strTrim (paraText b) == "") ||
    (["|", "| ", " |", " | "] : List String).contains (strTrim (paraText b))

/-- A block the sweeper is allowed to remove from the original snapshot: a
blank/bar paragraph not adjacent to any retained heading. -/
def Deletable (D0 : List Block) (hs : List String) (b : Block) : Prop :=
  b.isPara = true ∧ emptyOrBar b = true ∧
    isImmediatelyAfterHeading D0 b hs = false ∧
    isImmediatelyBeforeHeading D0 b hs = false

theorem strUpper_heading_mem {h : String} (hmem : h ∈ allHeadings) :
    strUpper h = h := by
  fin_cases hmem <;> decide

/-- A blank or bar paragraph never has the normalized text of a declared
heading. -/
theorem retained_not_emptyOrBar {hs : List String}
    (hsub : ∀ h ∈ hs, h ∈ allHeadings) {b : Block}
    (hb : emptyOrBar b = true) : retainedHeadingText hs b = false := by
  rw [retainedHeadingText, List.any_eq_false]
  intro h hmem
  have hmem' := hsub h hmem
  have htrim : strTrim (paraText b) = "" ∨ strTrim (paraText b) = "|" ∨
      strTrim (paraText b) = "| " ∨ strTrim (paraText b) = " |" ∨
      strTrim (paraText b) = " | " := by
    simp only [emptyOrBar, List.contains, List.elem_eq_mem, Bool.or_eq_true,
      beq_iff_eq, decide_eq_true_eq, List.mem_cons, List.not_mem_nil,
      or_false] at hb
    tauto
  have hup : strUpper h = h := strUpper_heading_mem hmem'
  simp only [beq_eq_false_iff_ne, ne_eq, hup, normText]
  rcases htrim with e | e | e | e | e <;>
    rw [e] <;> fin_cases hmem' <;> decide

/-- Transfer of the heading-adjacency tests from the current document back to
the original snapshot, for a paragraph whose prefix is untouched, when every
already-deleted block was a deletable blank/bar paragraph. -/
theorem adjacency_transfer {hs : List String} {K : Nat → Bool}
    {xs ys : List Block} {P : Block}
    (hord0 : Ordered (xs ++ P :: ys))
    (hsub : ∀ h ∈ hs, h ∈ allHeadings)
    (hgood : ∀ b ∈ xs ++ P :: ys, K b.id = true → Deletable (xs ++ P :: ys) hs b)
    (hKP : K P.id = false) :
    isImmediatelyAfterHeading (xs ++ P :: compact ys K 0) P hs =
      isImmediatelyAfterHeading (xs ++ P :: ys) P hs ∧
    isImmediatelyBeforeHeading (xs ++ P :: compact ys K 0) P hs =
      isImmediatelyBeforeHeading (xs ++ P :: ys) P hs := by
  have hxs_ne : ∀ c ∈ xs, c.start ≠ P.start := by
    intro c hc
    have := ordered_prefix_start_lt hord0 c hc
    omega
  constructor
  · -- the AFTER test only looks at the unchanged prefix
    rcases List.eq_nil_or_concat xs with rfl | ⟨xs', v, hxv⟩
    · simp only [List.nil_append]
      rw [afterHeading_eval_nil, afterHeading_eval_nil]
    · rw [List.concat_eq_append] at hxv
      subst hxv
      have hxs' : ∀ c ∈ xs' ++ [v], c.start ≠ P.start := hxs_ne
      have hd : ∀ (zs : List Block), (xs' ++ [v]) ++ P :: zs = xs' ++ v :: P :: zs := by
        intro zs
        simp
      rw [hd, hd, afterHeading_eval_concat hs hxs', afterHeading_eval_concat hs hxs']
  · -- the BEFORE test
    cases ys with
    | nil =>
      simp only [compact]
    | cons W ys' =>
      by_cases hKW : K W.id = true
      · -- the original successor was deleted: both tests are false
        have hWmem : W ∈ xs ++ P :: W :: ys' := by simp
        have hWdel := hgood W hWmem hKW
        have hD0 : isImmediatelyBeforeHeading (xs ++ P :: W :: ys') P hs = false := by
          rw [beforeHeading_eval_cons hs hxs_ne]
          exact retained_not_emptyOrBar hsub hWdel.2.1
        rw [hD0]
        cases hcmp : compact (W :: ys') K 0 with
        | nil =>
          rw [show (xs ++ P :: ([] : List Block)) = xs ++ [P] from rfl]
          exact beforeHeading_eval_last hs hxs_ne
        | cons u r =>
          rw [beforeHeading_eval_cons hs hxs_ne]
          obtain ⟨ws, U, zs, hdecy, hws, hKU, hupar, huruns⟩ := compact_head_src hcmp
          have hru : retainedHeadingText hs u = retainedHeadingText hs U := by
            simp [retainedHeadingText, paraText_congr hupar huruns]
          rw [hru]
          -- ws is nonempty: its head is W, which is deleted while U is not
          rcases List.eq_nil_or_concat ws with rfl | ⟨ws0, Z, hwz⟩
          · -- then U = W, contradiction
            simp only [List.nil_append] at hdecy
            have : W = U := List.head_eq_of_cons_eq hdecy
            rw [← this] at hKU
            rw [hKW] at hKU
            exact absurd hKU (by simp)
          · -- Z is the last deleted block before U: it was not allowed to sit
            -- directly before a retained heading
            rw [List.concat_eq_append] at hwz
            subst hwz
            have hZK : K Z.id = true := hws Z (by simp)
            have hZmem : Z ∈ xs ++ P :: W :: ys' := by
              rw [hdecy]
              simp
            have hZdel := hgood Z hZmem hZK
            have hregroup : xs ++ P :: W :: ys' =
                (xs ++ P :: ws0) ++ Z :: U :: zs := by
              rw [hdecy]
              simp
            have hZne : ∀ c ∈ xs ++ P :: ws0, c.start ≠ Z.start := by
              intro c hc
              have hordz : Ordered ((xs ++ P :: ws0) ++ Z :: U :: zs) := by
                rw [← hregroup]
                exact hord0
              have := ordered_prefix_start_lt hordz c hc
              omega
            have hZfalse := hZdel.2.2.2
            rw [hregroup, beforeHeading_eval_cons hs hZne] at hZfalse
            exact hZfalse
      · -- the original successor survives
        have hcmp : compact (W :: ys') K 0 = W :: compact ys' K 0 := by
          simp only [compact, hKW, Bool.false_eq_true, if_neg, not_false_iff,
            Nat.sub_zero]
        rw [hcmp, beforeHeading_eval_cons hs hxs_ne,
          beforeHeading_eval_cons hs hxs_ne]

theorem insertDesc_perm (x : Nat) (l : List Nat) :
    (insertDesc x l).Perm (x :: l) := by
  induction l with
  | nil => simp [insertDesc]
  | cons y ys ih =>
    by_cases h : x ≥ y
    · simp [insertDesc, h]
    · simp only [insertDesc, h, if_neg, not_false_iff]
      exact (ih.cons y).trans (List.Perm.swap x y ys)

theorem sortDesc_perm (l : List Nat) : (sortDesc l).Perm l := by
  induction l with
  | nil => simp [sortDesc]
  | cons x xs ih => exact (insertDesc_perm x (sortDesc xs)).trans (ih.cons x)

theorem insertDesc_sorted {x : Nat} :
    ∀ {l : List Nat}, l.Pairwise (fun a b => b ≤ a) →
      (insertDesc x l).Pairwise (fun a b => b ≤ a) := by
  intro l
  induction l with
  | nil => intro _; simp [insertDesc]
  | cons y ys ih =>
    intro h
    rw [List.pairwise_cons] at h
    by_cases hxy : x ≥ y
    · simp only [insertDesc, hxy, if_pos]
      rw [List.pairwise_cons]
      refine ⟨?_, List.pairwise_cons.mpr h⟩
      intro b hb
      rcases List.mem_cons.mp hb with rfl | hb'
      · exact hxy
      · exact le_trans (h.1 b hb') hxy
    · simp only [insertDesc, hxy, if_neg, not_false_iff]
      rw [List.pairwise_cons]
      refine ⟨?_, ih h.2⟩
      intro b hb
      rcases List.mem_cons.mp ((insertDesc_perm x ys).mem_iff.mp hb) with rfl | hb'
      · omega
      · exact h.1 b hb'

theorem sortDesc_sorted (l : List Nat) :
    (sortDesc l).Pairwise (fun a b => b ≤ a) := by
  induction l with
  | nil => simp [sortDesc]
  | cons x xs ih => exact insertDesc_sorted ih

/-! ## The sweep invariant -/

/-- The remaining targets: strictly descending starts of paragraphs of the
original snapshot. -/
def TargetsOK (D0 : List Block) (ts : List Nat) : Prop :=
  ts.Pairwise (fun a b => b < a) ∧
    ∀ t ∈ ts, ∃ b ∈ D0, b.isPara = true ∧ b.start = t

/-- Every block deleted so far was a deletable blank/bar paragraph. -/
def GoodK (D0 : List Block) (hs : List String) (K : Nat → Bool) : Prop :=
  ∀ b ∈ D0, K b.id = true → Deletable D0 hs b

/-- Every block deleted so far sits strictly above all remaining targets. -/
def KAbove (D0 : List Block) (K : Nat → Bool) (ts : List Nat) : Prop :=
  ∀ b ∈ D0, K b.id = true → ∀ t ∈ ts, t < b.start

theorem start_unique {D0 : List Block} (hord : Ordered D0) {b P : Block}
    (hb : b ∈ D0) (hP : P ∈ D0) (h : b.start = P.start) : b = P := by
  by_contra hne
  exact ordered_start_ne hord hP hb hne h

/-- Main induction for the sweeper: processing the remaining targets turns
the current document (original minus the already-deleted set K) into the
original minus a larger deletion set K', where K' still deletes only
deletable blank/bar paragraphs, and deletes every deletable paragraph whose
start is among the remaining targets. -/
theorem sweep_go (D0 : List Block) (hs : List String)
    (hord0 : Ordered D0) (hnd0 : IdsNodup D0)
    (hsub : ∀ h ∈ hs, h ∈ allHeadings) :
    ∀ (ts : List Nat) (K : Nat → Bool),
      TargetsOK D0 ts → GoodK D0 hs K → KAbove D0 K ts →
      ∃ K' : Nat → Bool,
        ts.foldl (sweepStep hs) (compact D0 K 0) = compact D0 K' 0 ∧
        (∀ i, K i = true → K' i = true) ∧
        GoodK D0 hs K' ∧
        (∀ b ∈ D0, Deletable D0 hs b → b.start ∈ ts → K' b.id = true) := by
  intro ts
  induction ts with
  | nil =>
    intro K _ hG _
    refine ⟨K, rfl, fun i h => h, hG, ?_⟩
    intro b _ _ hmem
    simp at hmem
  | cons t ts' ih =>
    intro K hT hG hA
    obtain ⟨hTs, hTmem⟩ := hT
    have hTs' : ts'.Pairwise (fun a b => b < a) := (List.pairwise_cons.mp hTs).2
    have hTlt : ∀ t' ∈ ts', t' < t := (List.pairwise_cons.mp hTs).1
    obtain ⟨P, hPmem, hPpara, hPstart⟩ := hTmem t (by simp)
    obtain ⟨xs, ys, hdec⟩ := List.append_of_mem hPmem
    have hord0' : Ordered (xs ++ P :: ys) := hdec ▸ hord0
    have hxsK : ∀ c ∈ xs, K c.id = false := by
      intro c hc
      by_contra hcc
      have hcK : K c.id = true := by
        revert hcc
        cases K c.id <;> simp
      have h1 := hA c (by rw [hdec]; simp [hc]) hcK t (by simp)
      have h2 := ordered_prefix_start_lt hord0' c hc
      omega
    have hKP : K P.id = false := by
      by_contra hcc
      have hcK : K P.id = true := by
        revert hcc
        cases K P.id <;> simp
      have h1 := hA P hPmem hcK t (by simp)
      omega
    have hD : compact D0 K 0 = xs ++ P :: compact ys K 0 := by
      rw [hdec]
      exact compact_clean_prefix hxsK hKP
    have hordD : Ordered (compact D0 K 0) :=
      (compact_ordered 0 0 (le_refl 0) (fun b _ => Nat.zero_le _) hord0).1
    have hPin : P ∈ compact D0 K 0 := by
      rw [hD]
      simp
    have hfind : findParagraphByRange (compact D0 K 0) t = some P := by
      rw [← hPstart]
      exact findParagraphByRange_eq hordD hPin hPpara
    have hgood' : ∀ b ∈ xs ++ P :: ys, K b.id = true →
        Deletable (xs ++ P :: ys) hs b := by
      rw [← hdec]
      exact hG
    have htr := adjacency_transfer hord0' hsub hgood' hKP
    have htrA : isImmediatelyAfterHeading (compact D0 K 0) P hs =
        isImmediatelyAfterHeading D0 P hs := by
      rw [hD, hdec]
      exact htr.1
    have htrB : isImmediatelyBeforeHeading (compact D0 K 0) P hs =
        isImmediatelyBeforeHeading D0 P hs := by
      rw [hD, hdec]
      exact htr.2
    have hfold : (t :: ts').foldl (sweepStep hs) (compact D0 K 0) =
        ts'.foldl (sweepStep hs) (sweepStep hs (compact D0 K 0) t) := rfl
    by_cases hEB : emptyOrBar P = true
    · -- the paragraph is blank or bar-only
      have hcond : (!(strTrim (paraText P) == "") &&
          !((["|", "| ", " |", " | "] : List String).contains
            (strTrim (paraText P)))) = false := by
        have : (!(strTrim (paraText P) == "") &&
            !((["|", "| ", " |", " | "] : List String).contains
              (strTrim (paraText P)))) =
            !(emptyOrBar P) := by
          simp [emptyOrBar]
        rw [this, hEB]
        rfl
      by_cases hAdjA : isImmediatelyAfterHeading (compact D0 K 0) P hs = true
      · -- adjacent (after): kept
        have hstep : sweepStep hs (compact D0 K 0) t = compact D0 K 0 := by
          simp only [sweepStep, hfind, hcond, Bool.false_eq_true, if_neg,
            not_false_iff, hAdjA, if_pos, if_true]
        rw [hfold, hstep]
        obtain ⟨K', h1, h2, h3, h4⟩ := ih K ⟨hTs', fun u hu => hTmem u (by simp [hu])⟩
          hG (fun b hb hK u hu => hA b hb hK u (by simp [hu]))
        refine ⟨K', h1, h2, h3, ?_⟩
        intro b hb hDel hmem
        rcases List.mem_cons.mp hmem with he | hmem'
        · -- b would be P, but P is adjacent to a retained heading
          have hbP : b = P := start_unique hord0 hb hPmem (by rw [he, hPstart])
          subst hbP
          rw [htrA] at hAdjA
          rw [hDel.2.2.1] at hAdjA
          exact absurd hAdjA (by simp)
        · exact h4 b hb hDel hmem'
      · by_cases hAdjB : isImmediatelyBeforeHeading (compact D0 K 0) P hs = true
        · -- adjacent (before): kept
          have hAdjA' : isImmediatelyAfterHeading (compact D0 K 0) P hs = false := by
            revert hAdjA
            cases isImmediatelyAfterHeading (compact D0 K 0) P hs <;> simp
          have hstep : sweepStep hs (compact D0 K 0) t = compact D0 K 0 := by
            simp only [sweepStep, hfind, hcond, Bool.false_eq_true, if_neg,
              not_false_iff, hAdjA', hAdjB, if_pos, if_true]
          rw [hfold, hstep]
          obtain ⟨K', h1, h2, h3, h4⟩ := ih K ⟨hTs', fun u hu => hTmem u (by simp [hu])⟩
            hG (fun b hb hK u hu => hA b hb hK u (by simp [hu]))
          refine ⟨K', h1, h2, h3, ?_⟩
          intro b hb hDel hmem
          rcases List.mem_cons.mp hmem with he | hmem'
          · have hbP : b = P := start_unique hord0 hb hPmem (by rw [he, hPstart])
            subst hbP
            rw [htrB] at hAdjB
            rw [hDel.2.2.2] at hAdjB
            exact absurd hAdjB (by simp)
          · exact h4 b hb hDel hmem'
        · -- not adjacent: deleted
          have hAdjA' : isImmediatelyAfterHeading (compact D0 K 0) P hs = false := by
            revert hAdjA
            cases isImmediatelyAfterHeading (compact D0 K 0) P hs <;> simp
          have hAdjB' : isImmediatelyBeforeHeading (compact D0 K 0) P hs = false := by
            revert hAdjB
            cases isImmediatelyBeforeHeading (compact D0 K 0) P hs <;> simp
          have hstep : sweepStep hs (compact D0 K 0) t =
              deleteContentRange (compact D0 K 0) P.start P.stop := by
            simp only [sweepStep, hfind, hcond, Bool.false_eq_true, if_neg,
              not_false_iff, hAdjA', hAdjB']
          have hDR : deleteContentRange (compact D0 K 0) P.start P.stop =
              compact (compact D0 K 0) (fun i => i == P.id) 0 :=
            deleteContentRange_eq_compact hordD (compact_nodup hnd0) hPin
          have hcompose : compact (compact D0 K 0) (fun i => i == P.id) 0 =
              compact D0 (fun i => K i || (i == P.id)) 0 :=
            compact_compose 0 0 hord0 (fun b _ => Nat.zero_le _)
          have hPDel : Deletable D0 hs P :=
            ⟨hPpara, hEB, by rw [← htrA]; exact hAdjA', by rw [← htrB]; exact hAdjB'⟩
          have hGnew : GoodK D0 hs (fun i => K i || (i == P.id)) := by
            intro b hb hKb
            rcases Bool.or_eq_true_iff.mp hKb with h | h
            · exact hG b hb h
            · have : b = P := ids_inj hnd0 hb hPmem (by simpa using h)
              rw [this]
              exact hPDel
          have hAnew : KAbove D0 (fun i => K i || (i == P.id)) ts' := by
            intro b hb hKb u hu
            rcases Bool.or_eq_true_iff.mp hKb with h | h
            · exact hA b hb h u (by simp [hu])
            · have hbP : b = P := ids_inj hnd0 hb hPmem (by simpa using h)
              rw [hbP, hPstart]
              exact hTlt u hu
          rw [hfold, hstep, hDR, hcompose]
          obtain ⟨K', h1, h2, h3, h4⟩ := ih (fun i => K i || (i == P.id))
            ⟨hTs', fun u hu => hTmem u (by simp [hu])⟩ hGnew hAnew
          refine ⟨K', h1, ?_, h3, ?_⟩
          · intro i hi
            exact h2 i (by simp [hi])
          · intro b hb hDel hmem
            rcases List.mem_cons.mp hmem with he | hmem'
            · have hbP : b = P := start_unique hord0 hb hPmem (by rw [he, hPstart])
              subst hbP
              exact h2 b.id (by simp)
            · exact h4 b hb hDel hmem'
    · -- the paragraph has real content: kept
      have hEB' : emptyOrBar P = false := by
        revert hEB
        cases emptyOrBar P <;> simp
      have hcond : (!(strTrim (paraText P) == "") &&
          !((["|", "| ", " |", " | "] : List String).contains
            (strTrim (paraText P)))) = true := by
        have he : (!(strTrim (paraText P) == "") &&
            !((["|", "| ", " |", " | "] : List String).contains
              (strTrim (paraText P)))) =
            !(emptyOrBar P) := by
          simp [emptyOrBar]
        rw [he, hEB']
        rfl
      have hstep : sweepStep hs (compact D0 K 0) t = compact D0 K 0 := by
        simp only [sweepStep, hfind, hcond, if_pos, if_true]
      rw [hfold, hstep]
      obtain ⟨K', h1, h2, h3, h4⟩ := ih K ⟨hTs', fun u hu => hTmem u (by simp [hu])⟩
        hG (fun b hb hK u hu => hA b hb hK u (by simp [hu]))
      refine ⟨K', h1, h2, h3, ?_⟩
      intro b hb hDel hmem
      rcases List.mem_cons.mp hmem with he | hmem'
      · have hbP : b = P := start_unique hord0 hb hPmem (by rw [he, hPstart])
        subst hbP
        rw [hDel.2.1] at hEB'
        exact absurd hEB' (by simp)
      · exact h4 b hb hDel hmem'

/-- C2: the EmptyLineSweeper never deletes a blank or bar-only paragraph
whose immediately preceding or following structural element is a retained
heading, and it deletes every blank or bar-only paragraph that is not
adjacent to any retained heading (over any ordered snapshot with distinct
block ids and any retained-heading list drawn from the declared headings;
blocks are tracked across the stage by their ghost id). -/
theorem emptyLineSweeper_correct (D0 : List Block) (hs : List String)
    (hord : Ordered D0) (hnd : IdsNodup D0)
    (hsub : ∀ h ∈ hs, h ∈ allHeadings)
    (b : Block) (hb : b ∈ D0) (hpara : b.isPara = true)
    (hbar : emptyOrBar b = true) :
    ((isImmediatelyAfterHeading D0 b hs = true ∨
        isImmediatelyBeforeHeading D0 b hs = true) →
       ∃ b' ∈ removeEmptyBarLinesOneByOne D0 hs, b'.id = b.id) ∧
    ((isImmediatelyAfterHeading D0 b hs = false ∧
        isImmediatelyBeforeHeading D0 b hs = false) →
       ∀ b' ∈ removeEmptyBarLinesOneByOne D0 hs, b'.id ≠ b.id) := by
  have hstartsNodup : (sortDesc (collectParagraphStarts D0)).Pairwise
      (fun a b => b < a) := by
    have h1 : D0.Pairwise (fun a b => a.start < b.start) := by
      refine List.Pairwise.imp_of_mem ?_ hord.1
      intro a c ha _ hrel
      have := hord.2 a ha
      omega
    have h2 : (D0.filter (fun b => b.isPara)).Pairwise
        (fun a b => a.start < b.start) :=
      h1.sublist (List.filter_sublist D0)
    have h3 : (collectParagraphStarts D0).Pairwise (fun a b : Nat => a < b) := by
      rw [collectParagraphStarts, List.pairwise_map]
      exact h2
    have h4 : (collectParagraphStarts D0).Nodup :=
      h3.imp (fun h => Nat.ne_of_lt h)
    have h5 : (sortDesc (collectParagraphStarts D0)).Nodup :=
      ((sortDesc_perm (collectParagraphStarts D0)).nodup_iff).mpr h4
    have h6 := (sortDesc_sorted (collectParagraphStarts D0)).and h5
    refine h6.imp ?_
    intro a c hac
    omega
  have hTOK : TargetsOK D0 (sortDesc (collectParagraphStarts D0)) := by
    refine ⟨hstartsNodup, ?_⟩
    intro t ht
    have := (sortDesc_perm (collectParagraphStarts D0)).mem_iff.mp ht
    rw [collectParagraphStarts, List.mem_map] at this
    obtain ⟨c, hc, hct⟩ := this
    rw [List.mem_filter] at hc
    exact ⟨c, hc.1, hc.2, hct⟩
  have hzero : D0 = compact D0 (fun _ => false) 0 :=
    (compact_nothing (fun _ _ => rfl)).symm
  obtain ⟨K', h1, _, h3, h4⟩ := sweep_go D0 hs hord hnd hsub
    (sortDesc (collectParagraphStarts D0)) (fun _ => false) hTOK
    (by intro c _ hcc; exact absurd hcc (by simp))
    (by intro c _ hcc; exact absurd hcc (by simp))
  have hres : removeEmptyBarLinesOneByOne D0 hs = compact D0 K' 0 := by
    rw [removeEmptyBarLinesOneByOne]
    rw [← hzero] at h1
    exact h1
  constructor
  · intro hadj
    have hK'b : K' b.id = false := by
      by_contra hcc
      have hK : K' b.id = true := by
        revert hcc
        cases K' b.id <;> simp
      have hDel := h3 b hb hK
      rcases hadj with ha | ha
      · rw [hDel.2.2.1] at ha
        exact absurd ha (by simp)
      · rw [hDel.2.2.2] at ha
        exact absurd ha (by simp)
    obtain ⟨b', hb', hid, _, _⟩ := @compact_mem_tgt _ _ 0 _ hb hK'b
    rw [hres]
    exact ⟨b', hb', hid⟩
  · intro hadj
    have hDel : Deletable D0 hs b := ⟨hpara, hbar, hadj.1, hadj.2⟩
    have hmem : b.start ∈ sortDesc (collectParagraphStarts D0) := by
      rw [(sortDesc_perm (collectParagraphStarts D0)).mem_iff,
        collectParagraphStarts, List.mem_map]
      exact ⟨b, List.mem_filter.mpr ⟨hb, hpara⟩, rfl⟩
    have hK'b : K' b.id = true := h4 b hb hDel hmem
    intro b' hb' heq
    rw [hres] at hb'
    obtain ⟨c, hc, hKc, hid, _, _⟩ := compact_mem_src hb'
    have hcb : c = b := ids_inj hnd hc hb (by rw [← hid, heq])
    rw [hcb] at hKc
    rw [hKc] at hK'b
    exact absurd hK'b (by simp)

/-- Concrete snapshot for the C2 witness: a bar line directly under the
EXPERIENCE heading and an identical bar line far from any heading. -/
def wDoc2 : List Block :=
  [⟨1, 1, 12, true, ["EXPERIENCE\n"]⟩,
   ⟨2, 12, 16, true, [" | \n"]⟩,
   ⟨3, 16, 24, true, ["content\n"]⟩,
   ⟨4, 24, 28, true, [" | \n"]⟩,
   ⟨5, 28, 36, true, ["tail\n"]⟩]

/-- Witness for C2: on the concrete snapshot, the bar paragraph under the
retained heading survives and the identical distant bar paragraph is
deleted. -/
theorem emptyLineSweeper_correct_witness :
    (∃ b' ∈ removeEmptyBarLinesOneByOne wDoc2 ["EXPERIENCE"], b'.id = 2) ∧
    (∀ b' ∈ removeEmptyBarLinesOneByOne wDoc2 ["EXPERIENCE"], b'.id ≠ 4) := by
  have h2 := emptyLineSweeper_correct wDoc2 ["EXPERIENCE"]
    ⟨by decide, by decide⟩ (by show (wDoc2.map Block.id).Nodup; decide)
    (by decide)
    ⟨2, 12, 16, true, [" | \n"]⟩ (by decide) (by decide) (by decide)
  have h4 := emptyLineSweeper_correct wDoc2 ["EXPERIENCE"]
    ⟨by decide, by decide⟩ (by show (wDoc2.map Block.id).Nodup; decide)
    (by decide)
    ⟨4, 24, 28, true, [" | \n"]⟩ (by decide) (by decide) (by decide)
  exact ⟨h2.1 (Or.inl (by decide)), h4.2 ⟨by decide, by decide⟩⟩

/-! ## PlaceholderResolver (doReplacePlaceholders)

The resolver scans every text run for slot tokens of the shape
\x7b\x7bname\x7d\x7d (the regex /\x7b\x7b([^\x7b\x7d]+)\x7d\x7d/g), collects
the distinct token texts in first-occurrence order, and builds one
replaceAllText request per distinct token. -/

/-- A character allowed inside a slot token's name: anything but a brace. -/
def notBrace (c : Char) : Bool := c != '\x7b' && c != '\x7d'

/-- After an opening double brace, try to read the token body: the maximal
run of non-brace characters, which must be nonempty and directly followed by
a closing double brace.  (The regex cannot match with a shorter run: a
shorter run would end before a non-brace character, where the closing double
brace cannot start.) -/
def takeName (cs : List Char) : Option (List Char × List Char) :=
  match cs.drop (cs.takeWhile notBrace).length with
  | '\x7d' :: '\x7d' :: r =>
    if (cs.takeWhile notBrace).isEmpty then none
    else some (cs.takeWhile notBrace, r)
  | _ => none

theorem takeName_some_length {cs nm r : List Char}
    (h : takeName cs = some (nm, r)) : r.length + 2 ≤ cs.length := by
  rw [takeName] at h
  split at h
  next r' heq =>
    split at h
    · exact absurd h (by simp)
    · have h2 := Option.some.inj h
      have hr : r' = r := congrArg Prod.snd h2
      subst hr
      have hlen := congrArg List.length heq
      simp only [List.length_drop, List.length_cons] at hlen
      omega
  next => exact absurd h (by simp)

/-- Scan one text run left to right for slot tokens, mirroring the global
regex search: after a match the scan resumes past it; at a failed match
attempt it advances one character.  The fuel argument only forces structural
termination; every recursive call shrinks the text, so fuel equal to the
text length (as passed by scanPH) is never exhausted. -/
def scanPHGo : Nat → List Char → List String
  | 0, _ => []
  | fuel+1, cs =>
    match cs with
    | '\x7b' :: '\x7b' :: rest =>
      (match takeName rest with
       | some (nm, r) =>
         ("\x7b\x7b" ++ String.mk nm ++ "\x7d\x7d") :: scanPHGo fuel r
       | none => scanPHGo fuel ('\x7b' :: rest))
    | _ :: rest => scanPHGo fuel rest
    | [] => []

def scanPH (cs : List Char) : List String := scanPHGo cs.length cs

/-- Insertion into the placeholder set, preserving first-occurrence order. -/
def insertUnique (l : List String) (x : String) : List String :=
  if x ∈ l then l else l ++ [x]

/-- All distinct slot tokens found in the document's text runs, in
first-occurrence order (the placeholders Set). -/
def foundPlaceholders (doc : List Block) : List String :=
  doc.foldl (fun acc b =>
    if b.isPara then
      b.runs.foldl (fun acc2 run => (scanPH run.data).foldl insertUnique acc2) acc
    else acc) []

/-- Key of a token: all braces removed, then trimmed
(placeholder.replace(/[\x7b\x7d]/g, "").trim()). -/
def keyOf (token : String) : String :=
  strTrim (String.mk (token.data.filter notBrace))

/-- Flattened-field lookup with the JavaScript falsy default:
data[key] || "". -/
def getVal (data : List (String × String)) (k : String) : String :=
  match data.lookup k with
  | some v => v
  | none => ""

/-- Scan for the lazy closing delimiter of a bold pair: the first double
star, with only non-newline characters before it (the dot of the regex does
not match a newline). -/
def findClose (acc : List Char) : List Char → Option (List Char × List Char)
  | [] => none
  | c :: r =>
    if c = '*' ∧ r.head? = some '*' then some (acc.reverse, r.tail)
    else if c = '\n' then none
    else findClose (c :: acc) r

theorem findClose_some_length :
    ∀ {cs acc mid r : List Char}, findClose acc cs = some (mid, r) →
      r.length + 1 ≤ cs.length := by
  intro cs
  induction cs with
  | nil => intro acc mid r h; simp [findClose] at h
  | cons c rest ih =>
    intro acc mid r h
    rw [findClose] at h
    split at h
    · next hc =>
      have h2 := Option.some.inj h
      have hr : r = rest.tail := (congrArg Prod.snd h2).symm
      subst hr
      have : rest.tail.length ≤ rest.length := by
        cases rest <;> simp
      simp only [List.length_cons]
      omega
    · split at h
      · exact absurd h (by simp)
      · have := ih h
        simp only [List.length_cons]
        omega

/-- value.replace(/\*\*(.*?)\*\*/g, "$1"): remove every lazily matched
double-star pair, keeping the enclosed text; on a failed pair the scan
advances one character.  Fuel as in scanPHGo. -/
def stripBoldGo : Nat → List Char → List Char
  | 0, cs => cs
  | _+1, [] => []
  | fuel+1, c :: r =>
    if c = '*' ∧ r.head? = some '*' then
      match findClose [] r.tail with
      | some (mid, rest2) => mid ++ stripBoldGo fuel rest2
      | none => '*' :: stripBoldGo fuel r
    else c :: stripBoldGo fuel r

def stripBoldL (cs : List Char) : List Char := stripBoldGo cs.length cs

theorem stripBoldGo_succ_pair {fuel : Nat} {c : Char} {r mid rest2 : List Char}
    (hc : c = '*' ∧ r.head? = some '*')
    (hfc : findClose [] r.tail = some (mid, rest2)) :
    stripBoldGo (fuel+1) (c :: r) = mid ++ stripBoldGo fuel rest2 := by
  simp only [stripBoldGo]
  rw [if_pos hc, hfc]

theorem stripBoldGo_succ_none {fuel : Nat} {c : Char} {r : List Char}
    (hc : c = '*' ∧ r.head? = some '*')
    (hfc : findClose [] r.tail = none) :
    stripBoldGo (fuel+1) (c :: r) = '*' :: stripBoldGo fuel r := by
  simp only [stripBoldGo]
  rw [if_pos hc, hfc]

theorem stripBoldGo_succ_other {fuel : Nat} {c : Char} {r : List Char}
    (hc : ¬(c = '*' ∧ r.head? = some '*')) :
    stripBoldGo (fuel+1) (c :: r) = c :: stripBoldGo fuel r := by
  simp only [stripBoldGo]
  rw [if_neg hc]

theorem tail_length_succ {r : List Char} (h : r ≠ []) :
    r.tail.length + 1 = r.length := by
  cases r with
  | nil => exact absurd rfl h
  | cons x xs => simp

theorem head_some_ne_nil {r : List Char} {c : Char} (h : r.head? = some c) :
    r ≠ [] := by
  intro he
  rw [he] at h
  simp at h

theorem stripBoldGo_norm :
    ∀ (fuel : Nat), ∀ {cs : List Char}, cs.length ≤ fuel →
      stripBoldGo fuel cs = stripBoldGo cs.length cs := by
  intro fuel
  induction fuel using Nat.strong_induction_on with
  | _ fuel ih =>
    intro cs hlen
    match fuel, cs with
    | 0, cs =>
      have hcs : cs = [] := List.eq_nil_of_length_eq_zero (Nat.le_zero.mp hlen)
      rw [hcs]
      rfl
    | fuel+1, [] => rfl
    | fuel+1, c :: r =>
      simp only [List.length_cons] at hlen
      have hr : r.length ≤ fuel := by omega
      by_cases hc : c = '*' ∧ r.head? = some '*'
      · have hrt : r.tail.length + 1 = r.length :=
          tail_length_succ (head_some_ne_nil hc.2)
        cases hfc : findClose [] r.tail with
        | some p =>
          obtain ⟨mid, rest2⟩ := p
          have hl2 := findClose_some_length hfc
          simp only [List.length_cons]
          rw [stripBoldGo_succ_pair hc hfc, stripBoldGo_succ_pair hc hfc,
            ih fuel (by omega) (by omega), ih r.length (by omega) (by omega)]
        | none =>
          simp only [List.length_cons]
          rw [stripBoldGo_succ_none hc hfc, stripBoldGo_succ_none hc hfc,
            ih fuel (by omega) hr]
      · simp only [List.length_cons]
        rw [stripBoldGo_succ_other hc, stripBoldGo_succ_other hc,
          ih fuel (by omega) hr]

theorem stripBoldGo_eq {fuel : Nat} {cs : List Char} (h : cs.length ≤ fuel) :
    stripBoldGo fuel cs = stripBoldL cs :=
  stripBoldGo_norm fuel h

/-- Unfolding: a matched pair strips its delimiters and keeps the middle. -/
theorem stripBoldL_cons_pair {c : Char} {r mid rest2 : List Char}
    (hc : c = '*' ∧ r.head? = some '*')
    (hfc : findClose [] r.tail = some (mid, rest2)) :
    stripBoldL (c :: r) = mid ++ stripBoldL rest2 := by
  have hrt : r.tail.length + 1 = r.length :=
    tail_length_succ (head_some_ne_nil hc.2)
  have hl2 := findClose_some_length hfc
  show stripBoldGo (r.length + 1) (c :: r) = _
  rw [stripBoldGo_succ_pair hc hfc, stripBoldGo_eq (by omega)]

/-- Unfolding: an unmatched opening pair keeps one star and rescans. -/
theorem stripBoldL_cons_pair_none {c : Char} {r : List Char}
    (hc : c = '*' ∧ r.head? = some '*')
    (hfc : findClose [] r.tail = none) :
    stripBoldL (c :: r) = '*' :: stripBoldL r := by
  show stripBoldGo (r.length + 1) (c :: r) = _
  rw [stripBoldGo_succ_none hc hfc, stripBoldGo_eq (by omega)]

/-- Unfolding: any other character is copied unchanged. -/
theorem stripBoldL_cons_other {c : Char} {r : List Char}
    (hc : ¬(c = '*' ∧ r.head? = some '*')) :
    stripBoldL (c :: r) = c :: stripBoldL r := by
  show stripBoldGo (r.length + 1) (c :: r) = _
  rw [stripBoldGo_succ_other hc, stripBoldGo_eq (by omega)]

/-- String-level emphasis-markup stripping. -/
def stripBoldStr (s : String) : String := String.mk (stripBoldL s.data)

/-- The reserved removal marker inserted for empty list-bullet slots. -/
def EMPTY_MARKER : String := "##EMPTY_LINE_TO_REMOVE##"

/-- Replacement text chosen for one token, in the priority order of the
source: an empty experience/project point becomes the removal marker, the
two skills fields keep their value verbatim, anything else is substituted
with emphasis markup stripped. -/
def replacementFor (data : List (String × String)) (token : String) : String :=
  let key := keyOf token
  let value := getVal data key
  if (strContains key "experience_point_" || strContains key "project_point_")
      && value == "" then EMPTY_MARKER
  else if key == "technical_skills" || key == "language_skills" then value
  else stripBoldStr value

/-- The batch built by doReplacePlaceholders: one case-sensitive
replaceAllText request per distinct token found. -/
def buildPlaceholderRequests (doc : List Block)
    (data : List (String × String)) : List Request :=
  (foundPlaceholders doc).map (fun token =>
    Request.replaceAllText token (replacementFor data token) true)

theorem foldl_inv {β : Type} {P : List String → Prop}
    {g : List String → β → List String}
    (hg : ∀ acc x, P acc → P (g acc x)) :
    ∀ (l : List β) (acc), P acc → P (l.foldl g acc) := by
  intro l
  induction l with
  | nil => intro acc h; exact h
  | cons x xs ih => intro acc h; exact ih (g acc x) (hg acc x h)

theorem insertUnique_nodup {l : List String} {x : String} (h : l.Nodup) :
    (insertUnique l x).Nodup := by
  rw [insertUnique]
  split
  · exact h
  · next hx => simp [List.nodup_append, h, hx]

theorem insertUnique_mem {l : List String} {x y : String} :
    y ∈ insertUnique l x ↔ y ∈ l ∨ y = x := by
  rw [insertUnique]
  split
  · next hx =>
    constructor
    · exact fun h => Or.inl h
    · rintro (h | rfl)
      · exact h
      · exact hx
  · simp

/-- The placeholder set holds pairwise distinct token texts. -/
theorem foundPlaceholders_nodup (doc : List Block) :
    (foundPlaceholders doc).Nodup := by
  rw [foundPlaceholders]
  refine foldl_inv ?_ doc [] (by simp)
  intro acc b hacc
  split
  · refine foldl_inv ?_ b.runs acc hacc
    intro acc2 run hacc2
    refine foldl_inv ?_ (scanPH run.data) acc2 hacc2
    intro acc3 x hacc3
    exact insertUnique_nodup hacc3
  · exact hacc

/-- Closing-delimiter search: when the middle holds no double star (also not
jointly with the closing delimiter) and no newline, the first double star
found is exactly the closing delimiter. -/
theorem findClose_exact :
    ∀ (b : List Char), hasSubstrL ['*', '*'] (b ++ ['*']) = false →
      '\n' ∉ b → ∀ (acc c : List Char),
        findClose acc (b ++ ('*' :: '*' :: c)) = some (acc.reverse ++ b, c) := by
  intro b
  induction b with
  | nil =>
    intro _ _ acc c
    simp only [List.nil_append]
    rw [findClose]
    simp
  | cons x b' ih =>
    intro hsub hnl acc c
    have hsub' : hasSubstrL ['*', '*'] (b' ++ ['*']) = false := by
      rw [List.cons_append, hasSubstrL, Bool.or_eq_false_iff] at hsub
      exact hsub.2
    have hpre : hasPrefixL ['*', '*'] ((x :: b') ++ ['*']) = false := by
      rw [List.cons_append, hasSubstrL, Bool.or_eq_false_iff] at hsub
      exact hsub.1
    have hcond : ¬(x = '*' ∧ (b' ++ ('*' :: '*' :: c)).head? = some '*') := by
      rintro ⟨rfl, hh⟩
      cases b' with
      | nil => simp [hasPrefixL] at hpre
      | cons y b'' =>
        simp at hh
        subst hh
        simp [hasPrefixL] at hpre
    have hx : ¬ x = '\n' := by
      intro he
      exact hnl (he ▸ List.mem_cons_self x b')
    rw [List.cons_append, findClose, if_neg hcond, if_neg hx,
      ih hsub' (fun hm => hnl (List.mem_cons_of_mem x hm)) (x :: acc) c]
    simp

/-- Emphasis stripping removes a lazily matched double-star pair and keeps
the enclosed text: the claim's reading of the bold-stripping replacement on
a well-formed pair. -/
theorem stripBold_pair_spec :
    ∀ (a : List Char) {b c : List Char},
      hasSubstrL ['*', '*'] (a ++ ['*']) = false →
      hasSubstrL ['*', '*'] (b ++ ['*']) = false → '\n' ∉ b →
      stripBoldL (a ++ ('*' :: '*' :: (b ++ ('*' :: '*' :: c)))) =
        a ++ (b ++ stripBoldL c) := by
  intro a
  induction a with
  | nil =>
    intro b c _ hb hbn
    have hcond : ('*' : Char) = '*' ∧
        ('*' :: (b ++ ('*' :: '*' :: c))).head? = some '*' := by
      simp
    have hfc : findClose [] ('*' :: (b ++ ('*' :: '*' :: c))).tail =
        some (b, c) := by
      simp only [List.tail_cons]
      have := findClose_exact b hb hbn [] c
      simpa using this
    simp only [List.nil_append]
    rw [stripBoldL_cons_pair hcond hfc]
  | cons x a' ih =>
    intro b c ha hb hbn
    have ha' : hasSubstrL ['*', '*'] (a' ++ ['*']) = false := by
      rw [List.cons_append, hasSubstrL, Bool.or_eq_false_iff] at ha
      exact ha.2
    have hpre : hasPrefixL ['*', '*'] ((x :: a') ++ ['*']) = false := by
      rw [List.cons_append, hasSubstrL, Bool.or_eq_false_iff] at ha
      exact ha.1
    have hcond : ¬(x = '*' ∧
        (a' ++ ('*' :: '*' :: (b ++ ('*' :: '*' :: c)))).head? = some '*') := by
      rintro ⟨rfl, hh⟩
      cases a' with
      | nil => simp [hasPrefixL] at hpre
      | cons y a'' =>
        simp at hh
        subst hh
        simp [hasPrefixL] at hpre
    rw [List.cons_append, stripBoldL_cons_other hcond, ih ha' hb hbn]
    simp

/-- Search text of a replaceAllText request. -/
def requestSearches (token : String) : Request → Bool
  | Request.replaceAllText search _ _ => search == token
  | _ => false

theorem replacementFor_marker {data : List (String × String)} {token : String}
    (h : strContains (keyOf token) "experience_point_" = true ∨
         strContains (keyOf token) "project_point_" = true)
    (hv : getVal data (keyOf token) = "") :
    replacementFor data token = EMPTY_MARKER := by
  have hb : ((strContains (keyOf token) "experience_point_" ||
      strContains (keyOf token) "project_point_") &&
      (getVal data (keyOf token) == "")) = true := by
    rcases h with h | h <;> simp [h, hv]
  simp [replacementFor, hb]

theorem replacementFor_not_point {data : List (String × String)} {token : String}
    (hn : ¬ ((strContains (keyOf token) "experience_point_" = true ∨
              strContains (keyOf token) "project_point_" = true) ∧
             getVal data (keyOf token) = "")) :
    ((strContains (keyOf token) "experience_point_" ||
      strContains (keyOf token) "project_point_") &&
      (getVal data (keyOf token) == "")) = false := by
  cases hcond : ((strContains (keyOf token) "experience_point_" ||
      strContains (keyOf token) "project_point_") &&
      (getVal data (keyOf token) == "")) with
  | false => rfl
  | true =>
    obtain ⟨hor, hvv⟩ := Bool.and_eq_true_iff.mp hcond
    exact absurd ⟨Bool.or_eq_true_iff.mp hor, by simpa using hvv⟩ hn

theorem replacementFor_skills {data : List (String × String)} {token : String}
    (hn : ¬ ((strContains (keyOf token) "experience_point_" = true ∨
              strContains (keyOf token) "project_point_" = true) ∧
             getVal data (keyOf token) = ""))
    (hsk : keyOf token = "technical_skills" ∨ keyOf token = "language_skills") :
    replacementFor data token = getVal data (keyOf token) := by
  have hb := replacementFor_not_point hn
  have hsb : ((keyOf token == "technical_skills") ||
      (keyOf token == "language_skills")) = true := by
    rcases hsk with h | h <;> simp [h]
  simp [replacementFor, hb, hsb]

theorem replacementFor_other {data : List (String × String)} {token : String}
    (hn : ¬ ((strContains (keyOf token) "experience_point_" = true ∨
              strContains (keyOf token) "project_point_" = true) ∧
             getVal data (keyOf token) = ""))
    (hnsk : ¬ (keyOf token = "technical_skills" ∨
               keyOf token = "language_skills")) :
    replacementFor data token = stripBoldStr (getVal data (keyOf token)) := by
  have hb := replacementFor_not_point hn
  have h1 : keyOf token ≠ "technical_skills" := fun he => hnsk (Or.inl he)
  have h2 : keyOf token ≠ "language_skills" := fun he => hnsk (Or.inr he)
  have hsb : ((keyOf token == "technical_skills") ||
      (keyOf token == "language_skills")) = false := by
    simp [h1, h2]
  simp [replacementFor, hb, hsb]

/-- C3: for every distinct slot token found in the document, the resolver
builds exactly one substitution request, whose replacement follows the
priority order: an empty experience/project point becomes the removal
marker, the two skills keys keep their value verbatim, and any other value
is substituted with emphasis markup stripped (the final conjunct
characterizes the stripping: a double-star pair is removed keeping only the
enclosed text). -/
theorem placeholderResolver_requests (doc : List Block)
    (data : List (String × String)) (token : String)
    (htok : token ∈ foundPlaceholders doc) :
    (buildPlaceholderRequests doc data).countP (requestSearches token) = 1 ∧
    (∀ (repl : String) (mc : Bool),
       Request.replaceAllText token repl mc ∈ buildPlaceholderRequests doc data →
       mc = true ∧
       (((strContains (keyOf token) "experience_point_" = true ∨
           strContains (keyOf token) "project_point_" = true) ∧
          getVal data (keyOf token) = "") →
         repl = EMPTY_MARKER) ∧
       (¬ ((strContains (keyOf token) "experience_point_" = true ∨
            strContains (keyOf token) "project_point_" = true) ∧
           getVal data (keyOf token) = "") →
        (keyOf token = "technical_skills" ∨ keyOf token = "language_skills") →
         repl = getVal data (keyOf token)) ∧
       (¬ ((strContains (keyOf token) "experience_point_" = true ∨
            strContains (keyOf token) "project_point_" = true) ∧
           getVal data (keyOf token) = "") →
        ¬ (keyOf token = "technical_skills" ∨ keyOf token = "language_skills") →
         repl = stripBoldStr (getVal data (keyOf token)))) ∧
    (∀ (u v w : List Char),
       hasSubstrL ['*', '*'] (u ++ ['*']) = false →
       hasSubstrL ['*', '*'] (v ++ ['*']) = false → '\n' ∉ v →
       stripBoldL (u ++ ('*' :: '*' :: (v ++ ('*' :: '*' :: w)))) =
         u ++ (v ++ stripBoldL w)) := by
  refine ⟨?_, ?_, fun u v w hu hv hw => stripBold_pair_spec u hu hv hw⟩
  · rw [buildPlaceholderRequests, List.countP_map]
    have hcomp : ((requestSearches token) ∘
        (fun t => Request.replaceAllText t (replacementFor data t) true)) =
        fun t => t == token := by
      funext t
      rfl
    rw [hcomp]
    have := List.count_eq_one_of_mem (foundPlaceholders_nodup doc) htok
    simpa [List.count] using this
  · intro repl mc hmem
    rw [buildPlaceholderRequests, List.mem_map] at hmem
    obtain ⟨t, _, heq⟩ := hmem
    injection heq with e1 e2 e3
    rw [e1] at e2
    refine ⟨e3.symm, ?_, ?_, ?_⟩
    · rintro ⟨hpt, hval⟩
      rw [← e2]
      exact replacementFor_marker hpt hval
    · intro hnpt hsk
      rw [← e2]
      exact replacementFor_skills hnpt hsk
    · intro hnpt hnsk
      rw [← e2]
      exact replacementFor_other hnpt hnsk

/-- Concrete document for the C3 witness: the same token twice plus a
second token. -/
def wDoc3 : List Block :=
  [⟨1, 1, 40, true, ["\x7b\x7bname\x7d\x7d and \x7b\x7bname\x7d\x7d"]⟩]

def wData3 : List (String × String) := [("name", "**Jane** Doe")]

/-- Witness for C3: one request is built for the doubly occurring token and
its replacement has the emphasis markup stripped. -/
theorem placeholderResolver_requests_witness :
    (buildPlaceholderRequests wDoc3 wData3).countP
      (requestSearches "\x7b\x7bname\x7d\x7d") = 1 ∧
    Request.replaceAllText "\x7b\x7bname\x7d\x7d" "Jane Doe" true ∈
      buildPlaceholderRequests wDoc3 wData3 := by
  have h := placeholderResolver_requests wDoc3 wData3 "\x7b\x7bname\x7d\x7d"
    (by decide)
  exact ⟨h.1, by decide⟩

/-! ## Remote text substitution

Modelled from the spec: the remote batchUpdate replaceAllText operation is a
text-match-and-replace over all occurrences, case-sensitively, in one step —
a single left-to-right pass replacing each non-overlapping occurrence of the
search text.  (The operation itself is part of the external document store,
not of this repository's sources.) -/

def replaceAllGo : Nat → List Char → List Char → List Char → List Char
  | 0, _, _, cs => cs
  | _+1, _, _, [] => []
  | fuel+1, n, r, c :: rest =>
    if n ≠ [] ∧ hasPrefixL n (c :: rest) = true then
      r ++ replaceAllGo fuel n r ((c :: rest).drop n.length)
    else c :: replaceAllGo fuel n r rest

def replaceAllL (n r cs : List Char) : List Char := replaceAllGo cs.length n r cs

def replaceAllStr (hay needle repl : String) : String :=
  String.mk (replaceAllL needle.data repl.data hay.data)

/-- Effect of one edit request on a piece of text (only text substitution
affects text contents; range deletion and styling do not rewrite text). -/
def applyRequestToText (s : String) : Request → String
  | Request.replaceAllText search repl _ => replaceAllStr s search repl
  | _ => s

/-- Effect of a whole batch on a piece of text, in request order. -/
def applyReqsToText (reqs : List Request) (s : String) : String :=
  reqs.foldl applyRequestToText s

/-- C10 (amended): for a token whose key is missing from the mapping (or
maps to the empty string) and which is not an experience/project point, the
resolver builds exactly one request replacing every occurrence with the
empty string, and no error is raised; deleting an occurrence may however
join the surrounding text into a new occurrence of the token, which then
remains in the document. -/
theorem placeholderResolver_unknownKey (doc : List Block)
    (data : List (String × String)) (token : String)
    (htok : token ∈ foundPlaceholders doc)
    (hnp1 : strContains (keyOf token) "experience_point_" = false)
    (hnp2 : strContains (keyOf token) "project_point_" = false)
    (hval : data.lookup (keyOf token) = none ∨
            data.lookup (keyOf token) = some "") :
    (buildPlaceholderRequests doc data).countP (requestSearches token) = 1 ∧
    (∀ (repl : String) (mc : Bool),
       Request.replaceAllText token repl mc ∈ buildPlaceholderRequests doc data →
       repl = "" ∧ mc = true) := by
  have hv : getVal data (keyOf token) = "" := by
    rw [getVal]
    rcases hval with h | h <;> rw [h]
  have hnp : ¬ ((strContains (keyOf token) "experience_point_" = true ∨
      strContains (keyOf token) "project_point_" = true) ∧
      getVal data (keyOf token) = "") := by
    rintro ⟨h | h, _⟩
    · rw [hnp1] at h
      exact absurd h (by simp)
    · rw [hnp2] at h
      exact absurd h (by simp)
  have hrep : replacementFor data token = "" := by
    by_cases hsk : keyOf token = "technical_skills" ∨
        keyOf token = "language_skills"
    · rw [replacementFor_skills hnp hsk, hv]
    · rw [replacementFor_other hnp hsk, hv]
      rfl
  constructor
  · rw [buildPlaceholderRequests, List.countP_map]
    have hcomp : ((requestSearches token) ∘
        (fun t => Request.replaceAllText t (replacementFor data t) true)) =
        fun t => t == token := by
      funext t
      rfl
    rw [hcomp]
    have := List.count_eq_one_of_mem (foundPlaceholders_nodup doc) htok
    simpa [List.count] using this
  · intro repl mc hmem
    rw [buildPlaceholderRequests, List.mem_map] at hmem
    obtain ⟨t, _, heq⟩ := hmem
    injection heq with e1 e2 e3
    rw [e1] at e2
    rw [hrep] at e2
    exact ⟨e2.symm, e3.symm⟩

/-- Counterexample to C10 as stated: in the document whose single paragraph
text is four opening braces, x, two closing braces, x, two closing braces,
the only token found is the x-token; after its occurrence is replaced by the
empty string, the surrounding text joins into a new occurrence of the very
same token, so the token is still in the document. -/
theorem placeholderResolver_token_left_in_document :
    foundPlaceholders
        [⟨1, 1, 12, true, ["\x7b\x7b\x7b\x7bx\x7d\x7dx\x7d\x7d"]⟩] =
      ["\x7b\x7bx\x7d\x7d"] ∧
    buildPlaceholderRequests
        [⟨1, 1, 12, true, ["\x7b\x7b\x7b\x7bx\x7d\x7dx\x7d\x7d"]⟩] [] =
      [Request.replaceAllText "\x7b\x7bx\x7d\x7d" "" true] ∧
    strContains
      (applyReqsToText
        (buildPlaceholderRequests
          [⟨1, 1, 12, true, ["\x7b\x7b\x7b\x7bx\x7d\x7dx\x7d\x7d"]⟩] [])
        "\x7b\x7b\x7b\x7bx\x7d\x7dx\x7d\x7d")
      "\x7b\x7bx\x7d\x7d" = true := by
  refine ⟨by decide, by decide, by decide⟩

/-- Witness for the amended C10 on a concrete document with an unknown key. -/
theorem placeholderResolver_unknownKey_witness :
    (buildPlaceholderRequests
        [⟨1, 1, 20, true, ["\x7b\x7bmystery\x7d\x7d tail"]⟩] [("name", "A")]).countP
      (requestSearches "\x7b\x7bmystery\x7d\x7d") = 1 ∧
    (∀ (repl : String) (mc : Bool),
       Request.replaceAllText "\x7b\x7bmystery\x7d\x7d" repl mc ∈
         buildPlaceholderRequests
           [⟨1, 1, 20, true, ["\x7b\x7bmystery\x7d\x7d tail"]⟩] [("name", "A")] →
       repl = "" ∧ mc = true) :=
  placeholderResolver_unknownKey
    [⟨1, 1, 20, true, ["\x7b\x7bmystery\x7d\x7d tail"]⟩] [("name", "A")]
    "\x7b\x7bmystery\x7d\x7d" (by decide) (by decide) (by decide)
    (Or.inl (by decide))

/-! ## Marker cleanup (removeEmptyMarkers) and document-level substitution -/

/-- Modelled from the spec: the remote batchUpdate applies a batch of
text-substitution requests to every text run of every paragraph.  (Cross-run
occurrences are not modelled; the remote re-computes offsets after every
batch, modelled by reindex below.) -/
def applyRequestsDoc (doc : List Block) (reqs : List Request) : List Block :=
  doc.map (fun b =>
    if b.isPara then
      { b with runs := b.runs.map (fun run => applyReqsToText reqs run) }
    else b)

/-- Modelled from the spec: fresh offsets as the remote would report them
after an edit, blocks laid out consecutively starting at offset 1. -/
def reindexFrom : Nat → List Block → List Block
  | _, [] => []
  | n, b :: rest =>
    { b with start := n, stop := n + (paraText b).length } ::
      reindexFrom (n + (paraText b).length) rest

def reindex (doc : List Block) : List Block := reindexFrom 1 doc

/-- The single batch of removeEmptyMarkers: replace every occurrence of the
removal marker with the empty string. -/
def removeEmptyMarkersRequests : List Request :=
  [Request.replaceAllText EMPTY_MARKER "" true]

def removeEmptyMarkersDoc (doc : List Block) : List Block :=
  applyRequestsDoc doc removeEmptyMarkersRequests

/-- Scenario document for C6: an intro line, a line holding only the
experience-point token, and a closing line. -/
def wDoc6 : List Block :=
  [⟨1, 1, 7, true, ["intro\n"]⟩,
   ⟨2, 7, 33, true, ["\x7b\x7bexperience_point_1_3\x7d\x7d\n"]⟩,
   ⟨3, 33, 38, true, ["next\n"]⟩]

/-- The scenario document after the resolver batch and the marker-cleanup
batch, with offsets as re-read from the remote. -/
def wDoc6after : List Block :=
  reindex (removeEmptyMarkersDoc
    (reindex (applyRequestsDoc wDoc6 (buildPlaceholderRequests wDoc6 []))))

/-- Counterexample to C6 as stated: in the scenario document the token is
found and resolved to the removal marker, yet after the marker-cleanup pass
the line that contained the marker is still in the document (now blank) —
the cleanup removes only the marker text, not the line. -/
theorem emptyPointLine_remains_after_cleanup :
    foundPlaceholders wDoc6 = ["\x7b\x7bexperience_point_1_3\x7d\x7d"] ∧
    buildPlaceholderRequests wDoc6 [] =
      [Request.replaceAllText "\x7b\x7bexperience_point_1_3\x7d\x7d"
        "##EMPTY_LINE_TO_REMOVE##" true] ∧
    ∃ b ∈ wDoc6after, b.id = 2 ∧ paraText b = "\n" := by
  refine ⟨by decide, by decide, ?_⟩
  refine ⟨⟨2, 7, 8, true, ["\n"]⟩, by decide, by decide, by decide⟩

/-- C6 (amended): the resolver replaces the empty experience-point token by
the removal marker (first conjunct, for any document and mapping in which
the token is the missing key's only form); the marker-cleanup pass then
leaves the line present but blank, and the line disappears only in the
subsequent empty/bar-line sweep (second and third conjuncts, on the
scenario document). -/
theorem emptyPointLine_gone_after_sweep :
    (∀ (doc : List Block) (data : List (String × String)),
       "\x7b\x7bexperience_point_1_3\x7d\x7d" ∈ foundPlaceholders doc →
       (data.lookup "experience_point_1_3" = none ∨
        data.lookup "experience_point_1_3" = some "") →
       Request.replaceAllText "\x7b\x7bexperience_point_1_3\x7d\x7d"
           "##EMPTY_LINE_TO_REMOVE##" true ∈
         buildPlaceholderRequests doc data) ∧
    (∃ b ∈ wDoc6after, b.id = 2 ∧ paraText b = "\n") ∧
    (∀ b ∈ removeEmptyBarLinesOneByOne wDoc6after allHeadings, b.id ≠ 2) := by
  refine ⟨?_, ?_, by decide⟩
  · intro doc data htok hval
    have hkey : keyOf "\x7b\x7bexperience_point_1_3\x7d\x7d" =
        "experience_point_1_3" := by decide
    have hv : getVal data (keyOf "\x7b\x7bexperience_point_1_3\x7d\x7d") = "" := by
      rw [hkey, getVal]
      rcases hval with h | h <;> rw [h]
    have hpt : strContains (keyOf "\x7b\x7bexperience_point_1_3\x7d\x7d")
        "experience_point_" = true := by decide
    have hrep := @replacementFor_marker data _ (Or.inl hpt) hv
    rw [buildPlaceholderRequests, List.mem_map]
    refine ⟨"\x7b\x7bexperience_point_1_3\x7d\x7d", htok, ?_⟩
    rw [hrep]
    rfl
  · refine ⟨⟨2, 7, 8, true, ["\n"]⟩, by decide, by decide, by decide⟩

/-- Witness for the amended C6: the marker request is built on the scenario
document itself. -/
theorem emptyPointLine_gone_after_sweep_witness :
    Request.replaceAllText "\x7b\x7bexperience_point_1_3\x7d\x7d"
        "##EMPTY_LINE_TO_REMOVE##" true ∈
      buildPlaceholderRequests wDoc6 [] :=
  emptyPointLine_gone_after_sweep.1 wDoc6 [] (by decide) (Or.inl (by decide))

/-! ## MarkerStyler (applyBoldMarkers)

The styler repeatedly searches the document for the first marker span
matching the backreference regex on bold markers (open delimiter, a
lowercase-alphanumeric id, a double at, a lazy nonempty payload, then the
matching close delimiter), replaces the entire span by its payload in one
replaceAllText request, re-reads the document, and issues one bold style
request per occurrence of the payload, until no span matches or the
50-pass ceiling is reached. -/

/-- The open delimiter literal. -/
def openDel : List Char := ['@', '@', 'B', 'O', 'L', 'D', '-']

/-- The tail of the close delimiter after the id. -/
def closeSufL : List Char := ['-', 'E', 'N', 'D', '@', '@']

/-- Characters allowed in a marker id ([a-z0-9]). -/
def isIdChar (c : Char) : Bool := ('a' ≤ c && c ≤ 'z') || ('0' ≤ c && c ≤ '9')

/-- First index at which the needle occurs as a prefix of a suffix. -/
def findOcc (needle : List Char) : List Char → Option Nat
  | [] => if hasPrefixL needle [] = true then some 0 else none
  | c :: t =>
    if hasPrefixL needle (c :: t) = true then some 0
    else (findOcc needle t).map (· + 1)

/-- Try to match the marker pattern at the start of the text: the open
delimiter, then the maximal nonempty id run followed by a double at (the
greedy id capture admits no other split), then the lazy nonempty payload up
to the first occurrence of the matching close delimiter.  Returns the entire
matched text, the payload, and the text after the match. -/
def matchMarkerAt (cs : List Char) : Option (List Char × List Char × List Char) :=
  if hasPrefixL openDel cs = true then
    let after := cs.drop openDel.length
    let idRun := after.takeWhile isIdChar
    if idRun.isEmpty then none
    else
      let after2 := after.drop idRun.length
      if hasPrefixL ['@', '@'] after2 = true then
        let body := after2.drop 2
        let close := openDel ++ idRun ++ closeSufL
        match findOcc close (body.drop 1) with
        | some j =>
          some (cs.take (openDel.length + idRun.length + 2 + (j+1) + close.length),
                body.take (j+1),
                body.drop ((j+1) + close.length))
        | none => none
      else none
  else none

/-- First marker match in a text, scanning position by position. -/
def findMarkerL : List Char → Option (List Char × List Char)
  | [] => none
  | c :: rest =>
    match matchMarkerAt (c :: rest) with
    | some (entire, payload, _) => some (entire, payload)
    | none => findMarkerL rest

/-- The first block (in document order) whose text matches the marker
pattern, with the matched span and payload. -/
def getParagraphMarker : List Block → Option (String × String)
  | [] => none
  | b :: rest =>
    match findMarkerL (paraText b).data with
    | some (entire, payload) => some (String.mk entire, String.mk payload)
    | none => getParagraphMarker rest

/-- Non-overlapping occurrence positions of a needle, stepping past each
occurrence by the needle's length (indexOf walk of the source). -/
def occPosGo : Nat → List Char → List Char → List Nat
  | 0, _, _ => []
  | fuel+1, needle, hay =>
    match findOcc needle hay with
    | none => []
    | some p =>
      p :: (occPosGo fuel needle (hay.drop (p + needle.length))).map
        (fun q => q + p + needle.length)

def occPositions (needle hay : List Char) : List Nat :=
  occPosGo (hay.length + 1) needle hay

/-- Absolute start offset of each text run of a paragraph. -/
def runStarts : Nat → List String → List (Nat × String)
  | _, [] => []
  | n, r :: rest => (n, r) :: runStarts (n + r.length) rest

/-- Bold style requests for one block: one request per payload occurrence in
each of its text runs. -/
def boldRequestsForBlock (b : Block) (payload : String) : List Request :=
  if strContains (paraText b) payload = true then
    (runStarts b.start b.runs).foldr
      (fun p acc =>
        ((occPositions payload.data p.2.data).map
          (fun pos => Request.updateBold (p.1 + pos) (p.1 + pos + payload.length)))
          ++ acc) []
  else []

/-- Bold style requests over the whole document. -/
def boldRequestsFor (doc : List Block) (payload : String) : List Request :=
  doc.foldr
    (fun b acc =>
      (if b.isPara then boldRequestsForBlock b payload else []) ++ acc) []

/-- The pass loop of applyBoldMarkers: while a marker span matches and the
pass ceiling is not reached, replace the first-found span by its payload in
one batch, re-read, and issue the bold requests for the payload (skipped
when the payload trims to nothing).  Returns the final document, the list of
payloads that received style requests, all issued style requests, and the
number of passes that performed a replacement. -/
def boldLoopGo : Nat → List Block → (List Block × List String × List Request × Nat)
  | 0, doc => (doc, [], [], 0)
  | fuel+1, doc =>
    match getParagraphMarker doc with
    | none => (doc, [], [], 0)
    | some (entire, payload) =>
      let doc2 := reindex (applyRequestsDoc doc
        [Request.replaceAllText entire payload true])
      if strTrim payload == "" then
        let r := boldLoopGo fuel doc2
        (r.1, r.2.1, r.2.2.1, r.2.2.2 + 1)
      else
        let reqs := boldRequestsFor doc2 payload
        let st0 := if reqs.isEmpty then [] else [payload]
        let r := boldLoopGo fuel doc2
        (r.1, st0 ++ r.2.1, reqs ++ r.2.2.1, r.2.2.2 + 1)

/-- applyBoldMarkers with its 50-pass ceiling. -/
def applyBoldMarkersModel (doc : List Block) :
    List Block × List String × List Request × Nat :=
  boldLoopGo 50 doc

/-! ## Ghost segment decomposition for marker analysis

A document block's text is viewed as a concatenation of segments: free text
(plain) and marker spans.  Free text is required to avoid the delimiter
characters at-sign and capital B, so that delimiter text cannot arise from
the surrounding content; marker ids are nonempty lowercase-alphanumeric runs
and payloads are nonempty. -/

inductive Seg where
  | plain (s : List Char)
  | marker (i p : List Char)
deriving DecidableEq

def renderSeg : Seg → List Char
  | .plain s => s
  | .marker i p => openDel ++ i ++ ['@', '@'] ++ p ++ openDel ++ i ++ closeSufL

def renderSegs (segs : List Seg) : List Char := (segs.map renderSeg).join

/-- Free text avoids the delimiter alphabet. -/
def freeB (s : List Char) : Bool := s.all (fun c => !(c == '@') && !(c == 'B'))

def idOK (i : List Char) : Bool := !i.isEmpty && i.all isIdChar

def segWFB : Seg → Bool
  | .plain s => freeB s
  | .marker i p => idOK i && !p.isEmpty && freeB p

theorem renderSegs_nil : renderSegs [] = [] := rfl

theorem renderSegs_cons (sg : Seg) (segs : List Seg) :
    renderSegs (sg :: segs) = renderSeg sg ++ renderSegs segs := rfl

theorem renderMark_cons (i p : List Char) :
    renderSeg (.marker i p) =
      '@' :: '@' :: 'B' :: 'O' :: 'L' :: 'D' :: '-' ::
        (i ++ ('@' :: '@' :: (p ++
          ('@' :: '@' :: 'B' :: 'O' :: 'L' :: 'D' :: '-' ::
            (i ++ ['-', 'E', 'N', 'D', '@', '@']))))) := by
  simp [renderSeg, openDel, closeSufL]

theorem renderMark_split (i p : List Char) :
    renderSeg (.marker i p) =
      openDel ++ (i ++ ('@' :: ('@' :: (p ++
        (openDel ++ (i ++ closeSufL)))))) := by
  simp [renderSeg, List.append_assoc]

theorem freeB_ne_at {s : List Char} (h : freeB s = true) {c : Char}
    (hc : c ∈ s) : c ≠ '@' := by
  rw [freeB, List.all_eq_true] at h
  have := h c hc
  simp only [Bool.and_eq_true, Bool.not_eq_true', beq_eq_false_iff_ne] at this
  exact this.1

theorem freeB_ne_B {s : List Char} (h : freeB s = true) {c : Char}
    (hc : c ∈ s) : c ≠ 'B' := by
  rw [freeB, List.all_eq_true] at h
  have := h c hc
  simp only [Bool.and_eq_true, Bool.not_eq_true', beq_eq_false_iff_ne] at this
  exact this.2

theorem idOK_ne_nil {i : List Char} (h : idOK i = true) : i ≠ [] := by
  rw [idOK, Bool.and_eq_true] at h
  simpa using h.1

theorem idOK_mem {i : List Char} (h : idOK i = true) {c : Char}
    (hc : c ∈ i) : isIdChar c = true := by
  rw [idOK, Bool.and_eq_true, List.all_eq_true] at h
  exact h.2 c hc

theorem idChar_ne_at {c : Char} (h : isIdChar c = true) : c ≠ '@' := by
  intro hc
  subst hc
  exact absurd h (by decide)

theorem idChar_ne_dash {c : Char} (h : isIdChar c = true) : c ≠ '-' := by
  intro hc
  subst hc
  exact absurd h (by decide)

/-! Prefix and substring navigation lemmas. -/

theorem hasPrefixL_self_append (n t : List Char) :
    hasPrefixL n (n ++ t) = true := by
  induction n with
  | nil => rfl
  | cons a as ih => simp [hasPrefixL, ih]

theorem hasPrefixL_cons_same (a : Char) (n t : List Char) :
    hasPrefixL (a :: n) (a :: t) = hasPrefixL n t := by
  simp [hasPrefixL]

theorem hasPrefixL_head_ne {a b : Char} (h : a ≠ b) (n t : List Char) :
    hasPrefixL (a :: n) (b :: t) = false := by
  simp [hasPrefixL, h]

theorem hasPrefixL_append_both (x a b : List Char) :
    hasPrefixL (x ++ a) (x ++ b) = hasPrefixL a b := by
  induction x with
  | nil => rfl
  | cons c cs ih => simp [hasPrefixL, ih]

/-- A nonempty prefix check through a nonempty run avoiding the head char. -/
theorem hasPrefixL_through_ne {a : Char} {q : List Char} (Z W : List Char)
    (hq : q ≠ []) (h : ∀ c ∈ q, c ≠ a) : hasPrefixL (a :: Z) (q ++ W) = false := by
  cases q with
  | nil => exact absurd rfl hq
  | cons c q' =>
    exact hasPrefixL_head_ne (fun e => (h c (by simp)) e.symm) _ _

/-- Greedy id synchronization: two id runs followed by the at terminator can
only prefix-match when the ids are equal. -/
theorem prefix_id_sync :
    ∀ (i j : List Char) (X Y : List Char), (∀ c ∈ i, isIdChar c = true) →
      (∀ c ∈ j, isIdChar c = true) →
      hasPrefixL (i ++ '@' :: X) (j ++ '@' :: Y) = true →
      i = j ∧ hasPrefixL X Y = true := by
  intro i
  induction i with
  | nil =>
    intro j X Y _ hj h
    cases j with
    | nil =>
      refine ⟨rfl, ?_⟩
      simpa [hasPrefixL] using h
    | cons b j' =>
      rw [List.nil_append, List.cons_append,
        @hasPrefixL_head_ne '@' b (fun e => idChar_ne_at (hj b (by simp)) e.symm)
          X (j' ++ '@' :: Y)] at h
      exact absurd h (by simp)
  | cons a i' ih =>
    intro j X Y hi hj h
    cases j with
    | nil =>
      rw [List.nil_append, List.cons_append,
        hasPrefixL_head_ne (idChar_ne_at (hi a (by simp)))] at h
      exact absurd h (by simp)
    | cons b j' =>
      rw [List.cons_append, List.cons_append, hasPrefixL] at h
      rcases Bool.and_eq_true _ _ ▸ h with ⟨hab, hrest⟩
      have hab' : a = b := by simpa using hab
      subst hab'
      obtain ⟨e, hXY⟩ := ih j' X Y (fun c hc => hi c (by simp [hc]))
        (fun c hc => hj c (by simp [hc])) hrest
      exact ⟨by rw [e], hXY⟩

/-- An id run followed by the at terminator never prefix-matches an id run
followed by a dash. -/
theorem prefix_id_dash :
    ∀ (i j : List Char) (X Y : List Char), (∀ c ∈ i, isIdChar c = true) →
      (∀ c ∈ j, isIdChar c = true) →
      hasPrefixL (i ++ '@' :: X) (j ++ '-' :: Y) = false := by
  intro i
  induction i with
  | nil =>
    intro j X Y _ hj
    cases j with
    | nil => exact hasPrefixL_head_ne (by decide) _ _
    | cons b j' =>
      exact hasPrefixL_head_ne
        (fun e => idChar_ne_at (hj b (by simp)) e.symm) _ _
  | cons a i' ih =>
    intro j X Y hi hj
    cases j with
    | nil =>
      exact hasPrefixL_head_ne (idChar_ne_dash (hi a (by simp))) _ _
    | cons b j' =>
      rw [List.cons_append, List.cons_append, hasPrefixL]
      by_cases hab : a = b
      · subst hab
        simp only [beq_self_eq_true, Bool.true_and]
        exact ih j' X Y (fun c hc => hi c (by simp [hc]))
          (fun c hc => hj c (by simp [hc]))
      · simp [hab]

/-- Substring scanning skips any run avoiding the needle's head char. -/
theorem hasSubstrL_skip {s : List Char} (Z t : List Char)
    (h : ∀ c ∈ s, c ≠ '@') :
    hasSubstrL ('@' :: Z) (s ++ t) = hasSubstrL ('@' :: Z) t := by
  induction s with
  | nil => rfl
  | cons c s' ih =>
    rw [List.cons_append, hasSubstrL,
      hasPrefixL_head_ne (fun e => (h c (by simp)) e.symm),
      Bool.false_or]
    exact ih (fun d hd => h d (by simp [hd]))

/-- The rendering of well-formed segments never starts with capital B. -/
theorem render_not_prefix_B (Z : List Char) :
    ∀ segs : List Seg, (∀ sg ∈ segs, segWFB sg = true) →
      hasPrefixL ('B' :: Z) (renderSegs segs) = false := by
  intro segs
  induction segs with
  | nil => intro _; rfl
  | cons sg rest ih =>
    intro hwf
    rw [renderSegs_cons]
    cases sg with
    | plain s =>
      cases s with
      | nil => exact ih (fun x hx => hwf x (by simp [hx]))
      | cons c s' =>
        have hc : c ≠ 'B' :=
          freeB_ne_B (by simpa [segWFB] using hwf (.plain (c :: s')) (by simp))
            (by simp)
        exact hasPrefixL_head_ne (fun e => hc e.symm) _ _
    | marker i p =>
      rw [renderMark_cons]
      exact hasPrefixL_head_ne (by decide) _ _

/-- The rendering of well-formed segments never starts with at-sign capital B. -/
theorem render_not_prefix_atB (Z : List Char) :
    ∀ segs : List Seg, (∀ sg ∈ segs, segWFB sg = true) →
      hasPrefixL ('@' :: 'B' :: Z) (renderSegs segs) = false := by
  intro segs
  induction segs with
  | nil => intro _; rfl
  | cons sg rest ih =>
    intro hwf
    rw [renderSegs_cons]
    cases sg with
    | plain s =>
      cases s with
      | nil => exact ih (fun x hx => hwf x (by simp [hx]))
      | cons c s' =>
        have hc : c ≠ '@' :=
          freeB_ne_at (by simpa [segWFB] using hwf (.plain (c :: s')) (by simp))
            (by simp)
        exact hasPrefixL_head_ne (fun e => hc e.symm) _ _
    | marker i p =>
      rw [renderMark_cons]
      simp only [List.cons_append]
      rw [hasPrefixL_cons_same]
      exact hasPrefixL_head_ne (by decide) _ _

/-- Unfolding step of substring search past a non-matching position. -/
theorem substr_step {n : List Char} {c : Char} {rest : List Char}
    (h : hasPrefixL n (c :: rest) = false) :
    hasSubstrL n (c :: rest) = hasSubstrL n rest := by
  show (hasPrefixL n (c :: rest) || hasSubstrL n rest) = hasSubstrL n rest
  rw [h, Bool.false_or]

/-- Core occurrence analysis: scanning across the rendering of a marker with
a different id never matches the full span text of the given marker, so the
substring search passes through to the following text. -/
theorem substr_skip_marker_aux (i p j q t : List Char)
    (hi : ∀ c ∈ i, isIdChar c = true)
    (hj : ∀ c ∈ j, isIdChar c = true)
    (hqne : q ≠ [])
    (hqat : ∀ c ∈ q, c ≠ '@')
    (hqB : ∀ c ∈ q, c ≠ 'B')
    (hne : i ≠ j)
    (hB : ∀ Z, hasPrefixL ('B' :: Z) t = false)
    (hAB : ∀ Z, hasPrefixL ('@' :: 'B' :: Z) t = false) :
    hasSubstrL (renderSeg (.marker i p)) ('@' :: '@' :: 'B' :: 'O' :: 'L' :: 'D' :: '-' :: (j ++ ('@' :: '@' :: (q ++ ('@' :: '@' :: 'B' :: 'O' :: 'L' :: 'D' :: '-' :: (j ++ ('-' :: 'E' :: 'N' :: 'D' :: '@' :: '@' :: t))))))) =
      hasSubstrL (renderSeg (.marker i p)) t := by
  have hjat : ∀ c ∈ j, c ≠ '@' := fun c hc => idChar_ne_at (hj c hc)
  have e1 : ('@' :: '@' :: 'B' :: 'O' :: 'L' :: 'D' :: '-' :: (j ++ ('@' :: '@' :: (q ++ ('@' :: '@' :: 'B' :: 'O' :: 'L' :: 'D' :: '-' :: (j ++ ('-' :: 'E' :: 'N' :: 'D' :: '@' :: '@' :: t)))))) : List Char) =
      openDel ++ (j ++ ('@' :: ('@' :: (q ++ ('@' :: '@' :: 'B' :: 'O' :: 'L' :: 'D' :: '-' :: (j ++ ('-' :: 'E' :: 'N' :: 'D' :: '@' :: '@' :: t))))))) := by
    simp [openDel]
  have k0 : hasPrefixL (renderSeg (.marker i p)) ('@' :: '@' :: 'B' :: 'O' :: 'L' :: 'D' :: '-' :: (j ++ ('@' :: '@' :: (q ++ ('@' :: '@' :: 'B' :: 'O' :: 'L' :: 'D' :: '-' :: (j ++ ('-' :: 'E' :: 'N' :: 'D' :: '@' :: '@' :: t))))))) = false := by
    rw [renderMark_split, e1, hasPrefixL_append_both]
    refine Bool.eq_false_iff.mpr (fun htrue => hne ?_)
    exact (prefix_id_sync i j _ _ hi hj htrue).1
  have k1 : hasPrefixL (renderSeg (.marker i p))
      ('@' :: 'B' :: 'O' :: 'L' :: 'D' :: '-' :: (j ++ ('@' :: '@' :: (q ++ ('@' :: '@' :: 'B' :: 'O' :: 'L' :: 'D' :: '-' :: (j ++ ('-' :: 'E' :: 'N' :: 'D' :: '@' :: '@' :: t))))))) = false := by
    rw [renderMark_cons, hasPrefixL_cons_same]
    exact hasPrefixL_head_ne (by decide) _ _
  have k2 : hasPrefixL (renderSeg (.marker i p))
      ('B' :: 'O' :: 'L' :: 'D' :: '-' :: (j ++ ('@' :: '@' :: (q ++ ('@' :: '@' :: 'B' :: 'O' :: 'L' :: 'D' :: '-' :: (j ++ ('-' :: 'E' :: 'N' :: 'D' :: '@' :: '@' :: t))))))) = false := by
    rw [renderMark_cons]
    exact hasPrefixL_head_ne (by decide) _ _
  have k3 : hasPrefixL (renderSeg (.marker i p))
      ('O' :: 'L' :: 'D' :: '-' :: (j ++ ('@' :: '@' :: (q ++ ('@' :: '@' :: 'B' :: 'O' :: 'L' :: 'D' :: '-' :: (j ++ ('-' :: 'E' :: 'N' :: 'D' :: '@' :: '@' :: t))))))) = false := by
    rw [renderMark_cons]
    exact hasPrefixL_head_ne (by decide) _ _
  have k4 : hasPrefixL (renderSeg (.marker i p))
      ('L' :: 'D' :: '-' :: (j ++ ('@' :: '@' :: (q ++ ('@' :: '@' :: 'B' :: 'O' :: 'L' :: 'D' :: '-' :: (j ++ ('-' :: 'E' :: 'N' :: 'D' :: '@' :: '@' :: t))))))) = false := by
    rw [renderMark_cons]
    exact hasPrefixL_head_ne (by decide) _ _
  have k5 : hasPrefixL (renderSeg (.marker i p))
      ('D' :: '-' :: (j ++ ('@' :: '@' :: (q ++ ('@' :: '@' :: 'B' :: 'O' :: 'L' :: 'D' :: '-' :: (j ++ ('-' :: 'E' :: 'N' :: 'D' :: '@' :: '@' :: t))))))) = false := by
    rw [renderMark_cons]
    exact hasPrefixL_head_ne (by decide) _ _
  have k6 : hasPrefixL (renderSeg (.marker i p))
      ('-' :: (j ++ ('@' :: '@' :: (q ++ ('@' :: '@' :: 'B' :: 'O' :: 'L' :: 'D' :: '-' :: (j ++ ('-' :: 'E' :: 'N' :: 'D' :: '@' :: '@' :: t))))))) = false := by
    rw [renderMark_cons]
    exact hasPrefixL_head_ne (by decide) _ _
  rw [substr_step k0, substr_step k1, substr_step k2, substr_step k3,
    substr_step k4, substr_step k5, substr_step k6, renderMark_cons,
    @hasSubstrL_skip j ('@' :: 'B' :: 'O' :: 'L' :: 'D' :: '-' :: (i ++ ('@' :: '@' :: (p ++ ('@' :: '@' :: 'B' :: 'O' :: 'L' :: 'D' :: '-' :: (i ++ ['-', 'E', 'N', 'D', '@', '@']))))))
      ('@' :: '@' :: (q ++ ('@' :: '@' :: 'B' :: 'O' :: 'L' :: 'D' :: '-' :: (j ++ ('-' :: 'E' :: 'N' :: 'D' :: '@' :: '@' :: t))))) hjat]
  have k7 : hasPrefixL ('@' :: '@' :: 'B' :: 'O' :: 'L' :: 'D' :: '-' :: (i ++ ('@' :: '@' :: (p ++ ('@' :: '@' :: 'B' :: 'O' :: 'L' :: 'D' :: '-' :: (i ++ ['-', 'E', 'N', 'D', '@', '@'])))))) ('@' :: '@' :: (q ++ ('@' :: '@' :: 'B' :: 'O' :: 'L' :: 'D' :: '-' :: (j ++ ('-' :: 'E' :: 'N' :: 'D' :: '@' :: '@' :: t))))) = false := by
    rw [hasPrefixL_cons_same, hasPrefixL_cons_same]
    exact hasPrefixL_through_ne _ _ hqne hqB
  have k8 : hasPrefixL ('@' :: '@' :: 'B' :: 'O' :: 'L' :: 'D' :: '-' :: (i ++ ('@' :: '@' :: (p ++ ('@' :: '@' :: 'B' :: 'O' :: 'L' :: 'D' :: '-' :: (i ++ ['-', 'E', 'N', 'D', '@', '@'])))))) ('@' :: (q ++ ('@' :: '@' :: 'B' :: 'O' :: 'L' :: 'D' :: '-' :: (j ++ ('-' :: 'E' :: 'N' :: 'D' :: '@' :: '@' :: t))))) = false := by
    rw [hasPrefixL_cons_same]
    exact hasPrefixL_through_ne _ _ hqne hqat
  rw [substr_step k7, substr_step k8,
    @hasSubstrL_skip q ('@' :: 'B' :: 'O' :: 'L' :: 'D' :: '-' :: (i ++ ('@' :: '@' :: (p ++ ('@' :: '@' :: 'B' :: 'O' :: 'L' :: 'D' :: '-' :: (i ++ ['-', 'E', 'N', 'D', '@', '@']))))))
      ('@' :: '@' :: 'B' :: 'O' :: 'L' :: 'D' :: '-' :: (j ++ ('-' :: 'E' :: 'N' :: 'D' :: '@' :: '@' :: t))) hqat]
  have k9 : hasPrefixL ('@' :: '@' :: 'B' :: 'O' :: 'L' :: 'D' :: '-' :: (i ++ ('@' :: '@' :: (p ++ ('@' :: '@' :: 'B' :: 'O' :: 'L' :: 'D' :: '-' :: (i ++ ['-', 'E', 'N', 'D', '@', '@'])))))) ('@' :: '@' :: 'B' :: 'O' :: 'L' :: 'D' :: '-' :: (j ++ ('-' :: 'E' :: 'N' :: 'D' :: '@' :: '@' :: t))) = false := by
    have e2 : ('@' :: '@' :: 'B' :: 'O' :: 'L' :: 'D' :: '-' :: (i ++ ('@' :: '@' :: (p ++ ('@' :: '@' :: 'B' :: 'O' :: 'L' :: 'D' :: '-' :: (i ++ ['-', 'E', 'N', 'D', '@', '@']))))) : List Char) =
        openDel ++ (i ++ ('@' :: ('@' :: (p ++
          (openDel ++ (i ++ closeSufL)))))) := by
      simp [openDel, closeSufL]
    have e3 : ('@' :: '@' :: 'B' :: 'O' :: 'L' :: 'D' :: '-' :: (j ++ ('-' :: 'E' :: 'N' :: 'D' :: '@' :: '@' :: t)) : List Char) =
        openDel ++ (j ++ ('-' :: ('E' :: 'N' :: 'D' :: '@' :: '@' :: t))) := by
      simp [openDel]
    rw [e2, e3, hasPrefixL_append_both]
    exact prefix_id_dash i j _ _ hi hj
  have k10 : hasPrefixL ('@' :: '@' :: 'B' :: 'O' :: 'L' :: 'D' :: '-' :: (i ++ ('@' :: '@' :: (p ++ ('@' :: '@' :: 'B' :: 'O' :: 'L' :: 'D' :: '-' :: (i ++ ['-', 'E', 'N', 'D', '@', '@']))))))
      ('@' :: 'B' :: 'O' :: 'L' :: 'D' :: '-' :: (j ++ ('-' :: 'E' :: 'N' :: 'D' :: '@' :: '@' :: t))) = false := by
    rw [hasPrefixL_cons_same]
    exact hasPrefixL_head_ne (by decide) _ _
  have k11 : hasPrefixL ('@' :: '@' :: 'B' :: 'O' :: 'L' :: 'D' :: '-' :: (i ++ ('@' :: '@' :: (p ++ ('@' :: '@' :: 'B' :: 'O' :: 'L' :: 'D' :: '-' :: (i ++ ['-', 'E', 'N', 'D', '@', '@']))))))
      ('B' :: 'O' :: 'L' :: 'D' :: '-' :: (j ++ ('-' :: 'E' :: 'N' :: 'D' :: '@' :: '@' :: t))) = false :=
    hasPrefixL_head_ne (by decide) _ _
  have k12 : hasPrefixL ('@' :: '@' :: 'B' :: 'O' :: 'L' :: 'D' :: '-' :: (i ++ ('@' :: '@' :: (p ++ ('@' :: '@' :: 'B' :: 'O' :: 'L' :: 'D' :: '-' :: (i ++ ['-', 'E', 'N', 'D', '@', '@']))))))
      ('O' :: 'L' :: 'D' :: '-' :: (j ++ ('-' :: 'E' :: 'N' :: 'D' :: '@' :: '@' :: t))) = false :=
    hasPrefixL_head_ne (by decide) _ _
  have k13 : hasPrefixL ('@' :: '@' :: 'B' :: 'O' :: 'L' :: 'D' :: '-' :: (i ++ ('@' :: '@' :: (p ++ ('@' :: '@' :: 'B' :: 'O' :: 'L' :: 'D' :: '-' :: (i ++ ['-', 'E', 'N', 'D', '@', '@']))))))
      ('L' :: 'D' :: '-' :: (j ++ ('-' :: 'E' :: 'N' :: 'D' :: '@' :: '@' :: t))) = false :=
    hasPrefixL_head_ne (by decide) _ _
  have k14 : hasPrefixL ('@' :: '@' :: 'B' :: 'O' :: 'L' :: 'D' :: '-' :: (i ++ ('@' :: '@' :: (p ++ ('@' :: '@' :: 'B' :: 'O' :: 'L' :: 'D' :: '-' :: (i ++ ['-', 'E', 'N', 'D', '@', '@']))))))
      ('D' :: '-' :: (j ++ ('-' :: 'E' :: 'N' :: 'D' :: '@' :: '@' :: t))) = false :=
    hasPrefixL_head_ne (by decide) _ _
  have k15 : hasPrefixL ('@' :: '@' :: 'B' :: 'O' :: 'L' :: 'D' :: '-' :: (i ++ ('@' :: '@' :: (p ++ ('@' :: '@' :: 'B' :: 'O' :: 'L' :: 'D' :: '-' :: (i ++ ['-', 'E', 'N', 'D', '@', '@'])))))) ('-' :: (j ++ ('-' :: 'E' :: 'N' :: 'D' :: '@' :: '@' :: t))) = false :=
    hasPrefixL_head_ne (by decide) _ _
  rw [substr_step k9, substr_step k10, substr_step k11, substr_step k12,
    substr_step k13, substr_step k14, substr_step k15,
    @hasSubstrL_skip j ('@' :: 'B' :: 'O' :: 'L' :: 'D' :: '-' :: (i ++ ('@' :: '@' :: (p ++ ('@' :: '@' :: 'B' :: 'O' :: 'L' :: 'D' :: '-' :: (i ++ ['-', 'E', 'N', 'D', '@', '@']))))))
      ('-' :: 'E' :: 'N' :: 'D' :: '@' :: '@' :: t) hjat]
  have k16 : hasPrefixL ('@' :: '@' :: 'B' :: 'O' :: 'L' :: 'D' :: '-' :: (i ++ ('@' :: '@' :: (p ++ ('@' :: '@' :: 'B' :: 'O' :: 'L' :: 'D' :: '-' :: (i ++ ['-', 'E', 'N', 'D', '@', '@']))))))
      ('-' :: 'E' :: 'N' :: 'D' :: '@' :: '@' :: t) = false :=
    hasPrefixL_head_ne (by decide) _ _
  have k17 : hasPrefixL ('@' :: '@' :: 'B' :: 'O' :: 'L' :: 'D' :: '-' :: (i ++ ('@' :: '@' :: (p ++ ('@' :: '@' :: 'B' :: 'O' :: 'L' :: 'D' :: '-' :: (i ++ ['-', 'E', 'N', 'D', '@', '@']))))))
      ('E' :: 'N' :: 'D' :: '@' :: '@' :: t) = false :=
    hasPrefixL_head_ne (by decide) _ _
  have k18 : hasPrefixL ('@' :: '@' :: 'B' :: 'O' :: 'L' :: 'D' :: '-' :: (i ++ ('@' :: '@' :: (p ++ ('@' :: '@' :: 'B' :: 'O' :: 'L' :: 'D' :: '-' :: (i ++ ['-', 'E', 'N', 'D', '@', '@']))))))
      ('N' :: 'D' :: '@' :: '@' :: t) = false :=
    hasPrefixL_head_ne (by decide) _ _
  have k19 : hasPrefixL ('@' :: '@' :: 'B' :: 'O' :: 'L' :: 'D' :: '-' :: (i ++ ('@' :: '@' :: (p ++ ('@' :: '@' :: 'B' :: 'O' :: 'L' :: 'D' :: '-' :: (i ++ ['-', 'E', 'N', 'D', '@', '@'])))))) ('D' :: '@' :: '@' :: t) = false :=
    hasPrefixL_head_ne (by decide) _ _
  have k20 : hasPrefixL ('@' :: '@' :: 'B' :: 'O' :: 'L' :: 'D' :: '-' :: (i ++ ('@' :: '@' :: (p ++ ('@' :: '@' :: 'B' :: 'O' :: 'L' :: 'D' :: '-' :: (i ++ ['-', 'E', 'N', 'D', '@', '@'])))))) ('@' :: '@' :: t) = false := by
    rw [hasPrefixL_cons_same, hasPrefixL_cons_same]
    exact hB _
  have k21 : hasPrefixL ('@' :: '@' :: 'B' :: 'O' :: 'L' :: 'D' :: '-' :: (i ++ ('@' :: '@' :: (p ++ ('@' :: '@' :: 'B' :: 'O' :: 'L' :: 'D' :: '-' :: (i ++ ['-', 'E', 'N', 'D', '@', '@'])))))) ('@' :: t) = false := by
    rw [hasPrefixL_cons_same]
    exact hAB _
  rw [substr_step k16, substr_step k17, substr_step k18, substr_step k19,
    substr_step k20, substr_step k21]

/-- Wrapper of the core occurrence analysis at segment level. -/
theorem substr_skip_marker (i p j q t : List Char)
    (hi : ∀ c ∈ i, isIdChar c = true)
    (hwj : segWFB (.marker j q) = true)
    (hne : i ≠ j)
    (hB : ∀ Z, hasPrefixL ('B' :: Z) t = false)
    (hAB : ∀ Z, hasPrefixL ('@' :: 'B' :: Z) t = false) :
    hasSubstrL (renderSeg (.marker i p)) (renderSeg (.marker j q) ++ t) =
      hasSubstrL (renderSeg (.marker i p)) t := by
  simp only [segWFB, Bool.and_eq_true] at hwj
  obtain ⟨⟨hjok, hqne0⟩, hqfree⟩ := hwj
  have hqne : q ≠ [] := by simpa using hqne0
  have hj : ∀ c ∈ j, isIdChar c = true := fun c hc => idOK_mem hjok hc
  have hqat : ∀ c ∈ q, c ≠ '@' := fun c hc => freeB_ne_at hqfree hc
  have hqB : ∀ c ∈ q, c ≠ 'B' := fun c hc => freeB_ne_B hqfree hc
  have hrw : renderSeg (.marker j q) ++ t = ('@' :: '@' :: 'B' :: 'O' :: 'L' :: 'D' :: '-' :: (j ++ ('@' :: '@' :: (q ++ ('@' :: '@' :: 'B' :: 'O' :: 'L' :: 'D' :: '-' :: (j ++ ('-' :: 'E' :: 'N' :: 'D' :: '@' :: '@' :: t))))))) := by
    rw [renderMark_cons]
    simp only [List.cons_append, List.append_assoc, List.nil_append]
  rw [hrw]
  exact substr_skip_marker_aux i p j q t hi hj hqne hqat hqB hne hB hAB

/-- The full span text of a marker does not occur in the rendering of
well-formed segments containing no marker with that id. -/
theorem occ_none (i p : List Char) (hi : ∀ c ∈ i, isIdChar c = true) :
    ∀ segs : List Seg, (∀ sg ∈ segs, segWFB sg = true) →
      (∀ p', Seg.marker i p' ∉ segs) →
      hasSubstrL (renderSeg (.marker i p)) (renderSegs segs) = false := by
  intro segs
  induction segs with
  | nil =>
    intro _ _
    rw [renderSegs_nil]
    show (renderSeg (.marker i p)).isEmpty = false
    rw [renderMark_cons]
    rfl
  | cons sg rest ih =>
    intro hwf hnm
    rw [renderSegs_cons]
    cases sg with
    | plain s =>
      have hsfree : freeB s = true := by
        simpa [segWFB] using hwf (.plain s) (by simp)
      have hsat : ∀ c ∈ s, c ≠ '@' := fun c hc => freeB_ne_at hsfree hc
      have hskip : hasSubstrL (renderSeg (.marker i p)) (s ++ renderSegs rest) =
          hasSubstrL (renderSeg (.marker i p)) (renderSegs rest) := by
        rw [renderMark_cons]
        exact @hasSubstrL_skip s _ _ hsat
      rw [show renderSeg (.plain s) = s from rfl, hskip]
      exact ih (fun x hx => hwf x (by simp [hx]))
        (fun p' hp' => hnm p' (by simp [hp']))
    | marker j q =>
      have hne : i ≠ j := by
        intro e
        exact hnm q (by rw [e]; simp)
      have hwrest : ∀ sg ∈ rest, segWFB sg = true :=
        fun x hx => hwf x (by simp [hx])
      rw [substr_skip_marker i p j q _ hi (hwf _ (by simp)) hne
        (fun Z => render_not_prefix_B Z rest hwrest)
        (fun Z => render_not_prefix_atB Z rest hwrest)]
      exact ih hwrest (fun p' hp' => hnm p' (by simp [hp']))

/-! ## Scanner adequacy on rendered segments -/

theorem matchMarkerAt_not_at {cs : List Char}
    (h : hasPrefixL openDel cs = false) : matchMarkerAt cs = none := by
  rw [matchMarkerAt, if_neg]
  simp [h]

theorem findMarkerL_skip {s : List Char} (t : List Char)
    (h : ∀ c ∈ s, c ≠ '@') : findMarkerL (s ++ t) = findMarkerL t := by
  induction s with
  | nil => rfl
  | cons c s' ih =>
    rw [List.cons_append, findMarkerL,
      matchMarkerAt_not_at (hasPrefixL_head_ne (fun e => (h c (by simp)) e.symm) _ _)]
    exact ih (fun d hd => h d (by simp [hd]))

theorem findOcc_exact {n : List Char} (hn : n.head? = some '@') :
    ∀ (xs ys : List Char), (∀ c ∈ xs, c ≠ '@') → hasPrefixL n ys = true →
      findOcc n (xs ++ ys) = some xs.length := by
  obtain ⟨n', rfl⟩ : ∃ n', n = '@' :: n' := by
    cases n with
    | nil => exact absurd hn (by simp)
    | cons a m => exact ⟨m, by simpa using congrArg (Option.getD · 'x') hn⟩
  intro xs
  induction xs with
  | nil =>
    intro ys _ hpre
    cases ys with
    | nil => exact absurd hpre (by simp [hasPrefixL])
    | cons c ys' =>
      rw [List.nil_append, findOcc, if_pos hpre]
      rfl
  | cons x xs' ih =>
    intro ys hat hpre
    rw [List.cons_append, findOcc,
      if_neg (by rw [hasPrefixL_head_ne (fun e => (hat x (by simp)) e.symm)]; simp),
      ih ys (fun c hc => hat c (by simp [hc])) hpre]
    rfl

theorem takeWhile_id_append (i : List Char) (hid : ∀ c ∈ i, isIdChar c = true)
    (X : List Char) : (i ++ '@' :: X).takeWhile isIdChar = i := by
  induction i with
  | nil =>
    rw [List.nil_append, List.takeWhile_cons,
      if_neg (by rw [(by decide : isIdChar '@' = false)]; simp)]
  | cons a i' ih =>
    rw [List.cons_append, List.takeWhile_cons, if_pos (by rw [hid a (by simp)]),
      ih (fun c hc => hid c (by simp [hc]))]

theorem matchMarkerAt_render (i p t : List Char)
    (hid : ∀ c ∈ i, isIdChar c = true) (hine : i ≠ [])
    (hpne : p ≠ []) (hpat : ∀ c ∈ p, c ≠ '@') :
    matchMarkerAt (renderSeg (.marker i p) ++ t) =
      some (renderSeg (.marker i p), p, t) := by
  obtain ⟨pc, p', rfl⟩ : ∃ pc p', p = pc :: p' := by
    cases p with
    | nil => exact absurd rfl hpne
    | cons a b => exact ⟨a, b, rfl⟩
  have hcs : renderSeg (.marker i (pc :: p')) ++ t =
      openDel ++ (i ++ ('@' :: '@' :: (pc ::
        (p' ++ (openDel ++ (i ++ (closeSufL ++ t))))))) := by
    rw [renderMark_split]
    simp only [List.append_assoc, List.cons_append]
  have h1 : hasPrefixL openDel (openDel ++ (i ++ ('@' :: '@' :: (pc ::
      (p' ++ (openDel ++ (i ++ (closeSufL ++ t)))))))) = true :=
    hasPrefixL_self_append _ _
  have h2 := List.drop_left openDel
    (i ++ ('@' :: '@' :: (pc :: (p' ++ (openDel ++ (i ++ (closeSufL ++ t)))))))
  have h3 : (i ++ ('@' :: '@' :: (pc :: (p' ++ (openDel ++
      (i ++ (closeSufL ++ t))))))).takeWhile isIdChar = i :=
    takeWhile_id_append i hid _
  have h4 : ¬(i.isEmpty = true) := by simpa using hine
  have h5 := List.drop_left i
    ('@' :: '@' :: (pc :: (p' ++ (openDel ++ (i ++ (closeSufL ++ t))))))
  have h6 : hasPrefixL ['@', '@'] ('@' :: '@' :: (pc :: (p' ++ (openDel ++
      (i ++ (closeSufL ++ t)))))) = true := by
    simp [hasPrefixL]
  have hpre : hasPrefixL (openDel ++ i ++ closeSufL)
      (openDel ++ (i ++ (closeSufL ++ t))) = true := by
    have e : openDel ++ (i ++ (closeSufL ++ t)) =
        ((openDel ++ i) ++ closeSufL) ++ t := by
      simp [List.append_assoc]
    rw [e]
    exact hasPrefixL_self_append _ _
  have h9 : findOcc (openDel ++ i ++ closeSufL)
      (p' ++ (openDel ++ (i ++ (closeSufL ++ t)))) = some p'.length :=
    findOcc_exact (by rfl :
        ((openDel ++ i ++ closeSufL : List Char)).head? = some '@')
      p' _ (fun c hc => hpat c (by simp [hc])) hpre
  have h10 : openDel.length + i.length + 2 + (p'.length + 1) +
      (openDel ++ i ++ closeSufL).length =
      (renderSeg (.marker i (pc :: p'))).length := by
    simp [renderSeg, openDel, closeSufL, List.length_append]
    omega
  have h11 : (pc :: (p' ++ (openDel ++ (i ++ (closeSufL ++ t))))).take
      (p'.length + 1) = pc :: p' := by
    rw [List.take_succ_cons, List.take_left]
  have h12 : (pc :: (p' ++ (openDel ++ (i ++ (closeSufL ++ t))))).drop
      ((p'.length + 1) + (openDel ++ i ++ closeSufL).length) = t := by
    have e : openDel ++ (i ++ (closeSufL ++ t)) =
        ((openDel ++ i) ++ closeSufL) ++ t := by
      simp [List.append_assoc]
    rw [show (p'.length + 1) + (openDel ++ i ++ closeSufL).length =
      (p'.length + (openDel ++ i ++ closeSufL).length) + 1 from by omega,
      List.drop_succ_cons, e,
      show p' ++ (((openDel ++ i) ++ closeSufL) ++ t) =
        (p' ++ ((openDel ++ i) ++ closeSufL)) ++ t from
        (List.append_assoc _ _ _).symm,
      show p'.length + (openDel ++ i ++ closeSufL).length =
        (p' ++ (openDel ++ i ++ closeSufL)).length from
        (List.length_append _ _).symm,
      List.drop_left]
  rw [hcs, matchMarkerAt, if_pos h1]
  simp only [h2, h3, h5]
  rw [if_neg h4, if_pos h6]
  simp only [List.drop_succ_cons, List.drop_zero, h9]
  rw [h11, h12, ← hcs, h10, List.take_left]


/-- The first marker match in the rendering of a block whose segments start
with plain segments followed by a marker. -/
theorem findMarkerL_first (pre : List (List Char)) (i p : List Char)
    (post : List Seg)
    (hpre : ∀ s ∈ pre, freeB s = true)
    (hid : ∀ c ∈ i, isIdChar c = true) (hine : i ≠ [])
    (hpne : p ≠ []) (hpat : ∀ c ∈ p, c ≠ '@') :
    findMarkerL (renderSegs (pre.map Seg.plain ++ Seg.marker i p :: post)) =
      some (renderSeg (.marker i p), p) := by
  induction pre with
  | nil =>
    rw [List.map_nil, List.nil_append, renderSegs_cons]
    have hm := matchMarkerAt_render i p (renderSegs post) hid hine hpne hpat
    obtain ⟨c, cs0, he⟩ : ∃ c cs0, renderSeg (.marker i p) = c :: cs0 := by
      rw [renderMark_cons]
      exact ⟨_, _, rfl⟩
    rw [he, List.cons_append, findMarkerL]
    rw [he, List.cons_append] at hm
    rw [hm]
  | cons s pre' ih =>
    rw [List.map_cons, List.cons_append, renderSegs_cons,
      show renderSeg (.plain s) = s from rfl,
      findMarkerL_skip _ (fun c hc => freeB_ne_at (hpre s (by simp)) hc)]
    exact ih (fun x hx => hpre x (by simp [hx]))

/-- No marker match in the rendering of marker-free well-formed segments. -/
theorem findMarkerL_none (segs : List Seg)
    (hwf : ∀ sg ∈ segs, segWFB sg = true)
    (hnm : ∀ i p, Seg.marker i p ∉ segs) :
    findMarkerL (renderSegs segs) = none := by
  induction segs with
  | nil => rfl
  | cons sg rest ih =>
    cases sg with
    | plain s =>
      rw [renderSegs_cons, show renderSeg (.plain s) = s from rfl,
        findMarkerL_skip _ (fun c hc =>
          freeB_ne_at (by simpa [segWFB] using hwf (.plain s) (by simp)) hc)]
      exact ih (fun x hx => hwf x (by simp [hx]))
        (fun i p hip => hnm i p (by simp [hip]))
    | marker j q => exact absurd (by simp) (hnm j q)

/-! ## Substitution adequacy on rendered segments -/

theorem replaceAllGo_no_occ :
    ∀ (fuel : Nat) (n r cs : List Char), hasSubstrL n cs = false →
      replaceAllGo fuel n r cs = cs := by
  intro fuel
  induction fuel with
  | zero => intro n r cs _; rfl
  | succ f ih =>
    intro n r cs h
    cases cs with
    | nil => rfl
    | cons c rest =>
      have h2 : (hasPrefixL n (c :: rest) || hasSubstrL n rest) = false := h
      rw [Bool.or_eq_false_iff] at h2
      rw [replaceAllGo, if_neg (by simp [h2.1]), ih n r rest h2.2]

theorem replaceAllL_no_occ {n r cs : List Char} (h : hasSubstrL n cs = false) :
    replaceAllL n r cs = cs := replaceAllGo_no_occ _ n r cs h

theorem replaceAllGo_single {n : List Char} (r : List Char)
    (hn : n.head? = some '@') :
    ∀ (xs : List Char) (ys : List Char) (fuel : Nat),
      (∀ c ∈ xs, c ≠ '@') → hasSubstrL n ys = false →
      (xs ++ (n ++ ys)).length ≤ fuel →
      replaceAllGo fuel n r (xs ++ (n ++ ys)) = xs ++ (r ++ ys) := by
  obtain ⟨n1, rfl⟩ : ∃ n1, n = '@' :: n1 := by
    cases n with
    | nil => exact absurd hn (by simp)
    | cons a m => exact ⟨m, by simpa using congrArg (Option.getD · 'x') hn⟩
  intro xs
  induction xs with
  | nil =>
    intro ys fuel _ hys hlen
    rw [List.nil_append] at hlen ⊢
    cases fuel with
    | zero => simp at hlen
    | succ f =>
      rw [show ('@' :: n1) ++ ys = '@' :: (n1 ++ ys) from rfl, replaceAllGo,
        if_pos ⟨by simp, by
          rw [show '@' :: (n1 ++ ys) = ('@' :: n1) ++ ys from rfl]
          exact hasPrefixL_self_append _ _⟩,
        show '@' :: (n1 ++ ys) = ('@' :: n1) ++ ys from rfl,
        List.drop_left, replaceAllGo_no_occ f _ r ys hys]
      rfl
  | cons x xs' ih =>
    intro ys fuel hat hys hlen
    cases fuel with
    | zero => simp at hlen
    | succ f =>
      rw [List.cons_append, replaceAllGo,
        if_neg (by
          rw [hasPrefixL_head_ne (fun e => (hat x (by simp)) e.symm)]
          simp),
        ih ys f (fun c hc => hat c (by simp [hc])) hys (by
          rw [List.cons_append, List.length_cons] at hlen
          omega)]
      rfl

theorem replaceAllL_single {n : List Char} (r : List Char)
    (hn : n.head? = some '@') (xs ys : List Char)
    (hxs : ∀ c ∈ xs, c ≠ '@') (hys : hasSubstrL n ys = false) :
    replaceAllL n r (xs ++ (n ++ ys)) = xs ++ (r ++ ys) :=
  replaceAllGo_single r hn xs ys _ hxs hys (Nat.le_refl _)

theorem renderSegs_append (a b : List Seg) :
    renderSegs (a ++ b) = renderSegs a ++ renderSegs b := by
  simp [renderSegs]

theorem renderPlains_at_free (pre : List (List Char))
    (hpre : ∀ s ∈ pre, freeB s = true) :
    ∀ c ∈ renderSegs (pre.map Seg.plain), c ≠ '@' := by
  induction pre with
  | nil => intro c hc; simp [renderSegs] at hc
  | cons s pre' ih =>
    intro c hc
    rw [List.map_cons, renderSegs_cons] at hc
    rcases List.mem_append.mp hc with h | h
    · exact freeB_ne_at (hpre s (by simp)) h
    · exact ih (fun x hx => hpre x (by simp [hx])) c h

theorem renderMark_head (i p : List Char) :
    (renderSeg (.marker i p)).head? = some '@' := by
  rw [renderMark_cons]
  rfl

/-- A block whose segments contain no marker with the given id is unchanged
by the span substitution. -/
theorem replaceAll_block_none (i p : List Char) (R : List Char)
    (hid : ∀ c ∈ i, isIdChar c = true) (segs : List Seg)
    (hwf : ∀ sg ∈ segs, segWFB sg = true)
    (hnm : ∀ p', Seg.marker i p' ∉ segs) :
    replaceAllL (renderSeg (.marker i p)) R (renderSegs segs) =
      renderSegs segs :=
  replaceAllL_no_occ (occ_none i p hid segs hwf hnm)

/-- In the block holding the first-found marker, the span substitution
replaces exactly that span by its payload. -/
theorem replaceAll_block_first (i p : List Char) (pre : List (List Char))
    (post : List Seg)
    (hid : ∀ c ∈ i, isIdChar c = true)
    (hpre : ∀ s ∈ pre, freeB s = true)
    (hwfpost : ∀ sg ∈ post, segWFB sg = true)
    (hnm : ∀ p', Seg.marker i p' ∉ post) :
    replaceAllL (renderSeg (.marker i p)) p
        (renderSegs (pre.map Seg.plain ++ Seg.marker i p :: post)) =
      renderSegs (pre.map Seg.plain ++ Seg.plain p :: post) := by
  rw [renderSegs_append, renderSegs_cons, renderSegs_append, renderSegs_cons,
    show renderSeg (.plain p) = p from rfl,
    replaceAllL_single p (renderMark_head i p) _ _
      (renderPlains_at_free pre hpre) (occ_none i p hid post hwfpost hnm)]

/-! ## Document-level segment structure -/

/-- A block renders a segment list: a paragraph holds exactly the rendered
text as its single run; a non-paragraph block carries no segments. -/
def renderedBlockB (b : Block) (segs : List Seg) : Bool :=
  (b.isPara && b.runs == [String.mk (renderSegs segs)]) ||
    (!b.isPara && segs.isEmpty)

def renderedDocB : List Block → List (List Seg) → Bool
  | [], [] => true
  | b :: doc, segs :: segss => renderedBlockB b segs && renderedDocB doc segss
  | _, _ => false

def docWFB (segss : List (List Seg)) : Bool :=
  segss.all (fun segs => segs.all segWFB)

def segMarkers : List Seg → List (List Char × List Char)
  | [] => []
  | .plain _ :: rest => segMarkers rest
  | .marker i p :: rest => (i, p) :: segMarkers rest

def docMarkers (segss : List (List Seg)) : List (List Char × List Char) :=
  (segss.map segMarkers).join

def firstMarkerSegs : List Seg → Option (List Char × List Char)
  | [] => none
  | .plain _ :: rest => firstMarkerSegs rest
  | .marker i p :: _ => some (i, p)

def firstMarkerDoc : List (List Seg) → Option (List Char × List Char)
  | [] => none
  | segs :: segss =>
    match firstMarkerSegs segs with
    | some ip => some ip
    | none => firstMarkerDoc segss

def replaceFirstSegs : List Seg → List Seg
  | [] => []
  | .plain s :: rest => .plain s :: replaceFirstSegs rest
  | .marker _ p :: rest => .plain p :: rest

def replaceFirstDoc : List (List Seg) → List (List Seg)
  | [] => []
  | segs :: segss =>
    match firstMarkerSegs segs with
    | some _ => replaceFirstSegs segs :: segss
    | none => segs :: replaceFirstDoc segss

theorem firstMarkerSegs_none_nm :
    ∀ {segs : List Seg}, firstMarkerSegs segs = none →
      ∀ i p, Seg.marker i p ∉ segs := by
  intro segs
  induction segs with
  | nil => intro _ i p h; simp at h
  | cons sg rest ih =>
    intro hf i p hm
    cases sg with
    | plain s =>
      rcases List.mem_cons.mp hm with h | h
      · exact absurd h (by simp)
      · exact ih (by simpa [firstMarkerSegs] using hf) i p h
    | marker j q => simp [firstMarkerSegs] at hf

theorem firstMarkerSegs_some_decomp :
    ∀ {segs : List Seg} {i p : List Char},
      firstMarkerSegs segs = some (i, p) →
      ∃ (pre : List (List Char)) (post : List Seg),
        segs = pre.map Seg.plain ++ Seg.marker i p :: post ∧
        replaceFirstSegs segs = pre.map Seg.plain ++ Seg.plain p :: post := by
  intro segs
  induction segs with
  | nil => intro i p h; simp [firstMarkerSegs] at h
  | cons sg rest ih =>
    intro i p hf
    cases sg with
    | plain s =>
      obtain ⟨pre, post, he, hr⟩ := ih (by simpa [firstMarkerSegs] using hf)
      exact ⟨s :: pre, post, by simp [he], by simp [replaceFirstSegs, hr]⟩
    | marker j q =>
      rw [firstMarkerSegs] at hf
      injection hf with hf
      injection hf with h1 h2
      subst h1; subst h2
      exact ⟨[], rest, by simp, by simp [replaceFirstSegs]⟩

theorem segMarkers_append (a b : List Seg) :
    segMarkers (a ++ b) = segMarkers a ++ segMarkers b := by
  induction a with
  | nil => rfl
  | cons sg rest ih =>
    cases sg with
    | plain s => simpa [segMarkers] using ih
    | marker i p => simp [segMarkers, ih]

theorem segMarkers_plains (pre : List (List Char)) :
    segMarkers (pre.map Seg.plain) = [] := by
  induction pre with
  | nil => rfl
  | cons s rest ih => simpa [segMarkers] using ih

theorem mem_segMarkers {segs : List Seg} {i p : List Char}
    (h : Seg.marker i p ∈ segs) : (i, p) ∈ segMarkers segs := by
  induction segs with
  | nil => simp at h
  | cons sg rest ih =>
    cases sg with
    | plain s =>
      rcases List.mem_cons.mp h with h1 | h1
      · exact absurd h1 (by simp)
      · exact ih h1
    | marker j q =>
      rcases List.mem_cons.mp h with h1 | h1
      · injection h1 with e1 e2
        subst e1; subst e2
        simp [segMarkers]
      · simp [segMarkers, ih h1]

theorem segMarkers_nil_of_nm {segs : List Seg}
    (h : ∀ i p, Seg.marker i p ∉ segs) : segMarkers segs = [] := by
  induction segs with
  | nil => rfl
  | cons sg rest ih =>
    cases sg with
    | plain s =>
      exact ih (fun i p hm => h i p (by simp [hm]))
    | marker j q => exact absurd (by simp) (h j q)

theorem paraText_rendered {b : Block} {segs : List Seg}
    (h : renderedBlockB b segs = true) :
    (paraText b).data = renderSegs segs := by
  rw [renderedBlockB, Bool.or_eq_true, Bool.and_eq_true, Bool.and_eq_true] at h
  rcases h with ⟨hp, hr⟩ | ⟨hp, he⟩
  · have hruns : b.runs = [String.mk (renderSegs segs)] := by
      exact eq_of_beq hr
    rw [paraText, if_pos (by simp [hp]), hruns]
    show (String.join ["" ++ String.mk (renderSegs segs)]).data = _
    simp [String.join]
  · have hp' : b.isPara = false := by
      cases hb : b.isPara
      · rfl
      · rw [hb] at hp; exact absurd hp (by simp)
    have he' : segs = [] := by simpa using he
    rw [paraText, if_neg (by simp [hp']), he']
    rfl

theorem rendered_isPara {b : Block} {segs : List Seg}
    (h : renderedBlockB b segs = true) (hne : segs ≠ []) :
    b.isPara = true ∧ b.runs = [String.mk (renderSegs segs)] := by
  rw [renderedBlockB, Bool.or_eq_true, Bool.and_eq_true, Bool.and_eq_true] at h
  rcases h with ⟨hp, hr⟩ | ⟨_, he⟩
  · exact ⟨hp, eq_of_beq hr⟩
  · exact absurd (by simpa using he) hne

theorem renderedDocB_reindexFrom (doc : List Block) :
    ∀ (n : Nat) (segss : List (List Seg)),
      renderedDocB (reindexFrom n doc) segss = renderedDocB doc segss := by
  induction doc with
  | nil => intro n segss; cases segss <;> rfl
  | cons b doc' ih =>
    intro n segss
    cases segss with
    | nil => rfl
    | cons segs segss' =>
      rw [reindexFrom]
      show (renderedBlockB _ segs && renderedDocB _ segss') = _
      rw [ih]
      rfl

theorem docWFB_replaceFirstSegs {segs : List Seg}
    (h : segs.all segWFB = true) : (replaceFirstSegs segs).all segWFB = true := by
  induction segs with
  | nil => rfl
  | cons sg rest ih =>
    rw [List.all_cons, Bool.and_eq_true] at h
    cases sg with
    | plain s =>
      rw [replaceFirstSegs, List.all_cons, h.1, Bool.true_and]
      exact ih h.2
    | marker i p =>
      rw [replaceFirstSegs, List.all_cons]
      have hq : freeB p = true := by
        have := h.1
        simp only [segWFB, Bool.and_eq_true] at this
        exact this.2
      rw [show segWFB (.plain p) = freeB p from rfl, hq, Bool.true_and]
      exact h.2

theorem docWFB_replaceFirstDoc {segss : List (List Seg)}
    (h : docWFB segss = true) : docWFB (replaceFirstDoc segss) = true := by
  induction segss with
  | nil => rfl
  | cons segs segss' ih =>
    rw [docWFB, List.all_cons, Bool.and_eq_true] at h
    rw [replaceFirstDoc]
    cases hf : firstMarkerSegs segs with
    | some ip =>
      rw [docWFB, List.all_cons, docWFB_replaceFirstSegs h.1, Bool.true_and]
      exact h.2
    | none =>
      rw [docWFB, List.all_cons, h.1, Bool.true_and]
      exact ih h.2

theorem docMarkers_cons (segs : List Seg) (segss : List (List Seg)) :
    docMarkers (segs :: segss) = segMarkers segs ++ docMarkers segss := rfl

theorem docMarkers_append (a b : List (List Seg)) :
    docMarkers (a ++ b) = docMarkers a ++ docMarkers b := by
  simp [docMarkers]

theorem firstMarkerDoc_some_decomp :
    ∀ {segss : List (List Seg)} {i p : List Char},
      firstMarkerDoc segss = some (i, p) →
      ∃ (preS : List (List Seg)) (segsK : List Seg) (postS : List (List Seg))
        (pre : List (List Char)) (post : List Seg),
        segss = preS ++ segsK :: postS ∧
        (∀ segs ∈ preS, firstMarkerSegs segs = none) ∧
        segsK = pre.map Seg.plain ++ Seg.marker i p :: post ∧
        replaceFirstDoc segss =
          preS ++ (pre.map Seg.plain ++ Seg.plain p :: post) :: postS ∧
        docMarkers segss = (i, p) :: docMarkers (replaceFirstDoc segss) := by
  intro segss
  induction segss with
  | nil => intro i p h; simp [firstMarkerDoc] at h
  | cons segs segss' ih =>
    intro i p hf
    rw [firstMarkerDoc] at hf
    cases hfs : firstMarkerSegs segs with
    | some ip =>
      rw [hfs] at hf
      injection hf with hf
      subst hf
      obtain ⟨pre, post, he, hr⟩ := firstMarkerSegs_some_decomp hfs
      refine ⟨[], segs, segss', pre, post, by simp, by simp, he, ?_, ?_⟩
      · simp [replaceFirstDoc, hfs, hr]
      · rw [show replaceFirstDoc (segs :: segss') = replaceFirstSegs segs :: segss'
            from by simp [replaceFirstDoc, hfs],
          docMarkers_cons, docMarkers_cons, hr, he]
        simp only [segMarkers_append, segMarkers_plains, List.nil_append,
          show segMarkers (Seg.marker i p :: post) = (i, p) :: segMarkers post
            from rfl,
          show segMarkers (Seg.plain p :: post) = segMarkers post from rfl,
          List.cons_append]
    | none =>
      rw [hfs] at hf
      obtain ⟨preS, segsK, postS, pre, post, he, hn, hk, hr, hm⟩ := ih hf
      have hnil : segMarkers segs = [] :=
        segMarkers_nil_of_nm (firstMarkerSegs_none_nm hfs)
      refine ⟨segs :: preS, segsK, postS, pre, post, by simp [he], ?_, hk, ?_, ?_⟩
      · intro x hx
        rcases List.mem_cons.mp hx with h1 | h1
        · rw [h1]; exact hfs
        · exact hn x h1
      · simp [replaceFirstDoc, hfs, hr]
      · rw [docMarkers_cons, hnil, List.nil_append, hm,
          show replaceFirstDoc (segs :: segss') = segs :: replaceFirstDoc segss'
            from by simp [replaceFirstDoc, hfs],
          docMarkers_cons, hnil, List.nil_append]

theorem docWFB_mem {segss : List (List Seg)} (h : docWFB segss = true)
    {segs : List Seg} (hm : segs ∈ segss) : segs.all segWFB = true := by
  rw [docWFB, List.all_eq_true] at h
  exact h segs hm

theorem renderedDocB_decomp :
    ∀ (preS : List (List Seg)) (segsK : List Seg) (postS : List (List Seg))
      (doc : List Block),
      renderedDocB doc (preS ++ segsK :: postS) = true →
      ∃ (preB : List Block) (bk : Block) (postB : List Block),
        doc = preB ++ bk :: postB ∧ renderedDocB preB preS = true ∧
        renderedBlockB bk segsK = true ∧ renderedDocB postB postS = true := by
  intro preS
  induction preS with
  | nil =>
    intro segsK postS doc h
    cases doc with
    | nil => exact absurd h (by simp [renderedDocB])
    | cons b d' =>
      rw [List.nil_append, renderedDocB, Bool.and_eq_true] at h
      exact ⟨[], b, d', by simp, rfl, h.1, h.2⟩
  | cons s ss ih =>
    intro segsK postS doc h
    cases doc with
    | nil => exact absurd h (by simp [renderedDocB])
    | cons b d' =>
      rw [List.cons_append, renderedDocB, Bool.and_eq_true] at h
      obtain ⟨preB, bk, postB, he, h1, h2, h3⟩ := ih segsK postS d' h.2
      exact ⟨b :: preB, bk, postB, by simp [he],
        by rw [renderedDocB, Bool.and_eq_true]; exact ⟨h.1, h1⟩, h2, h3⟩

theorem renderedDocB_append :
    ∀ (A : List Block) (SA : List (List Seg)) (B : List Block)
      (SB : List (List Seg)), renderedDocB A SA = true →
      renderedDocB B SB = true →
      renderedDocB (A ++ B) (SA ++ SB) = true := by
  intro A
  induction A with
  | nil =>
    intro SA B SB hA hB
    cases SA with
    | nil => exact hB
    | cons x xs => exact absurd hA (by simp [renderedDocB])
  | cons b A' ih =>
    intro SA B SB hA hB
    cases SA with
    | nil => exact absurd hA (by simp [renderedDocB])
    | cons segs SA' =>
      rw [renderedDocB, Bool.and_eq_true] at hA
      rw [List.cons_append, List.cons_append, renderedDocB, Bool.and_eq_true]
      exact ⟨hA.1, ih SA' B SB hA.2 hB⟩

theorem renderedDocB_map {f : Block → Block} :
    ∀ (doc : List Block) (segss : List (List Seg)),
      renderedDocB doc segss = true →
      (∀ b ∈ doc, ∀ segs ∈ segss, renderedBlockB b segs = true →
        renderedBlockB (f b) segs = true) →
      renderedDocB (doc.map f) segss = true := by
  intro doc
  induction doc with
  | nil =>
    intro segss h _
    cases segss with
    | nil => exact h
    | cons x xs => exact absurd h (by simp [renderedDocB])
  | cons b doc' ih =>
    intro segss h hper
    cases segss with
    | nil => exact absurd h (by simp [renderedDocB])
    | cons segs segss' =>
      rw [renderedDocB, Bool.and_eq_true] at h
      rw [List.map_cons, renderedDocB, Bool.and_eq_true]
      refine ⟨hper b (by simp) segs (by simp) h.1, ?_⟩
      exact ih segss' h.2
        (fun x hx s hs hr => hper x (by simp [hx]) s (by simp [hs]) hr)

theorem rendered_runs {b : Block} {segs : List Seg}
    (h : renderedBlockB b segs = true) (hp : b.isPara = true) :
    b.runs = [String.mk (renderSegs segs)] := by
  rw [renderedBlockB, Bool.or_eq_true, Bool.and_eq_true, Bool.and_eq_true] at h
  rcases h with ⟨_, hr⟩ | ⟨hnp, _⟩
  · exact eq_of_beq hr
  · rw [hp] at hnp; exact absurd hnp (by simp)

theorem getParagraphMarker_through :
    ∀ (preB : List Block) (preS : List (List Seg)) (rest : List Block),
      renderedDocB preB preS = true →
      (∀ segs ∈ preS, segs.all segWFB = true ∧ firstMarkerSegs segs = none) →
      getParagraphMarker (preB ++ rest) = getParagraphMarker rest := by
  intro preB
  induction preB with
  | nil => intro _ rest _ _; rfl
  | cons b preB' ih =>
    intro preS rest hrd hfree
    cases preS with
    | nil => exact absurd hrd (by simp [renderedDocB])
    | cons segs preS' =>
      rw [renderedDocB, Bool.and_eq_true] at hrd
      have hfm : findMarkerL (paraText b).data = none := by
        rw [paraText_rendered hrd.1]
        exact findMarkerL_none segs
          (fun sg hsg => List.all_eq_true.mp (hfree segs (by simp)).1 sg hsg)
          (fun i' p' hm =>
            firstMarkerSegs_none_nm (hfree segs (by simp)).2 i' p' hm)
      rw [List.cons_append, getParagraphMarker, hfm]
      exact ih preS' rest hrd.2 (fun s hs => hfree s (by simp [hs]))

/-- One pass of the styler on a document rendered from well-formed segments
with pairwise-distinct marker ids: the scanner returns exactly the first
marker span, and the single replaceAllText batch rewrites the document to
the rendering with that span replaced by its payload. -/
theorem marker_step (doc : List Block) (segss : List (List Seg))
    (i p : List Char)
    (hrd : renderedDocB doc segss = true)
    (hwf : docWFB segss = true)
    (hids : ((docMarkers segss).map Prod.fst).Nodup)
    (hf : firstMarkerDoc segss = some (i, p)) :
    getParagraphMarker doc =
      some (String.mk (renderSeg (.marker i p)), String.mk p) ∧
    renderedDocB
      (applyRequestsDoc doc
        [Request.replaceAllText (String.mk (renderSeg (.marker i p)))
          (String.mk p) true])
      (replaceFirstDoc segss) = true := by
  obtain ⟨preS, segsK, postS, pre, post, he, hnpre, hk, hrfd, hmk⟩ :=
    firstMarkerDoc_some_decomp hf
  have hmarkerWF : segWFB (.marker i p) = true := by
    have hKmem : segsK ∈ segss := by rw [he]; simp
    have := List.all_eq_true.mp (docWFB_mem hwf hKmem)
      (Seg.marker i p) (by rw [hk]; simp)
    exact this
  have hiOK : idOK i = true := by
    simp only [segWFB, Bool.and_eq_true] at hmarkerWF
    exact hmarkerWF.1.1
  have hid : ∀ c ∈ i, isIdChar c = true := fun c hc => idOK_mem hiOK hc
  have hine : i ≠ [] := idOK_ne_nil hiOK
  have hpne : p ≠ [] := by
    simp only [segWFB, Bool.and_eq_true] at hmarkerWF
    simpa using hmarkerWF.1.2
  have hpfree : freeB p = true := by
    simp only [segWFB, Bool.and_eq_true] at hmarkerWF
    exact hmarkerWF.2
  have hpat : ∀ c ∈ p, c ≠ '@' := fun c hc => freeB_ne_at hpfree hc
  have hKwf : segsK.all segWFB = true :=
    docWFB_mem hwf (by rw [he]; simp)
  have hprefree : ∀ s ∈ pre, freeB s = true := by
    intro s hs
    have : segWFB (.plain s) = true := List.all_eq_true.mp hKwf (.plain s)
      (by rw [hk]; exact List.mem_append_left _ (List.mem_map_of_mem _ hs))
    simpa [segWFB] using this
  have hwfpost : ∀ sg ∈ post, segWFB sg = true := by
    intro sg hsg
    exact List.all_eq_true.mp hKwf sg (by rw [hk]; simp [hsg])
  -- the found id occurs nowhere else
  have hids' : i ∉ (docMarkers (replaceFirstDoc segss)).map Prod.fst := by
    rw [hmk] at hids
    simp only [List.map_cons, List.nodup_cons] at hids
    exact hids.1
  have hM' : docMarkers (replaceFirstDoc segss) =
      docMarkers preS ++ (segMarkers post ++ docMarkers postS) := by
    rw [hrfd, docMarkers_append, docMarkers_cons, segMarkers_append,
      segMarkers_plains, List.nil_append,
      show segMarkers (Seg.plain p :: post) = segMarkers post from rfl]
  have hnmpost : ∀ p', Seg.marker i p' ∉ post := by
    intro p' hm
    apply hids'
    rw [hM']
    exact List.mem_map.mpr ⟨(i, p'),
      List.mem_append_right _ (List.mem_append_left _ (mem_segMarkers hm)), rfl⟩
  have hnmpostS : ∀ segs ∈ postS, ∀ p', Seg.marker i p' ∉ segs := by
    intro segs hsegs p' hm
    apply hids'
    rw [hM']
    refine List.mem_map.mpr ⟨(i, p'),
      List.mem_append_right _ (List.mem_append_right _ ?_), rfl⟩
    rw [docMarkers]
    exact List.mem_join.mpr ⟨segMarkers segs, List.mem_map_of_mem _ hsegs,
      mem_segMarkers hm⟩
  have hnmpreS : ∀ segs ∈ preS, ∀ p', Seg.marker i p' ∉ segs :=
    fun segs hsegs p' => firstMarkerSegs_none_nm (hnpre segs hsegs) i p'
  obtain ⟨preB, bk, postB, hdoc, hrdpre, hrdk, hrdpost⟩ := by
    rw [he] at hrd
    exact renderedDocB_decomp preS segsK postS doc hrd
  have hwfpre : ∀ segs ∈ preS, segs.all segWFB = true :=
    fun segs hs => docWFB_mem hwf (by rw [he]; simp [hs])
  have hwfpostS : ∀ segs ∈ postS, segs.all segWFB = true :=
    fun segs hs => docWFB_mem hwf (by rw [he]; simp [hs])
  constructor
  · rw [hdoc, getParagraphMarker_through preB preS _ hrdpre
      (fun segs hs => ⟨hwfpre segs hs, hnpre segs hs⟩)]
    have hfm : findMarkerL (paraText bk).data =
        some (renderSeg (.marker i p), p) := by
      rw [paraText_rendered hrdk, hk]
      exact findMarkerL_first pre i p post hprefree hid hine hpne hpat
    rw [getParagraphMarker, hfm]
  · -- the substitution pass
    rw [hdoc, hrfd]
    rw [applyRequestsDoc, List.map_append, List.map_cons]
    have happly_none : ∀ (b : Block) (segs : List Seg),
        segs.all segWFB = true → (∀ p', Seg.marker i p' ∉ segs) →
        renderedBlockB b segs = true →
        renderedBlockB
          (if b.isPara then
            { b with runs := b.runs.map (fun run =>
                applyReqsToText
                  [Request.replaceAllText
                    (String.mk (renderSeg (.marker i p))) (String.mk p) true]
                  run) }
           else b) segs = true := by
      intro b segs hwfs hnm hr
      cases hip : b.isPara with
      | false => rw [if_neg (by simp [hip])]; exact hr
      | true =>
        rw [if_pos (by simp [hip])]
        have hruns := rendered_runs hr hip
        have hfix : applyReqsToText
            [Request.replaceAllText
              (String.mk (renderSeg (.marker i p))) (String.mk p) true]
            (String.mk (renderSegs segs)) = String.mk (renderSegs segs) := by
          show replaceAllStr (String.mk (renderSegs segs))
            (String.mk (renderSeg (.marker i p))) (String.mk p) = _
          rw [replaceAllStr]
          show String.mk (replaceAllL (renderSeg (.marker i p)) p
            (renderSegs segs)) = _
          rw [replaceAll_block_none i p p hid segs
            (fun sg hsg => List.all_eq_true.mp hwfs sg hsg) hnm]
        simp [renderedBlockB, hruns, hfix]
    refine renderedDocB_append _ _ _ _ ?_ ?_
    · exact renderedDocB_map preB preS hrdpre
        (fun b _ segs hs hr => happly_none b segs (hwfpre segs hs)
          (fun p' => hnmpreS segs hs p') hr)
    · rw [renderedDocB, Bool.and_eq_true]
      constructor
      · -- the block holding the first marker
        have hKne : segsK ≠ [] := by
          rw [hk]
          intro hcon
          exact absurd (List.append_eq_nil.mp hcon).2 (by simp)
        obtain ⟨hip, hruns⟩ := rendered_isPara hrdk hKne
        show renderedBlockB
          (if bk.isPara then
            { bk with runs := bk.runs.map (fun run =>
                applyReqsToText
                  [Request.replaceAllText
                    (String.mk (renderSeg (.marker i p))) (String.mk p) true]
                  run) }
           else bk) (pre.map Seg.plain ++ Seg.plain p :: post) = true
        rw [if_pos (by simp [hip])]
        have hfix : applyReqsToText
            [Request.replaceAllText
              (String.mk (renderSeg (.marker i p))) (String.mk p) true]
            (String.mk (renderSegs segsK)) =
            String.mk (renderSegs (pre.map Seg.plain ++ Seg.plain p :: post)) := by
          show replaceAllStr (String.mk (renderSegs segsK))
            (String.mk (renderSeg (.marker i p))) (String.mk p) = _
          rw [replaceAllStr]
          show String.mk (replaceAllL (renderSeg (.marker i p)) p
            (renderSegs segsK)) = _
          rw [hk, replaceAll_block_first i p pre post hid hprefree hwfpost hnmpost]
        simp [renderedBlockB, hip, hruns, hfix]
      · exact renderedDocB_map postB postS hrdpost
          (fun b _ segs hs hr => happly_none b segs (hwfpostS segs hs)
            (fun p' => hnmpostS segs hs p') hr)

/-! ## The pass loop -/

theorem hasSubstrL_mid (n xs ys : List Char) (hne : n ≠ []) :
    hasSubstrL n (xs ++ (n ++ ys)) = true := by
  induction xs with
  | nil =>
    cases n with
    | nil => exact absurd rfl hne
    | cons a n' =>
      rw [List.nil_append]
      show (hasPrefixL (a :: n') ((a :: n') ++ ys) ||
        hasSubstrL (a :: n') (n' ++ ys)) = true
      rw [hasPrefixL_self_append, Bool.true_or]
  | cons x xs' ih =>
    rw [List.cons_append]
    show (hasPrefixL n (x :: (xs' ++ (n ++ ys))) ||
      hasSubstrL n (xs' ++ (n ++ ys))) = true
    rw [ih, Bool.or_true]

theorem findOcc_of_substr :
    ∀ {n cs : List Char}, hasSubstrL n cs = true →
      ∃ k, findOcc n cs = some k := by
  intro n cs
  induction cs with
  | nil =>
    intro h
    have hn : n = [] := by simpa [hasSubstrL] using h
    subst hn
    exact ⟨0, rfl⟩
  | cons c rest ih =>
    intro h
    cases hp : hasPrefixL n (c :: rest) with
    | true => exact ⟨0, by rw [findOcc, if_pos hp]⟩
    | false =>
      have h2 : hasSubstrL n rest = true := by
        rw [show hasSubstrL n (c :: rest) =
          (hasPrefixL n (c :: rest) || hasSubstrL n rest) from rfl, hp,
          Bool.false_or] at h
        exact h
      obtain ⟨k, hk⟩ := ih h2
      exact ⟨k + 1, by rw [findOcc, if_neg (by simp [hp]), hk]; rfl⟩

theorem occPositions_ne_nil {n cs : List Char}
    (h : hasSubstrL n cs = true) : occPositions n cs ≠ [] := by
  obtain ⟨k, hk⟩ := findOcc_of_substr h
  rw [occPositions, occPosGo, hk]
  simp

theorem boldRequestsForBlock_single_run (b : Block) (payload : String)
    (text : List Char) (hruns : b.runs = [String.mk text])
    (hp : b.isPara = true) (hsub : hasSubstrL payload.data text = true) :
    boldRequestsForBlock b payload ≠ [] := by
  have hpt : (paraText b).data = text := by
    rw [paraText, if_pos (by simp [hp]), hruns]
    show (String.join ["" ++ String.mk text]).data = _
    simp [String.join]
  rw [boldRequestsForBlock, if_pos (by
    rw [strContains, hpt]
    exact hsub)]
  rw [hruns]
  show ((runStarts b.start [String.mk text]).foldr _ []) ≠ []
  rw [show runStarts b.start [String.mk text] =
    [(b.start, String.mk text)] from rfl]
  show ((occPositions payload.data (String.mk text).data).map _) ++ [] ≠ []
  have := occPositions_ne_nil hsub
  simp only [List.append_nil, ne_eq, List.map_eq_nil_iff]
  exact this

theorem boldRequestsFor_cons (b : Block) (doc : List Block) (payload : String) :
    boldRequestsFor (b :: doc) payload =
      (if b.isPara then boldRequestsForBlock b payload else []) ++
        boldRequestsFor doc payload := rfl

theorem boldRequestsFor_ne_nil {doc : List Block} {b : Block}
    {payload : String} (hmem : b ∈ doc) (hp : b.isPara = true)
    (hne : boldRequestsForBlock b payload ≠ []) :
    boldRequestsFor doc payload ≠ [] := by
  induction doc with
  | nil => simp at hmem
  | cons d doc' ih =>
    rw [boldRequestsFor_cons]
    rcases List.mem_cons.mp hmem with h1 | h1
    · subst h1
      intro hcon
      exact hne (by
        have := (List.append_eq_nil.mp hcon).1
        rwa [if_pos (by simp [hp])] at this)
    · intro hcon
      exact ih h1 (List.append_eq_nil.mp hcon).2

theorem firstMarkerDoc_none_nm {segss : List (List Seg)}
    (h : firstMarkerDoc segss = none) :
    ∀ segs ∈ segss, firstMarkerSegs segs = none := by
  induction segss with
  | nil => intro s hs; simp at hs
  | cons segs segss' ih =>
    rw [firstMarkerDoc] at h
    cases hfs : firstMarkerSegs segs with
    | some ip => rw [hfs] at h; exact absurd h (by simp)
    | none =>
      rw [hfs] at h
      intro s hs
      rcases List.mem_cons.mp hs with h1 | h1
      · rw [h1]; exact hfs
      · exact ih h s h1

theorem firstMarkerDoc_none_markers {segss : List (List Seg)}
    (h : firstMarkerDoc segss = none) : docMarkers segss = [] := by
  induction segss with
  | nil => rfl
  | cons segs segss' ih =>
    rw [firstMarkerDoc] at h
    cases hfs : firstMarkerSegs segs with
    | some ip => rw [hfs] at h; exact absurd h (by simp)
    | none =>
      rw [hfs] at h
      rw [docMarkers_cons, segMarkers_nil_of_nm (firstMarkerSegs_none_nm hfs),
        List.nil_append]
      exact ih h

theorem getParagraphMarker_none_doc :
    ∀ (doc : List Block) (segss : List (List Seg)),
      renderedDocB doc segss = true → docWFB segss = true →
      (∀ segs ∈ segss, firstMarkerSegs segs = none) →
      getParagraphMarker doc = none := by
  intro doc
  induction doc with
  | nil => intro _ _ _ _; rfl
  | cons b doc' ih =>
    intro segss hrd hwf hnone
    cases segss with
    | nil => exact absurd hrd (by simp [renderedDocB])
    | cons segs segss' =>
      rw [renderedDocB, Bool.and_eq_true] at hrd
      have hfm : findMarkerL (paraText b).data = none := by
        rw [paraText_rendered hrd.1]
        exact findMarkerL_none segs
          (fun sg hsg => List.all_eq_true.mp
            (docWFB_mem hwf (by simp)) sg hsg)
          (fun i' p' hm =>
            firstMarkerSegs_none_nm (hnone segs (by simp)) i' p' hm)
      rw [getParagraphMarker, hfm]
      exact ih segss' hrd.2
        (by
          rw [docWFB, List.all_cons, Bool.and_eq_true] at hwf
          rw [docWFB]
          exact (List.all_eq_true.mpr (fun s hs =>
            List.all_eq_true.mp (docWFB_mem (by
              rw [docWFB, List.all_cons, Bool.and_eq_true]
              exact ⟨hwf.1, hwf.2⟩) (List.mem_cons_of_mem _ hs)) |> fun f =>
                by exact List.all_eq_true.mpr (fun sg hsg => f sg hsg))))
        (fun s hs => hnone s (by simp [hs]))

theorem boldLoopGo_nofind (f : Nat) (doc : List Block)
    (h : getParagraphMarker doc = none) :
    boldLoopGo (f + 1) doc = (doc, [], [], 0) := by
  rw [boldLoopGo, h]

theorem boldLoopGo_found (f : Nat) (doc : List Block)
    (entire payload : String)
    (h : getParagraphMarker doc = some (entire, payload)) :
    boldLoopGo (f + 1) doc =
      (if strTrim payload == "" then
        ((boldLoopGo f (reindex (applyRequestsDoc doc
            [Request.replaceAllText entire payload true]))).1,
         (boldLoopGo f (reindex (applyRequestsDoc doc
            [Request.replaceAllText entire payload true]))).2.1,
         (boldLoopGo f (reindex (applyRequestsDoc doc
            [Request.replaceAllText entire payload true]))).2.2.1,
         (boldLoopGo f (reindex (applyRequestsDoc doc
            [Request.replaceAllText entire payload true]))).2.2.2 + 1)
      else
        ((boldLoopGo f (reindex (applyRequestsDoc doc
            [Request.replaceAllText entire payload true]))).1,
         (if (boldRequestsFor (reindex (applyRequestsDoc doc
              [Request.replaceAllText entire payload true])) payload).isEmpty
          then [] else [payload]) ++
           (boldLoopGo f (reindex (applyRequestsDoc doc
            [Request.replaceAllText entire payload true]))).2.1,
         boldRequestsFor (reindex (applyRequestsDoc doc
            [Request.replaceAllText entire payload true])) payload ++
           (boldLoopGo f (reindex (applyRequestsDoc doc
            [Request.replaceAllText entire payload true]))).2.2.1,
         (boldLoopGo f (reindex (applyRequestsDoc doc
            [Request.replaceAllText entire payload true]))).2.2.2 + 1)) := by
  rw [boldLoopGo, h]

/-- Invariant of the pass loop: on a document rendered from well-formed
segments with pairwise-distinct marker ids, the loop performs exactly
min(span count, fuel) replacement passes, the final document renders from
well-formed segments holding exactly the unprocessed spans, and every
processed span whose payload does not trim to nothing has its payload
recorded as styled. -/
theorem boldLoop_spec :
    ∀ (fuel : Nat) (doc : List Block) (segss : List (List Seg)),
      renderedDocB doc segss = true → docWFB segss = true →
      ((docMarkers segss).map Prod.fst).Nodup →
      (boldLoopGo fuel doc).2.2.2 = min (docMarkers segss).length fuel ∧
      ∃ segss' : List (List Seg),
        renderedDocB (boldLoopGo fuel doc).1 segss' = true ∧
        docWFB segss' = true ∧
        docMarkers segss' =
          (docMarkers segss).drop (min (docMarkers segss).length fuel) ∧
        ∀ ip ∈ (docMarkers segss).take (min (docMarkers segss).length fuel),
          strTrim (String.mk ip.2) ≠ "" →
            String.mk ip.2 ∈ (boldLoopGo fuel doc).2.1 := by
  intro fuel
  induction fuel with
  | zero =>
    intro doc segss hrd hwf _
    exact ⟨by simp [boldLoopGo], segss, by simpa [boldLoopGo] using hrd, hwf,
      by simp, by simp⟩
  | succ f ih =>
    intro doc segss hrd hwf hids
    cases hfm : firstMarkerDoc segss with
    | none =>
      have hdm := firstMarkerDoc_none_markers hfm
      have hgp := getParagraphMarker_none_doc doc segss hrd hwf
        (firstMarkerDoc_none_nm hfm)
      rw [boldLoopGo_nofind f doc hgp]
      exact ⟨by simp [hdm], segss, hrd, hwf, by simp [hdm], by simp [hdm]⟩
    | some ip =>
      obtain ⟨i, p⟩ := ip
      have hstep := marker_step doc segss i p hrd hwf hids hfm
      obtain ⟨preS, segsK, postS, pre, post, he, hnpre, hk, hrfd, hmk⟩ :=
        firstMarkerDoc_some_decomp hfm
      have hrd2 : renderedDocB (reindex (applyRequestsDoc doc
          [Request.replaceAllText (String.mk (renderSeg (.marker i p)))
            (String.mk p) true])) (replaceFirstDoc segss) = true := by
        rw [reindex, renderedDocB_reindexFrom]
        exact hstep.2
      have hwf2 := docWFB_replaceFirstDoc hwf
      have hids2 : ((docMarkers (replaceFirstDoc segss)).map Prod.fst).Nodup := by
        rw [hmk, List.map_cons, List.nodup_cons] at hids
        exact hids.2
      obtain ⟨hcount, segss', hrd', hwf', hdrop, htake⟩ :=
        ih (reindex (applyRequestsDoc doc
          [Request.replaceAllText (String.mk (renderSeg (.marker i p)))
            (String.mk p) true])) (replaceFirstDoc segss) hrd2 hwf2 hids2
      have hminsucc : min (docMarkers segss).length (f + 1) =
          min (docMarkers (replaceFirstDoc segss)).length f + 1 := by
        rw [hmk, List.length_cons]
        exact Nat.succ_min_succ _ _
      rw [boldLoopGo_found f doc _ _ hstep.1]
      cases htrim : (strTrim (String.mk p) == "") with
      | true =>
        rw [if_pos rfl]
        refine ⟨?_, segss', hrd', hwf', ?_, ?_⟩
        · show (boldLoopGo f (reindex (applyRequestsDoc doc
          [Request.replaceAllText (String.mk (renderSeg (.marker i p)))
            (String.mk p) true]))).2.2.2 + 1 = _
          rw [hcount, hminsucc]
        · rw [hminsucc, hmk, List.drop_succ_cons]
          exact hdrop
        · intro ip hip htr
          rw [hminsucc, hmk, List.take_succ_cons] at hip
          rcases List.mem_cons.mp hip with h1 | h1
          · subst h1
            exact absurd (eq_of_beq htrim) htr
          · exact htake ip h1 htr
      | false =>
        rw [if_neg (by simp)]
        have hmarkerWF : segWFB (.marker i p) = true := by
          have hKmem : segsK ∈ segss := by rw [he]; simp
          exact List.all_eq_true.mp (docWFB_mem hwf hKmem)
            (Seg.marker i p) (by rw [hk]; simp)
        have hpne : p ≠ [] := by
          simp only [segWFB, Bool.and_eq_true] at hmarkerWF
          simpa using hmarkerWF.1.2
        have hrne : boldRequestsFor (reindex (applyRequestsDoc doc
          [Request.replaceAllText (String.mk (renderSeg (.marker i p)))
            (String.mk p) true])) (String.mk p) ≠ [] := by
          rw [hrfd] at hrd2
          obtain ⟨preB2, bk2, postB2, hdoc2, hpr2, hbk2, hpo2⟩ :=
            renderedDocB_decomp preS _ postS _ hrd2
          have hKne2 : (pre.map Seg.plain ++ Seg.plain p :: post) ≠ [] := by
            intro hcon
            exact absurd (List.append_eq_nil.mp hcon).2 (by simp)
          obtain ⟨hip2, hruns2⟩ := rendered_isPara hbk2 hKne2
          have hsub : hasSubstrL (String.mk p).data
              (renderSegs (pre.map Seg.plain ++ Seg.plain p :: post)) = true := by
            rw [renderSegs_append, renderSegs_cons,
              show renderSeg (Seg.plain p) = p from rfl]
            exact hasSubstrL_mid p _ _ hpne
          exact boldRequestsFor_ne_nil (by rw [hdoc2]; simp) hip2
            (boldRequestsForBlock_single_run bk2 (String.mk p) _ hruns2
              hip2 hsub)
        refine ⟨?_, segss', hrd', hwf', ?_, ?_⟩
        · show (boldLoopGo f (reindex (applyRequestsDoc doc
          [Request.replaceAllText (String.mk (renderSeg (.marker i p)))
            (String.mk p) true]))).2.2.2 + 1 = _
          rw [hcount, hminsucc]
        · rw [hminsucc, hmk, List.drop_succ_cons]
          exact hdrop
        · intro ip hip htr
          rw [hminsucc, hmk, List.take_succ_cons] at hip
          rcases List.mem_cons.mp hip with h1 | h1
          · subst h1
            show String.mk p ∈
              (if (boldRequestsFor (reindex (applyRequestsDoc doc
          [Request.replaceAllText (String.mk (renderSeg (.marker i p)))
            (String.mk p) true])) (String.mk p)).isEmpty
               then [] else [String.mk p]) ++ (boldLoopGo f (reindex (applyRequestsDoc doc
          [Request.replaceAllText (String.mk (renderSeg (.marker i p)))
            (String.mk p) true]))).2.1
            rw [if_neg (by
              intro hcon
              exact hrne (by simpa using hcon))]
            simp
          · have := htake ip h1 htr
            show String.mk ip.2 ∈
              (if (boldRequestsFor (reindex (applyRequestsDoc doc
          [Request.replaceAllText (String.mk (renderSeg (.marker i p)))
            (String.mk p) true])) (String.mk p)).isEmpty
               then [] else [String.mk p]) ++ (boldLoopGo f (reindex (applyRequestsDoc doc
          [Request.replaceAllText (String.mk (renderSeg (.marker i p)))
            (String.mk p) true]))).2.1
            exact List.mem_append_right _ this

theorem segMarkers_mem_marker :
    ∀ {segs : List Seg} {i p : List Char},
      (i, p) ∈ segMarkers segs → Seg.marker i p ∈ segs := by
  intro segs
  induction segs with
  | nil => intro i p h; simp [segMarkers] at h
  | cons sg rest ih =>
    intro i p h
    cases sg with
    | plain s => exact List.mem_cons_of_mem _ (ih h)
    | marker j q =>
      rw [segMarkers] at h
      rcases List.mem_cons.mp h with h1 | h1
      · injection h1 with e1 e2
        subst e1; subst e2
        simp
      · exact List.mem_cons_of_mem _ (ih h1)

theorem renderedDocB_mem :
    ∀ (doc : List Block) (segss : List (List Seg)),
      renderedDocB doc segss = true → ∀ b ∈ doc,
        ∃ segs ∈ segss, renderedBlockB b segs = true := by
  intro doc
  induction doc with
  | nil => intro segss _ b hb; simp at hb
  | cons d doc' ih =>
    intro segss hrd b hb
    cases segss with
    | nil => exact absurd hrd (by simp [renderedDocB])
    | cons segs segss' =>
      rw [renderedDocB, Bool.and_eq_true] at hrd
      rcases List.mem_cons.mp hb with h1 | h1
      · exact ⟨segs, by simp, h1 ▸ hrd.1⟩
      · obtain ⟨sg, hsg, hr⟩ := ih segss' hrd.2 b h1
        exact ⟨sg, by simp [hsg], hr⟩

theorem renderedDocB_mem_rev :
    ∀ (doc : List Block) (segss : List (List Seg)),
      renderedDocB doc segss = true → ∀ segs ∈ segss,
        ∃ b ∈ doc, renderedBlockB b segs = true := by
  intro doc
  induction doc with
  | nil =>
    intro segss hrd segs hs
    cases segss with
    | nil => simp at hs
    | cons x xs => exact absurd hrd (by simp [renderedDocB])
  | cons d doc' ih =>
    intro segss hrd segs hs
    cases segss with
    | nil => simp at hs
    | cons sg segss' =>
      rw [renderedDocB, Bool.and_eq_true] at hrd
      rcases List.mem_cons.mp hs with h1 | h1
      · exact ⟨d, by simp, h1 ▸ hrd.1⟩
      · obtain ⟨b, hb, hr⟩ := ih segss' hrd.2 segs h1
        exact ⟨b, by simp [hb], hr⟩

theorem render_atfree {segs : List Seg}
    (hwf : ∀ sg ∈ segs, segWFB sg = true)
    (hnm : ∀ i p, Seg.marker i p ∉ segs) :
    ∀ c ∈ renderSegs segs, c ≠ '@' := by
  induction segs with
  | nil => intro c hc; simp [renderSegs] at hc
  | cons sg rest ih =>
    intro c hc
    rw [renderSegs_cons] at hc
    cases sg with
    | plain s =>
      rcases List.mem_append.mp hc with h | h
      · exact freeB_ne_at (by simpa [segWFB] using hwf (.plain s) (by simp)) h
      · exact ih (fun x hx => hwf x (by simp [hx]))
          (fun i p hm => hnm i p (by simp [hm])) c h
    | marker j q => exact absurd (by simp) (hnm j q)

theorem hasSubstrL_atfree {Z cs : List Char} (h : ∀ c ∈ cs, c ≠ '@') :
    hasSubstrL ('@' :: Z) cs = false := by
  have := @hasSubstrL_skip cs Z [] h
  rw [List.append_nil] at this
  rw [this]
  rfl

/-- C5: on a document rendered from finitely many well-formed marker spans
with pairwise-distinct ids, the pass loop of applyBoldMarkers performs
exactly min(span count, 50) replacement passes — so it terminates after at
most as many passes as there are spans, never exceeds the 50-pass ceiling,
stops when no span matches, and each pass removes exactly the first-found
span, leaving precisely the spans after the processed prefix. -/
theorem markerStyler_termination (doc : List Block) (segss : List (List Seg))
    (hrd : renderedDocB doc segss = true) (hwf : docWFB segss = true)
    (hids : ((docMarkers segss).map Prod.fst).Nodup) :
    (applyBoldMarkersModel doc).2.2.2 ≤ (docMarkers segss).length ∧
    (applyBoldMarkersModel doc).2.2.2 ≤ 50 ∧
    (applyBoldMarkersModel doc).2.2.2 = min (docMarkers segss).length 50 ∧
    ∃ segss' : List (List Seg),
      renderedDocB (applyBoldMarkersModel doc).1 segss' = true ∧
      docMarkers segss' =
        (docMarkers segss).drop (min (docMarkers segss).length 50) := by
  obtain ⟨hcount, segss', hrd', _, hdrop, _⟩ :=
    boldLoop_spec 50 doc segss hrd hwf hids
  rw [applyBoldMarkersModel]
  exact ⟨hcount ▸ Nat.min_le_left _ _, hcount ▸ Nat.min_le_right _ _,
    hcount, segss', hrd', hdrop⟩

/-- C4 (amended): for at most 50 well-formed marker spans with pairwise
distinct ids whose payloads do not trim to nothing, after the pass loop of
applyBoldMarkers finishes no delimiter text remains anywhere in the
document, and every span's payload received emphasis styling requests. -/
theorem markerStyler_complete (doc : List Block) (segss : List (List Seg))
    (hrd : renderedDocB doc segss = true) (hwf : docWFB segss = true)
    (hids : ((docMarkers segss).map Prod.fst).Nodup)
    (hle : (docMarkers segss).length ≤ 50)
    (hnb : ∀ ip ∈ docMarkers segss, strTrim (String.mk ip.2) ≠ "") :
    (∀ b ∈ (applyBoldMarkersModel doc).1,
      strContains (paraText b) (String.mk openDel) = false) ∧
    ∀ ip ∈ docMarkers segss,
      String.mk ip.2 ∈ (applyBoldMarkersModel doc).2.1 := by
  obtain ⟨_, segss', hrd', hwf', hdrop, htake⟩ :=
    boldLoop_spec 50 doc segss hrd hwf hids
  have hmin : min (docMarkers segss).length 50 = (docMarkers segss).length :=
    Nat.min_eq_left hle
  rw [hmin] at hdrop htake
  rw [List.drop_length] at hdrop
  rw [List.take_length] at htake
  rw [applyBoldMarkersModel]
  constructor
  · intro b hb
    obtain ⟨segs, hsegs, hrb⟩ :=
      renderedDocB_mem (boldLoopGo 50 doc).1 segss' hrd' b hb
    have hnm : ∀ i p, Seg.marker i p ∉ segs := by
      intro i p hm
      have h1 : (i, p) ∈ docMarkers segss' := by
        rw [docMarkers]
        exact List.mem_join.mpr ⟨segMarkers segs,
          List.mem_map_of_mem _ hsegs, mem_segMarkers hm⟩
      rw [hdrop] at h1
      simp at h1
    have hat : ∀ c ∈ (paraText b).data, c ≠ '@' := by
      rw [paraText_rendered hrb]
      exact render_atfree
        (fun sg hsg => List.all_eq_true.mp (docWFB_mem hwf' hsegs) sg hsg) hnm
    rw [strContains]
    show hasSubstrL openDel (paraText b).data = false
    rw [show openDel = '@' :: ['@', 'B', 'O', 'L', 'D', '-'] from rfl]
    exact hasSubstrL_atfree hat
  · exact fun ip hip => htake ip hip (hnb ip hip)

/-! ## Concrete marker documents -/

def wSegs5a : List Seg :=
  [Seg.plain "Intro ".data, Seg.marker "a".data "one".data,
   Seg.plain " tail".data]

def wSegs5b : List Seg := [Seg.marker "b2".data "two".data]

def wSegss5 : List (List Seg) := [wSegs5a, wSegs5b]

def wDoc5 : List Block :=
  [⟨1, 1, 60, true, [String.mk (renderSegs wSegs5a)]⟩,
   ⟨2, 60, 90, true, [String.mk (renderSegs wSegs5b)]⟩]

/-- 51 pairwise-distinct marker ids. -/
def wIds4 : List String := ["a0", "a1", "a2", "a3", "a4", "a5", "a6", "a7", "a8", "a9", "b0", "b1", "b2", "b3", "b4", "b5", "b6", "b7", "b8", "b9", "c0", "c1", "c2", "c3", "c4", "c5", "c6", "c7", "c8", "c9", "d0", "d1", "d2", "d3", "d4", "d5", "d6", "d7", "d8", "d9", "e0", "e1", "e2", "e3", "e4", "e5", "e6", "e7", "e8", "e9", "f0"]

def wSegss4 : List (List Seg) :=
  wIds4.map (fun i => [Seg.marker i.data "x".data])

def wDoc4 : List Block :=
  wIds4.map (fun i =>
    ⟨1, 1, 2, true, [String.mk (renderSegs [Seg.marker i.data "x".data])]⟩)

/-- Witness for C5 on a two-span document. -/
theorem markerStyler_termination_witness :
    (applyBoldMarkersModel wDoc5).2.2.2 ≤ (docMarkers wSegss5).length ∧
    (applyBoldMarkersModel wDoc5).2.2.2 ≤ 50 ∧
    (applyBoldMarkersModel wDoc5).2.2.2 = min (docMarkers wSegss5).length 50 ∧
    ∃ segss' : List (List Seg),
      renderedDocB (applyBoldMarkersModel wDoc5).1 segss' = true ∧
      docMarkers segss' =
        (docMarkers wSegss5).drop (min (docMarkers wSegss5).length 50) :=
  markerStyler_termination wDoc5 wSegss5 (by decide) (by decide) (by decide)

/-- Witness for the amended C4 on a two-span document. -/
theorem markerStyler_complete_witness :
    (∀ b ∈ (applyBoldMarkersModel wDoc5).1,
      strContains (paraText b) (String.mk openDel) = false) ∧
    ∀ ip ∈ docMarkers wSegss5,
      String.mk ip.2 ∈ (applyBoldMarkersModel wDoc5).2.1 :=
  markerStyler_complete wDoc5 wSegss5 (by decide) (by decide) (by decide)
    (by decide) (by decide)

/-- Counterexample to C4 as stated: 51 well-formed marker spans with
pairwise distinct ids exceed the 50-pass ceiling, so a span's delimiter
text is left in the finished document. -/
theorem markerStyler_ceiling_leaves_span :
    docWFB wSegss4 = true ∧
    ((docMarkers wSegss4).map Prod.fst).Nodup ∧
    (applyBoldMarkersModel wDoc4).2.2.2 = 50 ∧
    ∃ b ∈ (applyBoldMarkersModel wDoc4).1,
      strContains (paraText b) (String.mk openDel) = true := by
  have hrd : renderedDocB wDoc4 wSegss4 = true := by decide
  have hwf : docWFB wSegss4 = true := by decide
  have hids : ((docMarkers wSegss4).map Prod.fst).Nodup := by decide
  obtain ⟨hcount, segss', hrd', hwf', hdrop, _⟩ :=
    boldLoop_spec 50 wDoc4 wSegss4 hrd hwf hids
  have hlen : (docMarkers wSegss4).length = 51 := by decide
  refine ⟨hwf, hids, ?_, ?_⟩
  · show (boldLoopGo 50 wDoc4).2.2.2 = 50
    rw [hcount, hlen]
    decide
  · have hdrop51 : docMarkers segss' = [("f0".data, "x".data)] := by
      rw [hdrop]
      decide
    have hmem : ("f0".data, "x".data) ∈ docMarkers segss' := by
      rw [hdrop51]
      simp
    have hex : ∃ segs ∈ segss', Seg.marker "f0".data "x".data ∈ segs := by
      rw [docMarkers] at hmem
      obtain ⟨l, hl, hml⟩ := List.mem_join.mp hmem
      obtain ⟨segs, hsegs, hEq⟩ := List.mem_map.mp hl
      exact ⟨segs, hsegs, segMarkers_mem_marker (hEq ▸ hml)⟩
    obtain ⟨segs, hsegs, hm⟩ := hex
    obtain ⟨b, hb, hrb⟩ := renderedDocB_mem_rev _ segss' hrd' segs hsegs
    refine ⟨b, hb, ?_⟩
    have hsub : hasSubstrL openDel (renderSegs segs) = true := by
      obtain ⟨s1, s2, hl⟩ := List.append_of_mem hm
      rw [hl, renderSegs_append, renderSegs_cons, renderMark_split]
      simp only [List.append_assoc]
      exact hasSubstrL_mid openDel _ _ (by decide)
    show hasSubstrL (String.mk openDel).data (paraText b).data = true
    rw [paraText_rendered hrb]
    exact hsub

/-- A token-free, marker-free document. -/
def wDoc8 : List Block := [⟨1, 1, 30, true, ["Plain resume line with text\n"]⟩]

/-- C8: on a document with no slot tokens and no marker spans, the resolver
builds no substitution request and the styler performs no pass, issues no
style request, and returns the document unchanged. -/
theorem resolverStyler_noop (doc : List Block) (data : List (String × String))
    (hph : foundPlaceholders doc = [])
    (hmk : getParagraphMarker doc = none) :
    buildPlaceholderRequests doc data = [] ∧
    applyBoldMarkersModel doc = (doc, [], [], 0) := by
  constructor
  · rw [buildPlaceholderRequests, hph]
    rfl
  · rw [applyBoldMarkersModel]
    exact boldLoopGo_nofind 49 doc hmk

/-- Witness for C8. -/
theorem resolverStyler_noop_witness :
    buildPlaceholderRequests wDoc8 [("name", "A")] = [] ∧
    applyBoldMarkersModel wDoc8 = (wDoc8, [], [], 0) :=
  resolverStyler_noop wDoc8 [("name", "A")] (by decide) (by decide)

/-! ## SeparatorFixer (fixCompanyLocationBars) -/

/-- The adjacently rendered field pairs checked by fixCompanyLocationBars:
company_i with company_location_i and institution_i with degree_i for
i = 1..5, in the source's push order. -/
def barPairs : List (String × String) :=
  [("company_1", "company_location_1"), ("company_2", "company_location_2"),
   ("company_3", "company_location_3"), ("company_4", "company_location_4"),
   ("company_5", "company_location_5"),
   ("institution_1", "degree_1"), ("institution_2", "degree_2"),
   ("institution_3", "degree_3"), ("institution_4", "degree_4"),
   ("institution_5", "degree_5")]

/-- The request for one pair: built only when both values are truthy
(JavaScript: a string is falsy exactly when it is empty or the key is
missing, which getVal maps to the empty string). -/
def barReq (data : List (String × String)) (pr : String × String) :
    Option Request :=
  if getVal data pr.1 ≠ "" ∧ getVal data pr.2 ≠ "" then
    some (Request.replaceAllText
      (getVal data pr.1 ++ " " ++ getVal data pr.2)
      (getVal data pr.1 ++ " | " ++ getVal data pr.2) true)
  else none

/-- All requests of the single batch sent by fixCompanyLocationBars (the
batch is sent only when this list is nonempty). -/
def fixCompanyLocationBarsRequests (data : List (String × String)) :
    List Request :=
  barPairs.filterMap (barReq data)

/-- C9: for every adjacently rendered field pair, SeparatorFixer builds the
request replacing the two values joined by one space with the two values
joined by a spaced bar exactly when both values are non-empty; every
request in the batch arises from such a pair, and the batch is empty iff
every pair has an empty member. -/
theorem separatorFixer_correct (data : List (String × String)) :
    (∀ pr ∈ barPairs,
      getVal data pr.1 ≠ "" → getVal data pr.2 ≠ "" →
        Request.replaceAllText
          (getVal data pr.1 ++ " " ++ getVal data pr.2)
          (getVal data pr.1 ++ " | " ++ getVal data pr.2) true ∈
          fixCompanyLocationBarsRequests data) ∧
    (∀ r ∈ fixCompanyLocationBarsRequests data, ∃ pr ∈ barPairs,
      getVal data pr.1 ≠ "" ∧ getVal data pr.2 ≠ "" ∧
      r = Request.replaceAllText
        (getVal data pr.1 ++ " " ++ getVal data pr.2)
        (getVal data pr.1 ++ " | " ++ getVal data pr.2) true) ∧
    (fixCompanyLocationBarsRequests data = [] ↔
      ∀ pr ∈ barPairs, getVal data pr.1 = "" ∨ getVal data pr.2 = "") := by
  refine ⟨?_, ?_, ?_⟩
  · intro pr hpr h1 h2
    rw [fixCompanyLocationBarsRequests]
    exact List.mem_filterMap.mpr ⟨pr, hpr, by rw [barReq, if_pos ⟨h1, h2⟩]⟩
  · intro r hr
    obtain ⟨pr, hpr, hreq⟩ := List.mem_filterMap.mp hr
    by_cases hc : getVal data pr.1 ≠ "" ∧ getVal data pr.2 ≠ ""
    · rw [barReq, if_pos hc] at hreq
      injection hreq with hreq
      exact ⟨pr, hpr, hc.1, hc.2, hreq.symm⟩
    · rw [barReq, if_neg hc] at hreq
      exact absurd hreq (by simp)
  · constructor
    · intro hnil pr hpr
      by_contra hcon
      push_neg at hcon
      have : barReq data pr ≠ none := by
        rw [barReq, if_pos ⟨hcon.1, hcon.2⟩]
        simp
      have hmem : barReq data pr = none := by
        have := List.filterMap_eq_nil_iff.mp hnil pr hpr
        exact this
      exact this hmem
    · intro hall
      rw [fixCompanyLocationBarsRequests]
      refine List.filterMap_eq_nil_iff.mpr ?_
      intro pr hpr
      rw [barReq, if_neg ?_]
      rcases hall pr hpr with h | h
      · exact fun hc => hc.1 h
      · exact fun hc => hc.2 h

def wData9 : List (String × String) :=
  [("company_1", "Acme"), ("company_location_1", "Remote")]

/-- Witness for C9: Scenario B, company Acme at location Remote. -/
theorem separatorFixer_correct_witness :
    Request.replaceAllText
      (getVal wData9 "company_1" ++ " " ++ getVal wData9 "company_location_1")
      (getVal wData9 "company_1" ++ " | " ++ getVal wData9 "company_location_1")
      true ∈ fixCompanyLocationBarsRequests wData9 ∧
    getVal wData9 "company_1" ++ " " ++ getVal wData9 "company_location_1" =
      "Acme Remote" ∧
    getVal wData9 "company_1" ++ " | " ++ getVal wData9 "company_location_1" =
      "Acme | Remote" :=
  ⟨(separatorFixer_correct wData9).1 ("company_1", "company_location_1")
    (by decide) (by decide) (by decide), by decide, by decide⟩

/-! ## Error handling of batch updates (replacePlaceholders pipeline)

The pipeline runs its stages in a fixed order; each stage may send
batchUpdate calls.  Whether a rejected call is caught is determined by the
source's try/catch structure:
- removeSection wraps its deleteContentRange batch in try/catch (warn);
- doReplacePlaceholders sends its substitution batch with no try/catch;
- applyBoldMarkers sends each pass's span-replacement batch with no
  try/catch, but wraps each bold-styling chunk in try/catch (warn);
- removeEmptyMarkers wraps its batch in try/catch (warn);
- removeEmptyBarLinesOneByOne wraps each per-line delete in try/catch (warn);
- fixCompanyLocationBars sends its batch with no try/catch.
An uncaught rejection propagates out of replacePlaceholders, which has no
handler of its own, so the pipeline aborts at that stage. -/

inductive Stage where
  | sectionPruner
  | placeholderResolver
  | markerStylerReplace
  | markerStylerChunk
  | markerCleanup
  | emptyLineSweeper
  | separatorFixer
deriving DecidableEq

/-- Whether the stage's batchUpdate call sits inside a try/catch. -/
def stageCaught : Stage → Bool
  | .sectionPruner => true
  | .placeholderResolver => false
  | .markerStylerReplace => false
  | .markerStylerChunk => true
  | .markerCleanup => true
  | .emptyLineSweeper => true
  | .separatorFixer => false

/-- The stages in the pipeline's call order. -/
def pipelineStages : List Stage :=
  [.sectionPruner, .placeholderResolver, .markerStylerReplace,
   .markerStylerChunk, .markerCleanup, .emptyLineSweeper, .separatorFixer]

/-- Outcome of one stage, given whether it issues a batch and whether the
remote rejects that batch: an uncaught rejection of an issued batch errors,
anything else (including a caught rejection, which only logs a warning)
succeeds. -/
def runStage (issues fails : Stage → Bool) (st : Stage) :
    Except String Unit :=
  if issues st ∧ fails st ∧ stageCaught st = false then
    Except.error "batchUpdate rejected"
  else Except.ok ()

/-- Run the pipeline, collecting the stages that were entered; an error
stops the run at the failing stage. -/
def runPipelineTrace (issues fails : Stage → Bool) :
    List Stage → (Except String Unit × List Stage)
  | [] => (Except.ok (), [])
  | st :: rest =>
    match runStage issues fails st with
    | Except.error e => (Except.error e, [st])
    | Except.ok _ =>
      let r := runPipelineTrace issues fails rest
      (r.1, st :: r.2)

def exceptIsError : Except String Unit → Bool
  | .error _ => true
  | .ok _ => false

/-- C7 (amended): a rejected batch in a stage whose call is wrapped in
try/catch (section pruner, bold-styling chunks, marker cleanup, sweeper
deletes) is absorbed and the pipeline proceeds through all stages; the
uncaught stages are exactly the placeholder-substitution batch, the
styler's span-replacement batch, and the separator-fixer batch, whose
rejection aborts the pipeline. -/
theorem pipeline_error_handling (issues fails : Stage → Bool)
    (hc : ∀ st, fails st = true → stageCaught st = true) :
    (runPipelineTrace issues fails pipelineStages).1 = Except.ok () ∧
    (runPipelineTrace issues fails pipelineStages).2 = pipelineStages ∧
    (∀ st, stageCaught st = false ↔
      (st = .placeholderResolver ∨ st = .markerStylerReplace ∨
        st = .separatorFixer)) := by
  have hok : ∀ st, runStage issues fails st = Except.ok () := by
    intro st
    rw [runStage, if_neg]
    rintro ⟨-, hf, hcaught⟩
    rw [hc st hf] at hcaught
    exact absurd hcaught (by simp)
  have hrun : ∀ l : List Stage,
      runPipelineTrace issues fails l = (Except.ok (), l) := by
    intro l
    induction l with
    | nil => rfl
    | cons st rest ih => rw [runPipelineTrace, hok st, ih]
  refine ⟨by rw [hrun], by rw [hrun], ?_⟩
  intro st
  cases st <;> simp [stageCaught]

/-- Counterexample to C7 as stated: on a document whose resolver would send
a substitution batch, a rejection of that batch is not caught — the
pipeline aborts at the placeholder-resolver stage and the later stages
(including the separator fixer) never run. -/
theorem pipeline_abort_on_resolver_failure :
    buildPlaceholderRequests
        [⟨1, 1, 20, true, ["\x7b\x7bname\x7d\x7d line"]⟩] [("name", "A")] ≠ [] ∧
    stageCaught .placeholderResolver = false ∧
    exceptIsError
      (runPipelineTrace (fun _ => true)
        (fun st => st == .placeholderResolver) pipelineStages).1 = true ∧
    (runPipelineTrace (fun _ => true)
        (fun st => st == .placeholderResolver) pipelineStages).2 =
      [.sectionPruner, .placeholderResolver] ∧
    Stage.separatorFixer ∉
      (runPipelineTrace (fun _ => true)
        (fun st => st == .placeholderResolver) pipelineStages).2 := by
  refine ⟨by decide, by decide, by decide, by decide, by decide⟩

/-- Witness for the amended C7: a rejected marker-cleanup batch (a caught
stage) is absorbed and all stages run. -/
theorem pipeline_error_handling_witness :
    (runPipelineTrace (fun _ => true)
        (fun st => st == Stage.markerCleanup) pipelineStages).1 =
      Except.ok () ∧
    (runPipelineTrace (fun _ => true)
        (fun st => st == Stage.markerCleanup) pipelineStages).2 =
      pipelineStages ∧
    (∀ st, stageCaught st = false ↔
      (st = .placeholderResolver ∨ st = .markerStylerReplace ∨
        st = .separatorFixer)) :=
  pipeline_error_handling (fun _ => true)
    (fun st => st == Stage.markerCleanup) (by intro st; cases st <;> decide)

end ResumeGen
